import Mathlib

/-!
# cutil: the indexed list (`src/list.c`), the asynchronous descriptor engine
(`src/aiofd.c`), the bitset (`src/bitset.c`) and `sanitize_files`
(`src/sanitize.c`)

Shallow embedding.

* Memory.  The slot array `list->items` is a `List list_item_t`; a `NULL`
  array is the empty list (the code never allocates an array of zero slots).
  Every slot access goes through `ITEM_AT`, which is bounds checked: a function
  returns `none` exactly when the C code would touch a slot outside
  `[0, length)` (or, for the few loops that carry fuel, when the fuel is
  exhausted).
* Integers.  `list_itr_t` (`int_t`) is `Int`, `uint_t` is `Nat`.  A live array
  of `size` slots occupies `size * sizeof(list_item_t)` bytes of address space,
  so `size`, `count` and every handle stay far below the word size and the
  arithmetic of `list.c` on them cannot wrap; `list_grow`, `list_reserve` and
  the functions built on them are modelled without wrap-around.  The one number
  that comes from the caller is the capacity asked of `list_reserve`: for it
  the doubling loop of `list_grow` can wrap, and `list_reserve_fix`,
  `list_grow_fix` and `grow_double_fix` are the same functions in `w`-bit
  arithmetic (`uint_t` is 32 bits wide by default and 64 bits wide with
  `PORTABLE_64_BIT`, as the formats in tests/test_list.c:470-474 show); the
  two models agree whenever twice the requested capacity fits `w` bits
  (`list_reserve_fix_eq`).
  `size_t nleft` of `aiofd.c` can wrap and is modelled modulo `2 ^ 64`.
* Pointers to payloads, buffers and callbacks are `Nat` addresses, `0` is
  `NULL`.  The `int_t used` field of a slot only ever holds `TRUE` or `FALSE`
  (zeroed by `CALLOC`, assigned, or copied) and is a `Bool`.
* The outcome of `CALLOC` is an argument (`calloc_ok`) of the functions that
  allocate.  The `UNIT_TEST_RET` hooks are compiled out.
-/

namespace Cutil

/-! ## list.c : data model -/

/-- The `struct list_item_s` of list.c: one slot of the array. -/
structure list_item_t where
  next : Int
  prev : Int
  used : Bool
  data : Nat
deriving DecidableEq, Repr

/-- The `list_t` of list.h (as used by list.c). -/
structure list_t where
  dfn : Nat
  size : Nat
  count : Nat
  used_head : Int
  free_head : Int
  items : List list_item_t
deriving DecidableEq, Repr

/-- The constant `list_itr_end_t = -1`. -/
def list_itr_end_t : Int := -1

/-- Read of `items[index]`, as in `ITEM_AT(items, index)`: `none` when the
index is outside the array. -/
def ITEM_AT (items : List list_item_t) (index : Int) : Option list_item_t :=
  if 0 ≤ index then items[index.toNat]? else none

/-- Write to `items[index]`: `none` when the index is outside the array. -/
def ITEM_SET (items : List list_item_t) (index : Int)
    (f : list_item_t → list_item_t) : Option (List list_item_t) :=
  match ITEM_AT items index with
  | some it => some (items.set index.toNat (f it))
  | none => none

/-! ## list.c : private functions -/

/-- The function `remove_item(items, itr)`: unlinks `itr` from its chain and
returns the item after it (`list_itr_end_t` for a one-item chain). -/
def remove_item (items : List list_item_t) (itr : Int) :
    Option (List list_item_t × Int) :=
  if items.isEmpty then some (items, list_itr_end_t)
  else if itr = list_itr_end_t then some (items, list_itr_end_t)
  else do
    let a ← ITEM_AT items itr
    let b ← ITEM_AT items itr
    let r ←
      (if a.next ≠ itr ∧ b.prev ≠ itr then do
        let c ← ITEM_AT items itr
        let next := c.next
        let d ← ITEM_AT items itr
        let e ← ITEM_AT items itr
        let items1 ← ITEM_SET items d.prev (fun s => { s with next := e.next })
        let f ← ITEM_AT items1 itr
        let g ← ITEM_AT items1 itr
        let items2 ← ITEM_SET items1 f.next (fun s => { s with prev := g.prev })
        pure (items2, next)
      else pure (items, list_itr_end_t))
    let items3 ← ITEM_SET r.1 itr (fun s => { s with next := list_itr_end_t })
    let items4 ← ITEM_SET items3 itr (fun s => { s with prev := list_itr_end_t })
    pure (items4, r.2)

/-- The function `insert_item(items, itr, item)`: links `item` before `itr`
(as the only node when `itr` is `list_itr_end_t`). -/
def insert_item (items : List list_item_t) (itr item : Int) :
    Option (List list_item_t × Int) :=
  if items.isEmpty then some (items, list_itr_end_t)
  else if item = list_itr_end_t then some (items, list_itr_end_t)
  else if itr = list_itr_end_t then do
    let items1 ← ITEM_SET items item (fun s => { s with prev := item })
    let items2 ← ITEM_SET items1 item (fun s => { s with next := item })
    pure (items2, item)
  else do
    let items1 ← ITEM_SET items item (fun s => { s with next := itr })
    let a ← ITEM_AT items1 itr
    let items2 ← ITEM_SET items1 a.prev (fun s => { s with next := item })
    let b ← ITEM_AT items2 itr
    let items3 ← ITEM_SET items2 item (fun s => { s with prev := b.prev })
    let items4 ← ITEM_SET items3 itr (fun s => { s with prev := item })
    pure (items4, itr)

/-! ## list.c : iterators -/

/-- The function `list_itr_begin`. -/
def list_itr_begin (list : list_t) : Int :=
  if list.count = 0 then list_itr_end_t else list.used_head

/-- The function `list_itr_end`. -/
def list_itr_end (_list : list_t) : Int := list_itr_end_t

/-- The function `list_itr_tail`: the head's `prev`. -/
def list_itr_tail (list : list_t) : Option Int :=
  if list.count = 0 then some list_itr_end_t
  else do
    let h ← ITEM_AT list.items list.used_head
    pure h.prev

/-- The function `list_itr_next`. -/
def list_itr_next (list : list_t) (itr : Int) : Option Int :=
  if itr = list_itr_end_t then some list_itr_end_t
  else do
    let a ← ITEM_AT list.items itr
    if a.next ≠ list.used_head then do
      let b ← ITEM_AT list.items itr
      pure b.next
    else pure list_itr_end_t

/-- The function `list_itr_rnext`. -/
def list_itr_rnext (list : list_t) (itr : Int) : Option Int :=
  if itr = list_itr_end_t then some list_itr_end_t
  else if itr ≠ list.used_head then do
    let a ← ITEM_AT list.items itr
    pure a.prev
  else some list_itr_end_t

/-- The function `list_count`. -/
def list_count (list : list_t) : Nat := list.count

/-- The function `list_get`: the payload at `itr`, `NULL` (0) when `itr` is
the end iterator, out of range or not in use. -/
def list_get (list : list_t) (itr : Int) : Option Nat :=
  if itr = list_itr_end_t then some 0
  else if list.size = 0 then some 0
  else if ¬ (0 ≤ itr ∧ itr < (list.size : Int)) then some 0
  else do
    let a ← ITEM_AT list.items itr
    if a.used then do
      let b ← ITEM_AT list.items itr
      pure b.data
    else pure 0

/-! ## list.c : growth -/

/-- The doubling loop of `list_grow`: `do new_size <<= 1; while (new_size <
target)`, without wrap-around (`grow_double_fix` is the loop in `w`-bit
arithmetic).  The first argument bounds the number of rounds; `target` rounds
are always enough when `new_size ≥ 1`. -/
def grow_double : Nat → Nat → Nat → Nat
  | 0, new_size, _ => new_size
  | fuel + 1, new_size, target =>
    let ns := new_size <<< 1
    if ns < target then grow_double fuel ns target else ns

/-- The size computed at the top of `list_grow`. -/
def grow_new_size (size amount : Nat) : Nat :=
  if size ≠ 0 then grow_double (size + amount) size (size + amount) else amount

/-- First loop of `list_grow`: `for (i = 0; i < new_size; i++) free_head =
insert_item(items, free_head, i)`; the first argument is `new_size - i`. -/
def grow_fill : Nat → Nat → List list_item_t → Int → Option (List list_item_t × Int)
  | 0, _, items, free_head => some (items, free_head)
  | k + 1, i, items, free_head => do
    let r ← insert_item items free_head (i : Int)
    grow_fill k (i + 1) r.1 r.2

/-- Second loop of `list_grow`: moves the items of the old list, in traversal
order, into the new array.  State: new array, `free_head`, `used_head`; `itr`
is the position in the old list. -/
def grow_move (list : list_t) :
    Nat → Int → List list_item_t → Int → Int → Option (List list_item_t × Int × Int)
  | 0, itr, items, free_head, used_head =>
    if itr ≠ list_itr_end list then none else some (items, free_head, used_head)
  | fuel + 1, itr, items, free_head, used_head =>
    if itr ≠ list_itr_end list then do
      let free_item := free_head
      let r ← remove_item items free_head
      let a ← ITEM_AT list.items itr
      let items1 ← ITEM_SET r.1 free_item (fun s => { s with data := a.data })
      let b ← ITEM_AT list.items itr
      let items2 ← ITEM_SET items1 free_item (fun s => { s with used := b.used })
      let q ← insert_item items2 used_head free_item
      let nxt ← list_itr_next list itr
      grow_move list fuel nxt q.1 r.2 q.2
    else some (items, free_head, used_head)

/-- The function `list_grow(list, amount)`.  Every round of the second loop
takes a slot from the free chain of the new array, and a round on an exhausted
free chain writes `items[-1]`; the loop gets `new_size + 1` rounds. -/
def list_grow (calloc_ok : Bool) (list : list_t) (amount : Nat) :
    Option (list_t × Bool) :=
  if amount = 0 then some (list, true)
  else
    let new_size := grow_new_size list.size amount
    if ¬ calloc_ok then some (list, false)
    else do
      let items0 : List list_item_t := List.replicate new_size ⟨0, 0, false, 0⟩
      let r ← grow_fill new_size 0 items0 list_itr_end_t
      let m ← grow_move list (new_size + 1) (list_itr_begin list) r.1 r.2 list_itr_end_t
      pure ({ list with items := m.1, size := new_size,
                        used_head := m.2.2, free_head := m.2.1 }, true)

/-! ## list.c : public functions -/

/-- The function `list_init(list, initial_capacity, dfn)` on a fresh `list_t`
(every field is overwritten, so the previous contents do not matter). -/
def list_init (calloc_ok : Bool) (initial_capacity : Nat) (dfn : Nat) :
    Option (list_t × Bool) := do
  let list : list_t :=
    { dfn := dfn, size := 0, count := 0, used_head := list_itr_end_t,
      free_head := list_itr_end_t, items := [] }
  let r ← list_grow calloc_ok list initial_capacity
  if ¬ r.2 then pure (r.1, false) else pure (r.1, true)

/-- The function `list_new`: the inner `none` is the `NULL` result;
`calloc_list` is the outcome of the `CALLOC` of the `list_t`, `calloc_ok` that
of the slot array. -/
def list_new (calloc_list calloc_ok : Bool) (initial_capacity : Nat) (dfn : Nat) :
    Option (Option list_t) :=
  if ¬ calloc_list then some none
  else do
    let r ← list_init calloc_ok initial_capacity dfn
    if ¬ r.2 then pure none else pure (some r.1)

/-- Loop of `list_deinit`: calls the destructor on the payload of every item
of the traversal; returns the payloads it was called on, in call order. -/
def deinit_walk (list : list_t) : Nat → Int → Option (List Nat)
  | 0, itr => if itr ≠ list_itr_end list then none else some []
  | fuel + 1, itr =>
    if itr ≠ list_itr_end list then do
      let a ← ITEM_AT list.items itr
      let nxt ← list_itr_next list itr
      let rest ← deinit_walk list fuel nxt
      pure (a.data :: rest)
    else some []

/-- The function `list_deinit`: result, the list afterwards and the payloads
handed to the destructor.  A traversal of more than `size` steps never ends,
so `size + 1` rounds decide the loop. -/
def list_deinit (list : list_t) : Option (list_t × Bool × List Nat) :=
  if list.size = 0 then some (list, true, [])
  else do
    let calls ←
      (if list.dfn ≠ 0 then deinit_walk list (list.size + 1) (list_itr_begin list)
       else some [])
    pure ({ list with dfn := 0, size := 0, count := 0, used_head := list_itr_end_t,
                      free_head := list_itr_end_t, items := [] }, true, calls)

/-- The function `list_reserve`, in arithmetic without wrap-around
(`list_reserve_fix` is the function with its `uint` parameter and `w`-bit
`uint_t`). -/
def list_reserve (calloc_ok : Bool) (list : list_t) (amount : Nat) :
    Option (list_t × Bool) :=
  if amount > list.size then list_grow calloc_ok list (amount - list.size)
  else some (list, true)

/-- The function `list_clear`: `list_deinit`, then `list_init` with capacity 0
and the remembered destructor. -/
def list_clear (calloc_ok : Bool) (list : list_t) : Option (list_t × Bool × List Nat) := do
  let dfn := list.dfn
  let d ← list_deinit list
  if ¬ d.2.1 then pure (d.1, false, d.2.2)
  else do
    let i ← list_init calloc_ok 0 dfn
    if ¬ i.2 then pure (i.1, false, d.2.2) else pure (i.1, true, d.2.2)

/-- First loop of `list_push` on a full list: counts the steps from the head
to `itr`, at most `count`.  The first argument is `count - i`. -/
def push_find (items : List list_item_t) (itr : Int) (count : Nat) :
    Nat → Int → Nat → Option Nat
  | 0, _, i => some i
  | fuel + 1, tmp, i =>
    if tmp ≠ itr ∧ i < count then do
      let a ← ITEM_AT items tmp
      push_find items itr count fuel a.next (i + 1)
    else some i

/-- Second loop of `list_push` on a full list: `i` steps from the new head. -/
def push_walk (items : List list_item_t) : Nat → Int → Option Int
  | 0, before => some before
  | i + 1, before => do
    let a ← ITEM_AT items before
    push_walk items i a.next

/-- The last block of `list_push`: links the slot `item` into the used chain,
at the tail, at the head or before `before`. -/
def push_place (list : list_t) (item itr before the_head : Int) : Option list_t :=
  if list.count > 0 then
    if itr = list_itr_end_t then do
      let before := list.used_head
      let q ← insert_item list.items before item
      pure { list with items := q.1 }
    else if itr = the_head then do
      let q ← insert_item list.items list.used_head item
      pure { list with items := q.1, used_head := item }
    else do
      let q ← insert_item list.items before item
      pure { list with items := q.1 }
  else do
    let q ← insert_item list.items before item
    pure { list with items := q.1, used_head := q.2 }

/-- The part of `list_push` after the growth block: takes a slot from the free
chain, stores the payload, links the slot into the used chain (`push_place`)
and updates the count. -/
def push_link (list : list_t) (data : Nat) (itr before the_head : Int) :
    Option (list_t × Bool) := do
  let item := list.free_head
  let r ← remove_item list.items list.free_head
  let list1 := { list with items := r.1, free_head := r.2 }
  let items1 ← ITEM_SET list1.items item (fun s => { s with data := data })
  let items2 ← ITEM_SET items1 item (fun s => { s with used := true })
  let list2 := { list1 with items := items2 }
  let list3 ← push_place list2 item itr before the_head
  pure ({ list3 with count := list3.count + 1 }, true)

/-- The function `list_push(list, data, itr)`. -/
def list_push (calloc_ok : Bool) (list : list_t) (data : Nat) (itr : Int) :
    Option (list_t × Bool) :=
  let the_head := list.used_head
  if list.count = list.size then do
    let i ←
      (if list.count > 0 ∧ itr ≠ list_itr_end_t then
        push_find list.items itr list.count list.count list.used_head 0
      else some 0)
    if list.count > 0 ∧ itr ≠ list_itr_end_t ∧ i = list.count then pure (list, false)
    else do
      let g ← list_grow calloc_ok list 1
      if ¬ g.2 then pure (g.1, false)
      else do
        let list1 := g.1
        let before ←
          (if list1.count > 0 ∧ itr ≠ list_itr_end_t then
            push_walk list1.items i list1.used_head
          else some itr)
        push_link list1 data itr before the_head
  else push_link list data itr itr the_head

/-- The function `list_pop(list, itr)`. -/
def list_pop (list : list_t) (itr : Int) : Option (list_t × Int) :=
  if list.size = 0 then some (list, list_itr_end_t)
  else if ¬ (itr = list_itr_end_t ∨ (0 ≤ itr ∧ itr < (list.size : Int))) then
    some (list, list_itr_end_t)
  else do
    let item ← (if itr = list_itr_end_t then list_itr_tail list else some itr)
    let a ← ITEM_AT list.items item
    if ¬ a.used then pure (list, list_itr_end_t)
    else do
      let r ← remove_item list.items item
      let next := r.2
      let list1 := { list with items := r.1 }
      let list2 := if item = list1.used_head then { list1 with used_head := next } else list1
      let items1 ← ITEM_SET list2.items item (fun s => { s with data := 0 })
      let items2 ← ITEM_SET items1 item (fun s => { s with used := false })
      let q ← insert_item items2 list2.free_head item
      let list3 := { list2 with items := q.1, free_head := q.2 }
      let list4 := { list3 with count := list3.count - 1 }
      pure (list4, if itr = list_itr_end_t then list_itr_end_t else next)

/-! ## list.c : traversals used by the specification -/

/-- Forward traversal of handles: `list_itr_begin`, then `list_itr_next` until
`list_itr_end_t`. -/
def walk_handles (list : list_t) : Nat → Int → Option (List Int)
  | 0, itr => if itr ≠ list_itr_end list then none else some []
  | fuel + 1, itr =>
    if itr ≠ list_itr_end list then do
      let nxt ← list_itr_next list itr
      let rest ← walk_handles list fuel nxt
      pure (itr :: rest)
    else some []

/-- The handles of the forward traversal, head first. -/
def handles (list : list_t) : Option (List Int) :=
  walk_handles list (list.size + 1) (list_itr_begin list)

/-- The payloads read with `list_get` along the forward traversal. -/
def traversal (list : list_t) : Option (List Nat) := do
  let hs ← handles list
  hs.mapM (list_get list)

/-! ## list.c : specification vocabulary -/

/-- Slot `x` of the array, with a dummy value outside the array (only used in
statements, never by the code). -/
def slot (items : List list_item_t) (x : Nat) : list_item_t :=
  items.getD x ⟨-1, -1, false, 0⟩

/-- Slot `b` follows slot `a`: `a.next = b` and `b.prev = a`. -/
def Link (items : List list_item_t) (a b : Nat) : Prop :=
  (slot items a).next = (b : Int) ∧ (slot items b).prev = (a : Int)

/-- The slots `xs`, in this order, form a circular doubly linked chain. -/
def Circ (items : List list_item_t) (xs : List Nat) : Prop :=
  match xs with
  | [] => True
  | x :: _ => List.Chain' (Link items) (xs ++ [x])

/-- Head iterator of a chain: its first slot, `list_itr_end_t` when empty. -/
def headOf (xs : List Nat) : Int :=
  match xs with
  | [] => list_itr_end_t
  | x :: _ => (x : Int)

/-- The list is well formed, its used chain being `us` (head first) and its
free chain `fs`. -/
structure Rep (l : list_t) (us fs : List Nat) : Prop where
  len : l.items.length = l.size
  perm : List.Perm (us ++ fs) (List.range l.size)
  used_circ : Circ l.items us
  free_circ : Circ l.items fs
  uhead : l.used_head = headOf us
  fhead : l.free_head = headOf fs
  cnt : l.count = us.length
  flags : ∀ x, x < l.size → ((slot l.items x).used = true ↔ x ∈ us)

/-- Well-formedness of a list. -/
def WF (l : list_t) : Prop := ∃ us fs, Rep l us fs

/-- Effect of linking slot `x` between `p` and `q` on the array. -/
structure InsEff (items items' : List list_item_t) (p q x : Nat) : Prop where
  len : items'.length = items.length
  next_x : (slot items' x).next = (q : Int)
  prev_x : (slot items' x).prev = (p : Int)
  next_p : (slot items' p).next = (x : Int)
  prev_q : (slot items' q).prev = (x : Int)
  next_other : ∀ y, y ≠ x → y ≠ p → (slot items' y).next = (slot items y).next
  prev_other : ∀ y, y ≠ x → y ≠ q → (slot items' y).prev = (slot items y).prev
  used_eq : ∀ y, (slot items' y).used = (slot items y).used
  data_eq : ∀ y, (slot items' y).data = (slot items y).data

/-- Effect of unlinking slot `q`, which sits between `p` and `n`. -/
structure RemEff (items items' : List list_item_t) (p q n : Nat) : Prop where
  len : items'.length = items.length
  next_q : (slot items' q).next = list_itr_end_t
  prev_q : (slot items' q).prev = list_itr_end_t
  next_p : (slot items' p).next = (n : Int)
  prev_n : (slot items' n).prev = (p : Int)
  next_other : ∀ y, y ≠ q → y ≠ p → (slot items' y).next = (slot items y).next
  prev_other : ∀ y, y ≠ q → y ≠ n → (slot items' y).prev = (slot items y).prev
  used_eq : ∀ y, (slot items' y).used = (slot items y).used
  data_eq : ∀ y, (slot items' y).data = (slot items y).data

/-- Effect of clearing the links of the one-slot chain `q`. -/
structure ClrEff (items items' : List list_item_t) (q : Nat) : Prop where
  len : items'.length = items.length
  next_q : (slot items' q).next = list_itr_end_t
  prev_q : (slot items' q).prev = list_itr_end_t
  other : ∀ y, y ≠ q → slot items' y = slot items y
  used_eq : ∀ y, (slot items' y).used = (slot items y).used
  data_eq : ∀ y, (slot items' y).data = (slot items y).data

/-- Effect of making `x` a one-slot chain. -/
structure SelfEff (items items' : List list_item_t) (x : Nat) : Prop where
  len : items'.length = items.length
  next_x : (slot items' x).next = (x : Int)
  prev_x : (slot items' x).prev = (x : Int)
  other : ∀ y, y ≠ x → slot items' y = slot items y
  used_eq : ∀ y, (slot items' y).used = (slot items y).used
  data_eq : ∀ y, (slot items' y).data = (slot items y).data

/-- The array `items'` differs from `items` at most in the links of the slots
listed in `S`. -/
structure Frame (items items' : List list_item_t) (S : List Nat) : Prop where
  len : items'.length = items.length
  used_eq : ∀ y, (slot items' y).used = (slot items y).used
  data_eq : ∀ y, (slot items' y).data = (slot items y).data
  next_eq : ∀ y, y ∉ S → (slot items' y).next = (slot items y).next
  prev_eq : ∀ y, y ∉ S → (slot items' y).prev = (slot items y).prev

/-- The payloads stored in the slots `xs`, in order. -/
def payloads (items : List list_item_t) (xs : List Nat) : List Nat :=
  xs.map (fun x => (slot items x).data)

/-- Where `list_push` links the new slot `f`: the used chain before and after,
as decided by `itr`, the translated position `before` and the remembered
head `the_head`. -/
inductive PushAt (itr before the_head : Int) (f : Nat) : List Nat → List Nat → Prop
  | empty : before = list_itr_end_t → PushAt itr before the_head f [] [f]
  | tail (h : Nat) (t : List Nat) : itr = list_itr_end_t →
      PushAt itr before the_head f (h :: t) (h :: t ++ [f])
  | head (h : Nat) (t : List Nat) : itr ≠ list_itr_end_t → itr = the_head →
      PushAt itr before the_head f (h :: t) (f :: h :: t)
  | mid (h q : Nat) (l r : List Nat) : itr ≠ list_itr_end_t → itr ≠ the_head →
      before = (q : Int) →
      PushAt itr before the_head f (h :: l ++ q :: r) (h :: l ++ f :: q :: r)

/-! ## list.c : vocabulary of the claims -/

/-- The handle `itr` names a slot of the array whose used flag is set. -/
def in_use (l : list_t) (itr : Int) : Prop :=
  ∃ it, ITEM_AT l.items itr = some it ∧ it.used = true

/-- The four operations of the double-ended-queue discipline. -/
inductive deque_op where
  | push_head (v : Nat)
  | push_tail (v : Nat)
  | pop_head
  | pop_tail
deriving DecidableEq, Repr

/-- One operation on the list with allocation succeeding: `list_push` at
`list_itr_begin` or `list_itr_end_t`, `list_pop` at `list_itr_begin` or
`list_itr_end_t`.  `none` when the call faults or a push returns `FALSE`. -/
def apply_op (l : list_t) : deque_op → Option list_t
  | .push_head v =>
    match list_push true l v (list_itr_begin l) with
    | some (l', true) => some l'
    | _ => none
  | .push_tail v =>
    match list_push true l v list_itr_end_t with
    | some (l', true) => some l'
    | _ => none
  | .pop_head => (list_pop l (list_itr_begin l)).map (fun r => r.1)
  | .pop_tail => (list_pop l list_itr_end_t).map (fun r => r.1)

/-- A sequence of operations on the list. -/
def run_ops (l : list_t) : List deque_op → Option list_t
  | [] => some l
  | o :: os => (apply_op l o).bind (fun l' => run_ops l' os)

/-- One operation on the reference double-ended queue. -/
def deque_step (d : List Nat) : deque_op → List Nat
  | .push_head v => v :: d
  | .push_tail v => d ++ [v]
  | .pop_head => d.tail
  | .pop_tail => d.dropLast

/-- A sequence of operations on the reference double-ended queue. -/
def deque_run (d : List Nat) (ops : List deque_op) : List Nat :=
  ops.foldl deque_step d

/-- Every pop of the sequence is applied to a non-empty container, `n` being
the number of items held at the start. -/
def pops_guarded : Nat → List deque_op → Bool
  | _, [] => true
  | n, .push_head _ :: os => pops_guarded (n + 1) os
  | n, .push_tail _ :: os => pops_guarded (n + 1) os
  | n, .pop_head :: os => decide (0 < n) && pops_guarded (n - 1) os
  | n, .pop_tail :: os => decide (0 < n) && pops_guarded (n - 1) os

/-- Number of pushes in a sequence. -/
def count_pushes : List deque_op → Nat
  | [] => 0
  | .push_head _ :: os => count_pushes os + 1
  | .push_tail _ :: os => count_pushes os + 1
  | _ :: os => count_pushes os

/-- Number of pops in a sequence. -/
def count_pops : List deque_op → Nat
  | [] => 0
  | .pop_head :: os => count_pops os + 1
  | .pop_tail :: os => count_pops os + 1
  | _ :: os => count_pops os

/-- A full list holding the single payload 10 in slot 0. -/
def list_one_full : list_t :=
  { dfn := 0, size := 1, count := 1, used_head := 0, free_head := list_itr_end_t,
    items := [⟨0, 0, true, 10⟩] }

/-- An empty list of capacity 1, as `list_init(&list, 1, NULL)` leaves it. -/
def list_empty_cap1 : list_t :=
  { dfn := 0, size := 1, count := 0, used_head := list_itr_end_t, free_head := 0,
    items := [⟨0, 0, false, 0⟩] }

/-- The list after `list_init(&list, 2, NULL)` and two pushes at the tail:
payloads 10 and 20 in slots 0 and 1. -/
def list_two : list_t :=
  { dfn := 0, size := 2, count := 2, used_head := 0, free_head := list_itr_end_t,
    items := [⟨1, 1, true, 10⟩, ⟨0, 0, true, 20⟩] }

/-- The list after `list_init(&list, 4, NULL)` and two pushes at the tail:
payloads 10 and 20 in slots 0 and 1, slots 2 and 3 free. -/
def list_two_of_four : list_t :=
  { dfn := 0, size := 4, count := 2, used_head := 0, free_head := 2,
    items := [⟨1, 1, true, 10⟩, ⟨0, 0, true, 20⟩, ⟨3, 3, false, 0⟩, ⟨2, 2, false, 0⟩] }

/-- The list `list_two_of_four` with a destructor (at address 7) set. -/
def list_two_of_four_dtor : list_t :=
  { list_two_of_four with dfn := 7 }

/-- What `list_push(&list, 30, 3)` makes of `list_two_of_four`: the new slot 2
is linked to the free slot 3, not into the used chain. -/
def list_two_of_four_broken : list_t :=
  { dfn := 0, size := 4, count := 3, used_head := 0, free_head := 3,
    items := [⟨1, 1, true, 10⟩, ⟨0, 0, true, 20⟩, ⟨3, 3, true, 30⟩, ⟨2, 2, false, 0⟩] }

/-- The list after `list_init(&list, 2, NULL)`, a push of 10 at the tail and a
push of 20 at the head: full, traversal 20, 10 through the handles 1, 0. -/
def list_rev2 : list_t :=
  { dfn := 0, size := 2, count := 2, used_head := 1, free_head := list_itr_end_t,
    items := [⟨1, 1, true, 10⟩, ⟨0, 0, true, 20⟩] }

/-! ## list.c : reverse traversal and tail pops -/

/-- Reverse traversal of handles: from `itr`, `list_itr_rnext` until
`list_itr_end_t`. -/
def rwalk_handles (list : list_t) : Nat → Int → Option (List Int)
  | 0, itr => if itr ≠ list_itr_end list then none else some []
  | fuel + 1, itr =>
    if itr ≠ list_itr_end list then do
      let nxt ← list_itr_rnext list itr
      let rest ← rwalk_handles list fuel nxt
      pure (itr :: rest)
    else some []

/-- The handles of the reverse traversal: `list_itr_tail`, then
`list_itr_rnext` until `list_itr_end_t`.  A traversal of more than `size`
steps never ends, so `size + 1` rounds decide the loop. -/
def rhandles (list : list_t) : Option (List Int) := do
  let t ← list_itr_tail list
  rwalk_handles list (list.size + 1) t

/-- The payloads read with `list_get` along the reverse traversal. -/
def rtraversal (list : list_t) : Option (List Nat) := do
  let hs ← rhandles list
  hs.mapM (list_get list)

/-- The loop `n` times: read the payload at `list_itr_tail` with `list_get`,
then `list_pop(list, list_itr_end_t)`.  The result is the list afterwards and
the payloads read, in order. -/
def pop_tail_n : Nat → list_t → Option (list_t × List Nat)
  | 0, l => some (l, [])
  | n + 1, l => do
    let t ← list_itr_tail l
    let v ← list_get l t
    let r ← list_pop l list_itr_end_t
    let rest ← pop_tail_n n r.1
    pure (rest.1, v :: rest.2)

/-! ## list.c : growth in fixed-width arithmetic

`list_reserve` takes the requested capacity from the caller as a `uint` (32
bits) and `list_grow` computes the new size in `uint_t`, `w` bits wide.  The
doubling `new_size <<= 1` can then wrap, and once `new_size` is 0 the
`do ... while` loop never ends, so the loop carries fuel here: `none` is a
loop that has not been left after `fuel` rounds.  Slot indices are `int_t`,
as wide as `uint_t`: what these functions do after the size computation is
only stated for new arrays of fewer than `2 ^ (w - 1)` slots, where every
index fits.
-/

/-- The doubling loop of `list_grow`, `do new_size <<= 1; while (new_size <
target)`, in `w`-bit unsigned arithmetic; `none` when the loop has not been
left after `fuel` rounds. -/
def grow_double_fix (w : Nat) : Nat → Nat → Nat → Option Nat
  | 0, _, _ => none
  | fuel + 1, new_size, target =>
    let ns := (new_size <<< 1) % 2 ^ w
    if ns < target then grow_double_fix w fuel ns target else some ns

/-- The size computed at the top of `list_grow` in `w`-bit unsigned
arithmetic: the target of the loop is `list->size + amount`. -/
def grow_new_size_fix (w fuel size amount : Nat) : Option Nat :=
  if size ≠ 0 then grow_double_fix w fuel size ((size + amount) % 2 ^ w) else some amount

/-- The part of `list_grow` after the size computation: allocation of the new
array of `new_size` slots, the two loops and the update of the `list_t`. -/
def list_grow_at (calloc_ok : Bool) (list : list_t) (new_size : Nat) :
    Option (list_t × Bool) :=
  if ¬ calloc_ok then some (list, false)
  else do
    let items0 : List list_item_t := List.replicate new_size ⟨0, 0, false, 0⟩
    let r ← grow_fill new_size 0 items0 list_itr_end_t
    let m ← grow_move list (new_size + 1) (list_itr_begin list) r.1 r.2 list_itr_end_t
    pure ({ list with items := m.1, size := new_size,
                      used_head := m.2.2, free_head := m.2.1 }, true)

/-- The function `list_grow(list, amount)` with `uint_t` `w` bits wide. -/
def list_grow_fix (w fuel : Nat) (calloc_ok : Bool) (list : list_t) (amount : Nat) :
    Option (list_t × Bool) :=
  if amount = 0 then some (list, true)
  else
    match grow_new_size_fix w fuel list.size amount with
    | none => none
    | some new_size => list_grow_at calloc_ok list new_size

/-- The function `list_reserve(list, amount)` with its `uint amount` parameter
(32 bits) and `uint_t` `w` bits wide. -/
def list_reserve_fix (w fuel : Nat) (calloc_ok : Bool) (list : list_t) (amount : Nat) :
    Option (list_t × Bool) :=
  let amount := amount % 2 ^ 32
  if amount > list.size then list_grow_fix w fuel calloc_ok list (amount - list.size)
  else some (list, true)

/-! ## aiofd.c : the write path

* The write queue `aiofd->wbuf` is an `array_t`; `array.c` is not part of the
  sources, so the queue is a `List` with the head first (see `array_*` below).
* `events.c` is not part of the sources either; a subscription is the flag
  "started" (see `evt_start_event_handler`, `evt_stop_event_handler`).
* The descriptor and the owner's callbacks are the environment of a
  write-ready event: `wr i call` is the result of the `i`-th `write`/`writev`
  call of the event, `cb i buffer` the value returned by the `i`-th callback
  invocation of the event.  Callbacks do not re-enter the engine.
* `iovs iov` gives the `iov_len` fields of the `struct iovec` array at address
  `iov`.
-/

/-- The `aiofd_write_t` of aiofd.c: a queued write request. -/
structure aiofd_write_t where
  data : Nat
  size : Nat
  iov : Bool
  nleft : Nat
deriving DecidableEq, Repr

/-- The callbacks of `aiofd_ops_t` used by aiofd.c (function pointers, `0` is
`NULL`). -/
structure aiofd_ops_t where
  read_fn : Nat
  write_fn : Nat
  error_fn : Nat
deriving DecidableEq, Repr

/-- The `aiofd_t` of aiofd.h, as used by aiofd.c.  `wevt` and `revt` are the
two event handlers, reduced to their started flag. -/
structure aiofd_t where
  wfd : Int
  rfd : Int
  wbuf : List aiofd_write_t
  wevt : Bool
  revt : Bool
  el : Nat
  user_data : Nat
  ops : aiofd_ops_t
deriving DecidableEq, Repr

/-- Width of `size_t`. -/
def SIZE_BITS : Nat := 64

/-- The `errno` value `EAGAIN` (Linux). -/
def EAGAIN : Int := 11

/-- The `errno` value `EWOULDBLOCK` (Linux: the same as `EAGAIN`). -/
def EWOULDBLOCK : Int := 11

/-- Result of a `write`/`writev` call: the byte count when it is not negative,
else `-1` with `errno`. -/
inductive write_res where
  | written (n : Nat)
  | failed (errno : Int)
deriving DecidableEq, Repr

/-- Arguments of one `write(fd, buf, count)` or `writev(fd, iov, iovcnt)`
call: the address, the count and whether it is `writev`. -/
structure write_call where
  buf : Nat
  count : Nat
  vectored : Bool
deriving DecidableEq, Repr

/-- A callback invocation made by the engine. -/
inductive cb_event where
  | write_complete (buffer : Nat)
  | error (errno : Int)
  | readable (nread : Nat)
deriving DecidableEq, Repr

/-- Modelled from the spec: `array_size` of the missing array.c, the number of
queued requests. -/
def array_size (wbuf : List aiofd_write_t) : Nat := wbuf.length

/-- Modelled from the spec: `array_get_head` of the missing array.c, the oldest
queued request. -/
def array_get_head (wbuf : List aiofd_write_t) : Option aiofd_write_t := wbuf.head?

/-- Modelled from the spec: `array_pop_head` of the missing array.c, removal of
the oldest queued request. -/
def array_pop_head (wbuf : List aiofd_write_t) : List aiofd_write_t := wbuf.tail

/-- Modelled from the spec: `array_push_tail` of the missing array.c, FIFO
enqueue; `push_ok = false` is a failed growth of the array, which leaves the
queue as it was. -/
def array_push_tail (push_ok : Bool) (wbuf : List aiofd_write_t) (wb : aiofd_write_t) :
    List aiofd_write_t :=
  if push_ok then wbuf ++ [wb] else wbuf

/-- Modelled from the spec: `evt_start_event_handler` of the missing events.c,
idempotent activation of a subscription. -/
def evt_start_event_handler (_started : Bool) : Bool := true

/-- Modelled from the spec: `evt_stop_event_handler` of the missing events.c,
idempotent deactivation of a subscription. -/
def evt_stop_event_handler (_started : Bool) : Bool := false

/-- State of one run of `aiofd_write_fn`: the engine, the local
`keep_evt_on`, the callbacks invoked so far and the `write`/`writev` calls made
so far. -/
structure wstate where
  aiofd : aiofd_t
  keep_evt_on : Bool
  calls : List cb_event
  writes : List write_call
deriving DecidableEq, Repr

/-- How one round of the `while` loop of `aiofd_write_fn` ends: `again` goes
back to the loop test, `brk` leaves the loop for the code after it (the
`break`, and also the loop test failing), `ret` is the `return EVT_OK` of the
error path. -/
inductive wstep where
  | again (s : wstate)
  | brk (s : wstate)
  | ret (s : wstate)
deriving DecidableEq, Repr

/-- The statement `wb->nleft -= written` in `size_t` arithmetic. -/
def nleft_sub (nleft written : Nat) : Nat :=
  (nleft % 2 ^ SIZE_BITS + (2 ^ SIZE_BITS - written % 2 ^ SIZE_BITS)) % 2 ^ SIZE_BITS

/-- One round of the `while` loop of `aiofd_write_fn`, `wb` being the head of
the queue. -/
def aiofd_write_round (wr : Nat → write_call → write_res) (cb : Nat → Nat → Bool)
    (s : wstate) (wb : aiofd_write_t) : wstep :=
  let call : write_call := ⟨wb.data, wb.size, wb.iov⟩
  let written := wr s.writes.length call
  let s1 := { s with writes := s.writes ++ [call] }
  match written with
  | write_res.failed errno =>
    if errno = EAGAIN ∨ errno = EWOULDBLOCK then wstep.brk s1
    else if s1.aiofd.ops.error_fn ≠ 0 then
      wstep.ret { s1 with calls := s1.calls ++ [cb_event.error errno] }
    else wstep.ret s1
  | write_res.written n =>
    let wb1 := { wb with nleft := nleft_sub wb.nleft n }
    if wb1.nleft = 0 then
      let s2 := { s1 with aiofd := { s1.aiofd with wbuf := array_pop_head s1.aiofd.wbuf } }
      if s2.aiofd.ops.write_fn ≠ 0 then
        wstep.again { s2 with keep_evt_on := cb s2.calls.length wb1.data,
                              calls := s2.calls ++ [cb_event.write_complete wb1.data] }
      else wstep.again s2
    else
      wstep.again { s1 with aiofd := { s1.aiofd with wbuf := wb1 :: s1.aiofd.wbuf.tail } }

/-- The `while (array_size(&wbuf) > 0)` loop of `aiofd_write_fn`; `none` when
the fuel runs out while the queue is not empty. -/
def aiofd_write_loop (wr : Nat → write_call → write_res) (cb : Nat → Nat → Bool) :
    Nat → wstate → Option wstep
  | 0, s => if array_size s.aiofd.wbuf > 0 then none else some (wstep.brk s)
  | fuel + 1, s =>
    if array_size s.aiofd.wbuf > 0 then
      match array_get_head s.aiofd.wbuf with
      | none => none
      | some wb =>
        match aiofd_write_round wr cb s wb with
        | wstep.again s' => aiofd_write_loop wr cb fuel s'
        | r => some r
    else some (wstep.brk s)

/-- The function `aiofd_write_fn`, the handler of a write-ready event: the
engine afterwards, with the callbacks invoked and the `write`/`writev` calls
made, in order. -/
def aiofd_write_fn (wr : Nat → write_call → write_res) (cb : Nat → Nat → Bool)
    (fuel : Nat) (aiofd : aiofd_t) : Option wstate :=
  match aiofd_write_loop wr cb fuel ⟨aiofd, true, [], []⟩ with
  | none => none
  | some (wstep.ret s) => some s
  | some (wstep.again s) => some s
  | some (wstep.brk s) =>
    let s1 :=
      if s.aiofd.ops.write_fn ≠ 0 then
        { s with keep_evt_on := cb s.calls.length 0,
                 calls := s.calls ++ [cb_event.write_complete 0] }
      else s
    if ¬ s1.keep_evt_on then
      some { s1 with aiofd := { s1.aiofd with wevt := evt_stop_event_handler s1.aiofd.wevt } }
    else some s1

/-- The function `aiofd_write_common`: the engine afterwards (`none` is a
`NULL` engine) and the result. -/
def aiofd_write_common (calloc_ok push_ok : Bool) (aiofd : Option aiofd_t)
    (buffer cnt total : Nat) (iov : Bool) : Option aiofd_t × Bool :=
  match aiofd with
  | none => (none, false)
  | some a =>
    if buffer = 0 then (some a, false)
    else if ¬ cnt > 0 then (some a, false)
    else if ¬ calloc_ok then (some a, false)
    else
      let wb : aiofd_write_t := ⟨buffer, cnt, iov, total⟩
      let a1 := { a with wbuf := array_push_tail push_ok a.wbuf wb }
      (some { a1 with wevt := evt_start_event_handler a1.wevt }, true)

/-- The function `aiofd_write`. -/
def aiofd_write (calloc_ok push_ok : Bool) (aiofd : Option aiofd_t) (buffer n : Nat) :
    Option aiofd_t × Bool :=
  aiofd_write_common calloc_ok push_ok aiofd buffer n n false

/-- The function `aiofd_writev`: the byte total is summed in `size_t` over the
first `iovcnt` segments before anything is checked; `none` is the fault of
reading `iov[0]` through a `NULL` vector. -/
def aiofd_writev (iovs : Nat → List Nat) (calloc_ok push_ok : Bool) (aiofd : Option aiofd_t)
    (iov iovcnt : Nat) : Option (Option aiofd_t × Bool) :=
  if iov = 0 ∧ 0 < iovcnt then none
  else
    let total := (((iovs iov).take iovcnt).foldl
      (fun t len => (t + len) % 2 ^ SIZE_BITS) 0)
    some (aiofd_write_common calloc_ok push_ok aiofd iov iovcnt total true)

/-- The function `aiofd_initialize` on the zeroed struct `aiofd_new` hands it;
`ops = none` and `el = 0` are `NULL` arguments.  A failed check returns before
anything is written. -/
def aiofd_initialize (write_fd read_fd : Int) (ops : Option aiofd_ops_t) (el user_data : Nat) :
    aiofd_t :=
  let zero : aiofd_t := ⟨0, 0, [], false, false, 0, 0, ⟨0, 0, 0⟩⟩
  match ops with
  | none => zero
  | some o =>
    if el = 0 then zero
    else if ¬ write_fd ≥ 0 then zero
    else if ¬ read_fd ≥ 0 then zero
    else ⟨write_fd, read_fd, [], false, false, el, user_data, o⟩

/-- Bytes covered by one `write`/`writev` call. -/
def bytes_submitted (iovs : Nat → List Nat) (call : write_call) : Nat :=
  if call.vectored then ((iovs call.buf).take call.count).sum else call.count

/-- A request handed to `aiofd_write` (buffer, length) or `aiofd_writev`
(vector, segment count). -/
inductive enqueue_req where
  | plain (buffer n : Nat)
  | vector (iov iovcnt : Nat)
deriving DecidableEq, Repr

/-- The buffer reference of a request. -/
def enqueue_req.buffer_ref : enqueue_req → Nat
  | .plain buffer _ => buffer
  | .vector iov _ => iov

/-- The request is valid: non-`NULL` buffer and positive length or segment
count. -/
def enqueue_req.valid : enqueue_req → Prop
  | .plain buffer n => buffer ≠ 0 ∧ 0 < n
  | .vector iov iovcnt => iov ≠ 0 ∧ 0 < iovcnt

/-- Enqueues the requests in order with `aiofd_write` / `aiofd_writev`,
allocation succeeding; `none` when a call faults or returns `FALSE`. -/
def enqueue_all (iovs : Nat → List Nat) (a : aiofd_t) : List enqueue_req → Option aiofd_t
  | [] => some a
  | .plain buffer n :: rs =>
    match aiofd_write true true (some a) buffer n with
    | (some a', true) => enqueue_all iovs a' rs
    | _ => none
  | .vector iov iovcnt :: rs =>
    match aiofd_writev iovs true true (some a) iov iovcnt with
    | some (some a', true) => enqueue_all iovs a' rs
    | _ => none

/-- States of an engine reachable from a freshly created one by enqueues and
write-ready events, for any descriptor behaviour, callback results and
allocation outcomes, the owner never calling `aiofd_enable_write_evt`. -/
inductive Reachable (iovs : Nat → List Nat) : aiofd_t → Prop
  | init (write_fd read_fd : Int) (ops : aiofd_ops_t) (el user_data : Nat) :
      0 ≤ write_fd → 0 ≤ read_fd → el ≠ 0 →
      Reachable iovs ( aiofd_initialize write_fd read_fd (some ops) el user_data)
  | write (a a' : aiofd_t) (c p r : Bool) (buffer n : Nat) :
      Reachable iovs a → aiofd_write c p (some a) buffer n = (some a', r) →
      Reachable iovs a'
  | writev (a a' : aiofd_t) (c p r : Bool) (iov iovcnt : Nat) :
      Reachable iovs a → aiofd_writev iovs c p (some a) iov iovcnt = some (some a', r) →
      Reachable iovs a'
  | event (a : aiofd_t) (wr : Nat → write_call → write_res) (cb : Nat → Nat → Bool)
      (fuel : Nat) (s : wstate) :
      Reachable iovs a → aiofd_write_fn wr cb fuel a = some s → Reachable iovs s.aiofd

/-- The request record `aiofd_write` / `aiofd_writev` queue for a request. -/
def enqueue_req.record (iovs : Nat → List Nat) : enqueue_req → aiofd_write_t
  | .plain buffer n => ⟨buffer, n, false, n⟩
  | .vector iov iovcnt =>
    ⟨iov, iovcnt, true,
      ((iovs iov).take iovcnt).foldl (fun t len => (t + len) % 2 ^ SIZE_BITS) 0⟩

/-- An engine on descriptor 3 with `onWriteComplete` installed, as
`aiofd_initialize` leaves it. -/
def engine_fresh : aiofd_t :=
  aiofd_initialize 3 3 (some ⟨0, 7, 0⟩) 1 0

/-- The engine `engine_fresh` after `aiofd_write(aiofd, buffer 100, 3)`: one
pending request of three bytes, write subscription started. -/
def engine_one_pending : aiofd_t :=
  ⟨3, 3, [⟨100, 3, false, 3⟩], true, false, 1, 0, ⟨0, 7, 0⟩⟩

/-- A descriptor that reports `EAGAIN` on every attempt. -/
def wr_would_block : Nat → write_call → write_res :=
  fun _ _ => write_res.failed EAGAIN

/-- A descriptor that accepts 2 bytes, then 3 bytes, then reports `EAGAIN`. -/
def wr_two_then_three : Nat → write_call → write_res :=
  fun i _ => if i = 0 then write_res.written 2
    else if i = 1 then write_res.written 3 else write_res.failed EAGAIN

/-- A descriptor that accepts 1 byte, then reports `EAGAIN`. -/
def wr_one_then_block : Nat → write_call → write_res :=
  fun i _ => if i = 0 then write_res.written 1 else write_res.failed EAGAIN

/-- A descriptor that accepts every byte submitted (no vectors in memory). -/
def wr_accept_all : Nat → write_call → write_res :=
  fun _ call => write_res.written (bytes_submitted (fun _ => []) call)

/-! ## aiofd.c : creation, teardown, the read path and the subscriptions

* The outcome of the one `ioctl(FIONREAD)` of a read-ready event and of the one
  `read` of `aiofd_read` are arguments of the model; the system calls made are
  recorded (`sys_call`), so that "nothing was read" is a statement about the
  record.
* `rcb nread` is the value the owner's `onReadable` returns when it is given
  the count `nread`.
-/

/-- The `errno` value `EPIPE` (Linux). -/
def EPIPE : Int := 32

/-- A system call made by the read side or by `aiofd_flush`. -/
inductive sys_call where
  | ioctl_fionread (fd : Int)
  | read (fd : Int) (buffer : Nat) (n : Int)
  | fsync (fd : Int)
deriving DecidableEq, Repr

/-- Outcome of `ioctl(fd, FIONREAD, &nread)`: the count left in `nread`, or a
negative result with `errno`. -/
inductive ioctl_res where
  | avail (nread : Nat)
  | failed (errno : Int)
deriving DecidableEq, Repr

/-- The function `aiofd_new`: `none` is the `NULL` returned when `CALLOC`
fails.  `aiofd_initialize` has no result, so the allocated struct is returned
whatever `aiofd_initialize` did with it. -/
def aiofd_new (calloc_ok : Bool) (write_fd read_fd : Int) (ops : Option aiofd_ops_t)
    (el user_data : Nat) : Option aiofd_t :=
  if ¬ calloc_ok then none
  else some ( aiofd_initialize write_fd read_fd ops el user_data)

/-- Modelled from the spec: `array_deinitialize` of the missing array.c, which
hands every queued request to the destructor given to `array_initialize`
(`FREE` here), oldest first, and leaves the queue empty.  The result is the
queue afterwards and the requests handed to the destructor. -/
def array_deinitialize (wbuf : List aiofd_write_t) :
    List aiofd_write_t × List aiofd_write_t :=
  ([], wbuf)

/-- Outcome of `aiofd_deinitialize`: the engine afterwards, the owner's
callbacks invoked and the queued requests handed to the destructor. -/
structure dstate where
  aiofd : aiofd_t
  calls : List cb_event
  freed : List aiofd_write_t
deriving DecidableEq, Repr

/-- The function `aiofd_deinitialize`: stops both subscriptions and tears
down the write queue; it never calls through `ops`. -/
def aiofd_deinitialize (aiofd : aiofd_t) : dstate :=
  let a1 := { aiofd with wevt := evt_stop_event_handler aiofd.wevt }
  let a2 := { a1 with revt := evt_stop_event_handler a1.revt }
  let r := array_deinitialize a2.wbuf
  ⟨{ a2 with wbuf := r.1 }, [], r.2⟩

/-- The function `aiofd_enable_write_evt`: the engine afterwards (`none` is a
`NULL` engine) and the result. -/
def aiofd_enable_write_evt (aiofd : Option aiofd_t) (enable : Int) : Option aiofd_t × Bool :=
  match aiofd with
  | none => (none, false)
  | some a =>
    if enable ≠ 0 then (some { a with wevt := evt_start_event_handler a.wevt }, true)
    else (some { a with wevt := evt_stop_event_handler a.wevt }, true)

/-- The function `aiofd_enable_read_evt`: the engine afterwards (`none` is a
`NULL` engine) and the result. -/
def aiofd_enable_read_evt (aiofd : Option aiofd_t) (enable : Int) : Option aiofd_t × Bool :=
  match aiofd with
  | none => (none, false)
  | some a =>
    if enable ≠ 0 then (some { a with revt := evt_start_event_handler a.revt }, true)
    else (some { a with revt := evt_stop_event_handler a.revt }, true)

/-- The conversions `(int)res` and `(int32_t)res` of a `ssize_t`. -/
def to_int32 (x : Int) : Int := (x + 2147483648) % 4294967296 - 2147483648

/-- Outcome of `aiofd_read`: the engine (it is passed as a pointer to
`const` and never written), the result, the callbacks invoked and the system
calls made. -/
structure read_out where
  aiofd : Option aiofd_t
  ret : Int
  calls : List cb_event
  sys : List sys_call
deriving DecidableEq, Repr

/-- The function `aiofd_read(aiofd, buffer, n)`; `res` is what the `read` call
returns and `errno` the error code it leaves when it fails. -/
def aiofd_read (res errno : Int) (aiofd : Option aiofd_t) (buffer : Nat) (n : Int) :
    read_out :=
  match aiofd with
  | none => ⟨none, 0, [], []⟩
  | some a =>
    if buffer = 0 then ⟨some a, 0, [], []⟩
    else if ¬ n > 0 then ⟨some a, 0, [], []⟩
    else
      let sys := [sys_call.read a.rfd buffer n]
      if to_int32 res = 0 then
        -- case 0: errno = EPIPE, then falls through to case -1
        if a.ops.error_fn ≠ 0 then ⟨some a, 0, [cb_event.error EPIPE], sys⟩
        else ⟨some a, 0, [], sys⟩
      else if to_int32 res = -1 then
        if a.ops.error_fn ≠ 0 then ⟨some a, 0, [cb_event.error errno], sys⟩
        else ⟨some a, 0, [], sys⟩
      else ⟨some a, to_int32 res, [], sys⟩

/-- State at the end of `aiofd_read_fn`: the engine, the local `keep_going`,
the callbacks invoked and the system calls made. -/
structure rstate where
  aiofd : aiofd_t
  keep_going : Bool
  calls : List cb_event
  sys : List sys_call
deriving DecidableEq, Repr

/-- The function `aiofd_read_fn`, the handler of a read-ready event; `io` is
the outcome of its `ioctl(FIONREAD)`. -/
def aiofd_read_fn (io : ioctl_res) (rcb : Nat → Bool) (aiofd : aiofd_t) : rstate :=
  let sys := [sys_call.ioctl_fionread aiofd.rfd]
  match io with
  | ioctl_res.failed errno =>
    if aiofd.ops.error_fn ≠ 0 then ⟨aiofd, true, [cb_event.error errno], sys⟩
    else ⟨aiofd, true, [], sys⟩
  | ioctl_res.avail nread =>
    let s1 : rstate :=
      if aiofd.ops.read_fn ≠ 0 then ⟨aiofd, rcb nread, [cb_event.readable nread], sys⟩
      else ⟨aiofd, true, [], sys⟩
    if s1.keep_going = false then
      { s1 with aiofd := { s1.aiofd with revt := evt_stop_event_handler s1.aiofd.revt } }
    else s1

/-- The function `aiofd_flush`: the engine, the result and the system calls
made. -/
def aiofd_flush (aiofd : Option aiofd_t) : Option aiofd_t × Bool × List sys_call :=
  match aiofd with
  | none => (none, false, [])
  | some a => (some a, true, [sys_call.fsync a.wfd, sys_call.fsync a.rfd])

/-- What happens to an engine between its creation and its teardown: a call of
the owner or an event delivered by the loop, with the behaviour of the
environment during it. -/
inductive engine_op where
  | enable_read_evt (enable : Int)
  | enable_write_evt (enable : Int)
  | read_event (io : ioctl_res) (rcb : Nat → Bool)
  | write_event (wr : Nat → write_call → write_res) (cb : Nat → Nat → Bool) (fuel : Nat)
  | read (res errno : Int) (buffer : Nat) (n : Int)
  | write (calloc_ok push_ok : Bool) (buffer n : Nat)
  | writev (iovs : Nat → List Nat) (calloc_ok push_ok : Bool) (iov iovcnt : Nat)
  | flush

/-- The engine after one `engine_op`; `none` when the call faults or the
write-ready event does not return within its fuel. -/
def engine_step (a : aiofd_t) : engine_op → Option aiofd_t
  | .enable_read_evt enable => (aiofd_enable_read_evt (some a) enable).1
  | .enable_write_evt enable => (aiofd_enable_write_evt (some a) enable).1
  | .read_event io rcb => some (aiofd_read_fn io rcb a).aiofd
  | .write_event wr cb fuel =>
    match aiofd_write_fn wr cb fuel a with
    | none => none
    | some s => some s.aiofd
  | .read res errno buffer n => (aiofd_read res errno (some a) buffer n).aiofd
  | .write calloc_ok push_ok buffer n => (aiofd_write calloc_ok push_ok (some a) buffer n).1
  | .writev iovs calloc_ok push_ok iov iovcnt =>
    match aiofd_writev iovs calloc_ok push_ok (some a) iov iovcnt with
    | none => none
    | some r => r.1
  | .flush => (aiofd_flush (some a)).1

/-- An engine on descriptors 3 (write) and 4 (read) with the three callbacks
installed, empty queue, read subscription started. -/
def engine_reading : aiofd_t :=
  ⟨3, 4, [], false, true, 1, 0, ⟨5, 7, 9⟩⟩

/-- The engine `engine_reading` with two queued requests (buffers 100 and 200)
and the write subscription started. -/
def engine_two_pending : aiofd_t :=
  ⟨3, 4, [⟨100, 3, false, 3⟩, ⟨200, 2, false, 2⟩], true, true, 1, 0, ⟨5, 7, 9⟩⟩

/-! ## bitset.c

* `bits` is the array of `uint32_t` words, each a `Nat` below `2 ^ 32`; `none`
  is a `NULL` array and `some []` the array of zero words that a successful
  `CALLOC(0, sizeof(uint32_t))` hands out.  A word access outside the array
  (or through a `NULL` array) makes the function return `none`.
* `size_t` is 64 bits wide (`SIZE_BITS`), so the addition in `DWORDS_NEEDED`
  wraps; `~0x1f` converted to `size_t` is `2 ^ 64 - 32`.
* The `bitset_t *` arguments are taken to be non-`NULL`.
-/

/-- The `bitset_t` of bitset.h, as used by bitset.c. -/
structure bitset_t where
  bits : Option (List Nat)
  num_bits : Nat
deriving DecidableEq, Repr

/-- The macro `DWORDS_NEEDED(x) ((x + 0x1f) & ~0x1f)` on a `size_t`. -/
def DWORDS_NEEDED (x : Nat) : Nat :=
  ((x + 31) % 2 ^ SIZE_BITS) &&& 18446744073709551584

/-- The macro `DWORD_INDEX(x) (x & ~0x1f)` on a `size_t`. -/
def DWORD_INDEX (x : Nat) : Nat :=
  (x % 2 ^ SIZE_BITS) &&& 18446744073709551584

/-- The macro `BIT(x) ((uint32_t)(1 << (x & 0x1f)))`. -/
def BIT (x : Nat) : Nat :=
  (1 <<< (x &&& 31)) % 2 ^ 32

/-- The function `bset_initialize`.  When the allocation fails `CHECK_PTR`
returns before `num_bits` is stored, so the field keeps the value it had. -/
def bset_initialize (calloc_ok : Bool) (bset : bitset_t) (num_bits : Nat) : bitset_t :=
  let b1 : bitset_t := { bset with bits := none }
  if num_bits > 0 then
    if ¬ calloc_ok then b1
    else { bits := some (List.replicate (DWORDS_NEEDED num_bits) 0), num_bits := num_bits }
  else { b1 with num_bits := num_bits }

/-- The function `bset_new`: `none` is the `NULL` result; `calloc_bset` is the
outcome of the `CALLOC` of the `bitset_t` (which zeroes it), `calloc_ok` that
of the word array. -/
def bset_new (calloc_bset calloc_ok : Bool) (num_bits : Nat) : Option bitset_t :=
  if ¬ num_bits > 0 then none
  else if ¬ calloc_bset then none
  else some ( bset_initialize calloc_ok ⟨none, 0⟩ num_bits)

/-- The function `bset_set`: the bitset afterwards and the result. -/
def bset_set (bset : bitset_t) (bit : Nat) : Option (bitset_t × Bool) :=
  if ¬ bit < bset.num_bits then some (bset, false)
  else do
    let ws ← bset.bits
    let w ← ws[DWORD_INDEX bit]?
    pure ({ bset with bits := some (ws.set (DWORD_INDEX bit) (w ||| BIT bit)) }, true)

/-- The function `bset_clear`: the bitset afterwards and the result; `~BIT(bit)`
is the complement of a `uint32_t`. -/
def bset_clear (bset : bitset_t) (bit : Nat) : Option (bitset_t × Bool) :=
  if ¬ bit < bset.num_bits then some (bset, false)
  else do
    let ws ← bset.bits
    let w ← ws[DWORD_INDEX bit]?
    pure ({ bset with bits := some (ws.set (DWORD_INDEX bit) (w &&& (BIT bit ^^^ 4294967295))) },
      true)

/-- The function `bset_test`. -/
def bset_test (bset : bitset_t) (bit : Nat) : Option Bool :=
  if ¬ bit < bset.num_bits then some false
  else do
    let ws ← bset.bits
    let w ← ws[DWORD_INDEX bit]?
    pure (decide (w &&& BIT bit ≠ 0))

/-- The loop `for (i = 0; i < DWORDS_NEEDED(num_bits); i++) bits[i] = v` of
`bset_clear_all` and `bset_set_all`; the first argument is the number of
rounds left. -/
def bset_sweep (v : Nat) : Nat → Nat → List Nat → Option (List Nat)
  | 0, _, ws => some ws
  | k + 1, i, ws => if i < ws.length then bset_sweep v k (i + 1) (ws.set i v) else none

/-- The function `bset_clear_all`. -/
def bset_clear_all (bset : bitset_t) : Option bitset_t :=
  if ¬ bset.num_bits > 0 then some bset
  else
    match bset.bits with
    | none => some bset
    | some ws =>
      match bset_sweep 0 (DWORDS_NEEDED bset.num_bits) 0 ws with
      | none => none
      | some ws1 => some { bset with bits := some ws1 }

/-- The function `bset_set_all`. -/
def bset_set_all (bset : bitset_t) : Option bitset_t :=
  if ¬ bset.num_bits > 0 then some bset
  else
    match bset.bits with
    | none => some bset
    | some ws =>
      match bset_sweep 4294967295 (DWORDS_NEEDED bset.num_bits) 0 ws with
      | none => none
      | some ws1 => some { bset with bits := some ws1 }

/-- A bitset of `num_bits > 0` bits with its word array, as `bset_initialize`
leaves it when the allocation succeeds and `DWORDS_NEEDED` does not wrap. -/
def bset_wf (bset : bitset_t) : Prop :=
  0 < bset.num_bits ∧ bset.num_bits + 31 < 2 ^ SIZE_BITS ∧
  ∃ ws, bset.bits = some ws ∧ ws.length = DWORDS_NEEDED bset.num_bits

/-- A bitset of 40 bits in which only bit 33 is set (word 32, mask 2). -/
def bset_forty : bitset_t :=
  ⟨some ((List.replicate (DWORDS_NEEDED 40) 0).set 32 2), 40⟩

/-! ## sanitize.c : `sanitize_files`

* The descriptor table is the environment of the call (`san_env`):
  `GETDTABLESIZE()` returns `dtablesize`; `FSTAT(fd, &st)` succeeds when
  `fstat fd` is `none` and fails with `errno = e` when it is `some e`;
  `freopen` of `/dev/null` on the standard stream of `fd` returns a stream
  whose descriptor is `n` when `freopen fd` is `some n`, and `NULL` when it is
  `none`.
* The `close` calls are recorded in call order.
* `keep` is the array `keep[]`; a read outside it makes the function return
  `none`.
-/

/-- The fallback `OPEN_MAX` of sanitize.c. -/
def OPEN_MAX : Int := 256

/-- The descriptor `STDIN_FILENO`. -/
def STDIN_FILENO : Int := 0

/-- The descriptor `STDOUT_FILENO`. -/
def STDOUT_FILENO : Int := 1

/-- The descriptor `STDERR_FILENO`. -/
def STDERR_FILENO : Int := 2

/-- The `errno` value `EBADF` (Linux). -/
def EBADF : Int := 9

/-- The environment of a `sanitize_files` call. -/
structure san_env where
  dtablesize : Int
  fstat : Int → Option Int
  freopen : Int → Option Int

/-- The function `open_devnull(fd)`: `f && (fileno(f) == fd)`. -/
def open_devnull (env : san_env) (fd : Int) : Bool :=
  let f : Option Int :=
    if fd = STDIN_FILENO then env.freopen STDIN_FILENO
    else if fd = STDOUT_FILENO then env.freopen STDOUT_FILENO
    else if fd = STDERR_FILENO then env.freopen STDERR_FILENO
    else none
  match f with
  | none => false
  | some n => decide (n = fd)

/-- The inner loop of `sanitize_files`: `for (i = 0; i < nfds; i++) if
(keep[i] == fd) skip = TRUE`; the first argument is `nfds - i`. -/
def keep_scan (keep : List Int) (fd : Int) : Nat → Nat → Bool → Option Bool
  | 0, _, skip => some skip
  | k + 1, i, skip =>
    match keep[i]? with
    | none => none
    | some x => keep_scan keep fd k (i + 1) (if x = fd then true else skip)

/-- The first loop of `sanitize_files`: `for (fd = STDERR_FILENO + 1; fd < fds;
fd++)`, closing every descriptor that the inner loop did not find in `keep`;
the first argument is `fds - fd`, the last the descriptors closed so far. -/
def close_loop (keep : List Int) (nfds : Int) : Nat → Int → List Int → Option (List Int)
  | 0, _, closed => some closed
  | k + 1, fd, closed =>
    match keep_scan keep fd nfds.toNat 0 false with
    | none => none
    | some skip =>
      close_loop keep nfds k (fd + 1) (if ¬ skip then closed ++ [fd] else closed)

/-- The second loop of `sanitize_files`: `for (fd = STDIN_FILENO; fd <=
STDERR_FILENO; fd++)`, returning `FALSE` at the first standard descriptor that
is neither open nor reopened; the first argument is the number of rounds
left. -/
def std_loop (env : san_env) : Nat → Int → Bool
  | 0, _ => true
  | k + 1, fd =>
    match env.fstat fd with
    | none => std_loop env k (fd + 1)
    | some errno =>
      if errno ≠ EBADF ∨ ¬ open_devnull env fd then false
      else std_loop env k (fd + 1)

/-- Outcome of `sanitize_files`: the result and the descriptors passed to
`close`, in call order. -/
structure san_out where
  ret : Bool
  closed : List Int
deriving DecidableEq, Repr

/-- The value of `fds` in `sanitize_files`: `GETDTABLESIZE()`, and `OPEN_MAX`
when that is `-1`. -/
def san_fds (env : san_env) : Int :=
  if env.dtablesize = -1 then OPEN_MAX else env.dtablesize

/-- The function `sanitize_files(keep, nfds)`. -/
def sanitize_files (env : san_env) (keep : List Int) (nfds : Int) : Option san_out :=
  let fds := san_fds env
  match close_loop keep nfds (fds - (STDERR_FILENO + 1)).toNat (STDERR_FILENO + 1) [] with
  | none => none
  | some closed => some ⟨std_loop env 3 STDIN_FILENO, closed⟩

/-- A table of 8 descriptors in which 0 and 2 are open and 1 is closed and can
be reopened on `/dev/null`. -/
def san_env_small : san_env :=
  { dtablesize := 8,
    fstat := fun fd => if fd = 1 then some EBADF else none,
    freopen := fun fd => some fd }

/-! ## Array slots: reads, writes and the effect of `insert_item` and `remove_item` -/

theorem ITEM_AT_nat (items : List list_item_t) (x : Nat) (h : x < items.length) :
    ITEM_AT items (x : Int) = some (slot items x) := by
  simp [ITEM_AT, slot, List.getD_eq_getElem?_getD, List.getElem?_eq_getElem h]

theorem ITEM_AT_neg (items : List list_item_t) (i : Int) (h : i < 0) :
    ITEM_AT items i = none := by
  simp [ITEM_AT]; omega

theorem ITEM_SET_nat (items : List list_item_t) (x : Nat) (h : x < items.length)
    (f : list_item_t → list_item_t) :
    ITEM_SET items (x : Int) f = some (items.set x (f (slot items x))) := by
  simp [ITEM_SET, ITEM_AT_nat items x h]

theorem slot_set (items : List list_item_t) (x y : Nat) (v : list_item_t)
    (h : x < items.length) :
    slot (items.set x v) y = if x = y then v else slot items y := by
  unfold slot
  by_cases hxy : x = y
  · subst hxy; simp [List.getD_eq_getElem?_getD, h]
  · simp [List.getD_eq_getElem?_getD, List.getElem?_set_ne hxy, hxy]

theorem isEmpty_false_of_lt {items : List list_item_t} {x : Nat} (h : x < items.length) :
    items.isEmpty = false := by
  cases items with
  | nil => simp at h
  | cons a t => rfl

theorem nat_ne_end (x : Nat) : ((x : Int) = list_itr_end_t) = False := by
  simp [list_itr_end_t]

theorem insert_item_eff (items : List list_item_t) (p q x : Nat)
    (hq : q < items.length) (hx : x < items.length) (hp : p < items.length)
    (hprev : (slot items q).prev = (p : Int)) (hxq : x ≠ q) (hxp : x ≠ p) :
    ∃ items', insert_item items (q : Int) (x : Int) = some (items', (q : Int)) ∧
      InsEff items items' p q x := by
  have hqx : q ≠ x := fun h => hxq h.symm
  have hpx : p ≠ x := fun h => hxp h.symm
  simp only [insert_item, isEmpty_false_of_lt hx, nat_ne_end, if_false, Bool.false_eq_true]
  simp only [ITEM_SET_nat, ITEM_AT_nat, hx, hq, hp, List.length_set, slot_set, Option.bind_eq_bind,
    Option.some_bind, hxq, hqx, if_false, hprev, Int.toNat_ofNat, hxp, hpx, if_true,
    Option.pure_def]
  refine ⟨_, rfl, ?_⟩
  by_cases hpq : p = q
  · subst hpq
    constructor <;> simp [slot_set, hx, hp, hxp, hpx] <;> intros <;> (try split_ifs) <;> simp_all
  · have hqp : q ≠ p := fun h => hpq h.symm
    constructor <;> simp [slot_set, hx, hq, hp, hxq, hqx, hxp, hpx, hpq, hqp] <;>
      intros <;> (try split_ifs) <;> simp_all

theorem insert_item_self (items : List list_item_t) (x : Nat) (hx : x < items.length) :
    ∃ items', insert_item items list_itr_end_t (x : Int) = some (items', (x : Int)) ∧
      SelfEff items items' x := by
  simp only [insert_item, isEmpty_false_of_lt hx, nat_ne_end, if_false, Bool.false_eq_true,
    if_true]
  simp only [ITEM_SET_nat, ITEM_AT_nat, hx, List.length_set, slot_set, Option.bind_eq_bind,
    Option.some_bind, if_true, Option.pure_def]
  refine ⟨_, rfl, ?_⟩
  constructor <;> simp [slot_set, hx] <;> intros <;> (try split_ifs) <;> simp_all

theorem remove_item_eff (items : List list_item_t) (p q n : Nat)
    (hq : q < items.length) (hn : n < items.length) (hp : p < items.length)
    (hprev : (slot items q).prev = (p : Int)) (hnext : (slot items q).next = (n : Int))
    (hqn : q ≠ n) (hqp : q ≠ p) :
    ∃ items', remove_item items (q : Int) = some (items', (n : Int)) ∧
      RemEff items items' p q n := by
  have hnq : n ≠ q := fun h => hqn h.symm
  have hpq : p ≠ q := fun h => hqp h.symm
  have e1 : ((n : Int) = (q : Int)) = False := by simp; omega
  have e2 : ((p : Int) = (q : Int)) = False := by simp; omega
  simp only [remove_item, isEmpty_false_of_lt hq, nat_ne_end, if_false, Bool.false_eq_true]
  simp only [ITEM_SET_nat, ITEM_AT_nat, hn, hq, hp, List.length_set, slot_set, Option.bind_eq_bind,
    Option.some_bind, if_false, hprev, hnext, Int.toNat_ofNat, if_true, e1, e2, ne_eq,
    not_false_eq_true, and_self, hnq, hpq, hqn, hqp,
    Option.pure_def]
  refine ⟨_, rfl, ?_⟩
  by_cases hpn : p = n
  · subst hpn
    constructor <;> simp [slot_set, hq, hp, hqp, hpq, list_itr_end_t] <;>
      intros <;> (try split_ifs) <;> simp_all
  · have hnp : n ≠ p := fun h => hpn h.symm
    constructor <;> simp [slot_set, hq, hn, hp, hqp, hpq, hqn, hnq, hpn, hnp, list_itr_end_t] <;>
      intros <;> (try split_ifs) <;> simp_all

theorem remove_item_self (items : List list_item_t) (q : Nat)
    (hq : q < items.length)
    (hprev : (slot items q).prev = (q : Int)) (hnext : (slot items q).next = (q : Int)) :
    ∃ items', remove_item items (q : Int) = some (items', list_itr_end_t) ∧
      ClrEff items items' q := by
  simp only [remove_item, isEmpty_false_of_lt hq, nat_ne_end, if_false, Bool.false_eq_true]
  simp only [ITEM_SET_nat, ITEM_AT_nat, hq, List.length_set, slot_set, Option.bind_eq_bind,
    Option.some_bind, if_false, hprev, hnext, Int.toNat_ofNat, if_true, ne_eq,
    not_true_eq_false, and_self, Option.pure_def]
  refine ⟨_, rfl, ?_⟩
  constructor <;> simp [slot_set, hq, list_itr_end_t] <;>
      intros <;> (try split_ifs) <;> simp_all

/-! ## Circular chains: frame, insertion and removal -/

theorem chain_frame {items items' : List list_item_t} :
    ∀ {ys : List Nat}, List.Chain' (Link items) ys →
    (∀ a ∈ ys.dropLast, (slot items' a).next = (slot items a).next) →
    (∀ b ∈ ys.tail, (slot items' b).prev = (slot items b).prev) →
    List.Chain' (Link items') ys
  | [], _, _, _ => List.chain'_nil
  | [_], _, _, _ => List.chain'_singleton _
  | a :: b :: t, h, hn, hp => by
    rw [List.chain'_cons] at h ⊢
    refine ⟨⟨?_, ?_⟩, chain_frame h.2 ?_ ?_⟩
    · rw [hn a (by simp)]; exact h.1.1
    · rw [hp b (by simp)]; exact h.1.2
    · intro c hc; exact hn c (by simp [List.dropLast_cons₂]; exact Or.inr hc)
    · intro c hc; exact hp c (by simp at hc ⊢; exact Or.inr hc)

theorem chain_frame_mem {items items' : List list_item_t} {ys : List Nat}
    (h : List.Chain' (Link items) ys)
    (hn : ∀ a ∈ ys, (slot items' a).next = (slot items a).next)
    (hp : ∀ b ∈ ys, (slot items' b).prev = (slot items b).prev) :
    List.Chain' (Link items') ys :=
  chain_frame h (fun a ha => hn a (List.mem_of_mem_dropLast ha))
    (fun b hb => hp b (List.mem_of_mem_tail hb))

theorem circ_frame {items items' : List list_item_t} {xs S : List Nat}
    (h : Circ items xs) (f : Frame items items' S) (hd : ∀ a ∈ xs, a ∉ S) :
    Circ items' xs := by
  cases xs with
  | nil => trivial
  | cons x t =>
    simp only [Circ] at h ⊢
    refine chain_frame_mem h ?_ ?_
    · intro a ha
      refine f.next_eq a (hd a ?_)
      simp at ha ⊢; tauto
    · intro a ha
      refine f.prev_eq a (hd a ?_)
      simp at ha ⊢; tauto

theorem chain_insert {items items' : List list_item_t} {L R : List Nat} {p q x : Nat}
    (h : List.Chain' (Link items) (L ++ p :: q :: R)) (e : InsEff items items' p q x)
    (hxL : x ∉ L) (hxp : x ≠ p) (hxq : x ≠ q) (hxR : x ∉ R)
    (hpL : p ∉ L) (hqL : q ∉ (L ++ [p]).tail)
    (hpR : p ∉ (q :: R).dropLast) (hqR : q ∉ R) :
    List.Chain' (Link items') (L ++ p :: x :: q :: R) := by
  rw [List.chain'_split] at h ⊢
  rw [List.chain'_cons] at h
  rw [List.chain'_cons, List.chain'_cons]
  refine ⟨chain_frame h.1 ?_ ?_, ⟨e.next_p, e.prev_x⟩, ⟨e.next_x, e.prev_q⟩,
    chain_frame h.2.2 ?_ ?_⟩
  · intro a ha
    simp at ha
    exact e.next_other a (fun c => hxL (c ▸ ha)) (fun c => hpL (c ▸ ha))
  · intro b hb
    have hb' : b ∈ L ++ [p] := List.mem_of_mem_tail hb
    refine e.prev_other b ?_ (fun c => hqL (c ▸ hb))
    intro c; subst c
    simp at hb'; rcases hb' with hb' | hb'
    · exact hxL hb'
    · exact hxp hb'
  · intro a ha
    refine e.next_other a ?_ (fun c => hpR (c ▸ ha))
    intro c; subst c
    have := List.mem_of_mem_dropLast ha
    simp at this; rcases this with h1 | h1
    · exact hxq h1
    · exact hxR h1
  · intro b hb
    simp at hb
    exact e.prev_other b (fun c => hxR (c ▸ hb)) (fun c => hqR (c ▸ hb))

theorem chain_remove {items items' : List list_item_t} {L R : List Nat} {p q n : Nat}
    (h : List.Chain' (Link items) (L ++ p :: q :: n :: R)) (e : RemEff items items' p q n)
    (hqL : q ∉ L) (hqp : q ≠ p) (hqn : q ≠ n) (hqR : q ∉ R)
    (hpL : p ∉ L) (hnL : n ∉ (L ++ [p]).tail)
    (hpR : p ∉ (n :: R).dropLast) (hnR : n ∉ R) :
    List.Chain' (Link items') (L ++ p :: n :: R) := by
  rw [List.chain'_split] at h ⊢
  rw [List.chain'_cons, List.chain'_cons] at h
  rw [List.chain'_cons]
  refine ⟨chain_frame h.1 ?_ ?_, ⟨e.next_p, e.prev_n⟩, chain_frame h.2.2.2 ?_ ?_⟩
  · intro a ha
    simp at ha
    exact e.next_other a (fun c => hqL (c ▸ ha)) (fun c => hpL (c ▸ ha))
  · intro b hb
    have hb' : b ∈ L ++ [p] := List.mem_of_mem_tail hb
    refine e.prev_other b ?_ (fun c => hnL (c ▸ hb))
    intro c; subst c
    simp at hb'; rcases hb' with hb' | hb'
    · exact hqL hb'
    · exact hqp hb'
  · intro a ha
    refine e.next_other a ?_ (fun c => hpR (c ▸ ha))
    intro c; subst c
    have := List.mem_of_mem_dropLast ha
    simp at this; rcases this with h1 | h1
    · exact hqn h1
    · exact hqR h1
  · intro b hb
    simp at hb
    exact e.prev_other b (fun c => hqR (c ▸ hb)) (fun c => hnR (c ▸ hb))

theorem exists_snoc (h : Nat) (t : List Nat) : ∃ L p, h :: t = L ++ [p] := by
  rcases List.eq_nil_or_concat (h :: t) with e | ⟨L, p, e⟩
  · cases e
  · exact ⟨L, p, by simpa using e⟩

theorem frame_of_ins {items items' : List list_item_t} {p q x : Nat} {S : List Nat}
    (e : InsEff items items' p q x) (hx : x ∈ S) (hp : p ∈ S) (hq : q ∈ S) :
    Frame items items' S :=
  ⟨e.len, e.used_eq, e.data_eq,
   fun y hy => e.next_other y (fun c => hy (c ▸ hx)) (fun c => hy (c ▸ hp)),
   fun y hy => e.prev_other y (fun c => hy (c ▸ hx)) (fun c => hy (c ▸ hq))⟩

theorem frame_of_rem {items items' : List list_item_t} {p q n : Nat} {S : List Nat}
    (e : RemEff items items' p q n) (hn : n ∈ S) (hp : p ∈ S) (hq : q ∈ S) :
    Frame items items' S :=
  ⟨e.len, e.used_eq, e.data_eq,
   fun y hy => e.next_other y (fun c => hy (c ▸ hq)) (fun c => hy (c ▸ hp)),
   fun y hy => e.prev_other y (fun c => hy (c ▸ hq)) (fun c => hy (c ▸ hn))⟩

theorem frame_of_clr {items items' : List list_item_t} {q : Nat} {S : List Nat}
    (e : ClrEff items items' q) (hq : q ∈ S) : Frame items items' S :=
  ⟨e.len, e.used_eq, e.data_eq,
   fun y hy => by rw [e.other y (fun c => hy (c ▸ hq))],
   fun y hy => by rw [e.other y (fun c => hy (c ▸ hq))]⟩

theorem frame_of_self {items items' : List list_item_t} {q : Nat} {S : List Nat}
    (e : SelfEff items items' q) (hq : q ∈ S) : Frame items items' S :=
  ⟨e.len, e.used_eq, e.data_eq,
   fun y hy => by rw [e.other y (fun c => hy (c ▸ hq))],
   fun y hy => by rw [e.other y (fun c => hy (c ▸ hq))]⟩

theorem circ_of_chain {items : List list_item_t} {xs : List Nat} {h : Nat}
    (hh : xs.head? = some h) (hc : List.Chain' (Link items) (xs ++ [h])) : Circ items xs := by
  cases xs with
  | nil => trivial
  | cons a t =>
    simp at hh
    subst hh
    exact hc

theorem chain_of_circ {items : List list_item_t} {xs : List Nat} {h : Nat}
    (hh : xs.head? = some h) (hc : Circ items xs) : List.Chain' (Link items) (xs ++ [h]) := by
  cases xs with
  | nil => simp at hh
  | cons a t =>
    simp at hh
    subst hh
    exact hc

/-- In a circular chain the head's `prev` is the last slot. -/
theorem circ_last_link {items : List list_item_t} {h : Nat} {t L : List Nat} {p : Nat}
    (hc : Circ items (h :: t)) (e : h :: t = L ++ [p]) : Link items p h := by
  have hc := chain_of_circ (h := h) (by simp) hc
  rw [e, List.append_assoc, List.singleton_append, List.chain'_split] at hc
  have := hc.2
  rw [List.chain'_cons] at this
  exact this.1

theorem circ_insert_self {items : List list_item_t} {x : Nat} (hx : x < items.length) :
    ∃ items', insert_item items list_itr_end_t (x : Int) = some (items', (x : Int)) ∧
      Circ items' [x] ∧ Frame items items' [x] := by
  obtain ⟨items', h1, e⟩ := insert_item_self items x hx
  refine ⟨items', h1, ?_, frame_of_self e (by simp)⟩
  simp only [Circ, List.singleton_append, List.chain'_cons, List.chain'_singleton, and_true]
  exact ⟨e.next_x, e.prev_x⟩

/-- Linking `x` before the head of a chain puts it at the tail. -/
theorem circ_insert_tail {items : List list_item_t} {h x : Nat} {t : List Nat}
    (hnd : (h :: t).Nodup) (hx : x ∉ h :: t) (hc : Circ items (h :: t))
    (hb : ∀ a ∈ h :: t, a < items.length) (hxb : x < items.length) :
    ∃ items', insert_item items (h : Int) (x : Int) = some (items', (h : Int)) ∧
      Circ items' (h :: t ++ [x]) ∧ Frame items items' (x :: h :: t) := by
  obtain ⟨L, p, e⟩ := exists_snoc h t
  have hl := circ_last_link hc e
  have hpm : p ∈ h :: t := by rw [e]; simp
  have hxp : x ≠ p := fun c => hx (c ▸ hpm)
  have hxh : x ≠ h := fun c => hx (c ▸ List.mem_cons_self _ _)
  obtain ⟨items', h1, eff⟩ := insert_item_eff items p h x (hb h (by simp)) hxb (hb p hpm)
    hl.2 hxh hxp
  refine ⟨items', h1, ?_, frame_of_ins eff (by simp) (by simp [hpm]) (by simp)⟩
  have hnd' := hnd
  rw [e] at hnd'
  have hpL : p ∉ L := by
    intro c
    rw [List.nodup_append] at hnd'
    exact hnd'.2.2 c (by simp)
  have hxL : x ∉ L := fun c => hx (by rw [e]; simp [c])
  have key : List.Chain' (Link items') (L ++ p :: x :: h :: []) := by
    refine chain_insert ?_ eff hxL hxp hxh (by simp) hpL ?_ (by simp) (by simp)
    · have hc := chain_of_circ (h := h) (by simp) hc
      rw [e] at hc
      simpa using hc
    · rw [← e]
      simpa using (List.nodup_cons.mp hnd).1
  refine circ_of_chain (h := h) (by simp) ?_
  rw [e]
  simpa using key

/-- Linking `x` before a slot that is not the head. -/
theorem circ_insert_mid {items : List list_item_t} {h q x : Nat} {l r : List Nat}
    (hnd : (h :: l ++ q :: r).Nodup) (hx : x ∉ h :: l ++ q :: r)
    (hc : Circ items (h :: l ++ q :: r))
    (hb : ∀ a ∈ h :: l ++ q :: r, a < items.length) (hxb : x < items.length) :
    ∃ items', insert_item items (q : Int) (x : Int) = some (items', (q : Int)) ∧
      Circ items' (h :: l ++ x :: q :: r) ∧ Frame items items' (x :: (h :: l ++ q :: r)) := by
  obtain ⟨L, p, e⟩ := exists_snoc h l
  have hc' : List.Chain' (Link items) (L ++ p :: q :: (r ++ [h])) := by
    have hc := chain_of_circ (h := h) (by simp) hc
    rw [e] at hc
    simpa using hc
  have hpq : Link items p q := by
    rw [List.chain'_split, List.chain'_cons] at hc'
    exact hc'.2.1
  have hnd' := hnd
  rw [e] at hnd'
  have hpm : p ∈ h :: l ++ q :: r := by rw [e]; simp
  have hqm : q ∈ h :: l ++ q :: r := by simp
  have hxp : x ≠ p := fun c => hx (c ▸ hpm)
  have hxq : x ≠ q := fun c => hx (c ▸ hqm)
  obtain ⟨items', h1, eff⟩ := insert_item_eff items p q x (hb q hqm) hxb (hb p hpm)
    hpq.2 hxq hxp
  refine ⟨items', h1, ?_, frame_of_ins eff (by simp) (List.mem_cons_of_mem _ hpm) (by simp)⟩
  have hhl : h ∈ L ++ [p] := by rw [← e]; simp
  have n1 : (L ++ [p]).Nodup ∧ (q :: r).Nodup ∧ (L ++ [p]).Disjoint (q :: r) :=
    List.nodup_append.mp hnd'
  have hpL : p ∉ L := by
    intro c
    exact (List.nodup_append.mp n1.1).2.2 c (by simp)
  have key : List.Chain' (Link items') (L ++ p :: x :: q :: (r ++ [h])) := by
    refine chain_insert hc' eff ?_ hxp hxq ?_ hpL ?_ ?_ ?_
    · intro c; exact hx (by rw [e]; simp [c])
    · intro c
      simp at c
      rcases c with c | c
      · exact hx (by simp [c])
      · exact hx (by simp [c])
    · intro c
      exact n1.2.2 (List.mem_of_mem_tail c) (by simp)
    · intro c
      have c' : p ∈ q :: r := by
        have : (q :: (r ++ [h])).dropLast = q :: r := by
          rw [← List.cons_append, List.dropLast_concat]
        rwa [this] at c
      exact n1.2.2 (by simp) c'
    · intro c
      simp at c
      rcases c with c | c
      · exact (List.nodup_cons.mp n1.2.1).1 c
      · exact n1.2.2 hhl (by simp [c])
  refine circ_of_chain (h := h) (by simp) ?_
  rw [e]
  simpa using key

theorem circ_rotate {items : List list_item_t} {x : Nat} {xs : List Nat}
    (hc : Circ items (xs ++ [x])) : Circ items (x :: xs) := by
  cases xs with
  | nil => simpa using hc
  | cons h t =>
    simp only [Circ] at hc ⊢
    have h1 : List.Chain' (Link items) ((h :: t) ++ x :: [h]) := by simpa using hc
    rw [List.chain'_split, List.chain'_cons] at h1
    have h2 : List.Chain' (Link items) (x :: ((h :: t) ++ [x])) := by
      rw [List.cons_append, List.chain'_cons]
      exact ⟨h1.2.1, h1.1⟩
    simpa using h2

/-- Unlinking the slot `q` of a circular chain: the chain loses `q`, and the
returned iterator is the slot after `q` in circular order. -/
theorem circ_remove {items : List list_item_t} {q : Nat} {l r : List Nat}
    (hnd : (l ++ q :: r).Nodup) (hc : Circ items (l ++ q :: r))
    (hb : ∀ a ∈ l ++ q :: r, a < items.length) :
    ∃ items', remove_item items (q : Int) = some (items', headOf (r ++ l)) ∧
      Circ items' (l ++ r) ∧ Frame items items' (l ++ q :: r) ∧
      (slot items' q).next = list_itr_end_t ∧ (slot items' q).prev = list_itr_end_t := by
  have hqb : q < items.length := hb q (by simp)
  cases l with
  | nil =>
    cases r with
    | nil =>
      have hl : Link items q q := by
        have := chain_of_circ (h := q) (by simp) hc
        simpa using this
      obtain ⟨items', h1, e⟩ := remove_item_self items q hqb hl.2 hl.1
      exact ⟨items', h1, trivial, frame_of_clr e (by simp), e.next_q, e.prev_q⟩
    | cons n r' =>
      obtain ⟨m, p, e⟩ := exists_snoc n r'
      have hch : List.Chain' (Link items) (q :: (m ++ p :: [q])) := by
        have := chain_of_circ (h := q) (by simp) hc
        rw [List.nil_append, List.cons_append, e] at this
        simpa using this
      have hqn : Link items q n := by
        have := chain_of_circ (h := q) (by simp) hc
        simp only [List.nil_append, List.cons_append, List.chain'_cons] at this
        exact this.1
      have hpq : Link items p q := by
        rw [← List.cons_append, List.chain'_split, List.chain'_cons] at hch
        exact hch.2.1
      have hsub : List.Chain' (Link items) (m ++ [p]) := by
        rw [List.chain'_cons'] at hch
        have := hch.2
        rw [List.chain'_split] at this
        exact this.1
      have hnm : n ∈ q :: n :: r' := by simp
      have hpm : p ∈ q :: n :: r' := by rw [e]; simp
      simp only [List.nil_append] at hnd hb
      have hq1 : q ∉ n :: r' := (List.nodup_cons.mp hnd).1
      have hnd2 : (m ++ [p]).Nodup := e ▸ (List.nodup_cons.mp hnd).2
      have hqn' : q ≠ n := fun c => hq1 (by simp [c])
      have hqp' : q ≠ p := fun c => hq1 (by rw [e]; simp [c])
      obtain ⟨items', h1, eff⟩ := remove_item_eff items p q n hqb (hb n hnm) (hb p hpm)
        hpq.2 hqn.1 hqn' hqp'
      refine ⟨items', by simpa [headOf] using h1, ?_,
        frame_of_rem eff (by simp) (by simp [e]) (by simp), eff.next_q, eff.prev_q⟩
      refine circ_of_chain (h := n) (by simp) ?_
      rw [List.nil_append, e, List.append_assoc, List.singleton_append, List.chain'_split,
        List.chain'_cons]
      refine ⟨chain_frame hsub ?_ ?_, ⟨eff.next_p, eff.prev_n⟩, List.chain'_singleton _⟩
      · intro a ha
        simp at ha
        refine eff.next_other a ?_ ?_
        · intro c; exact hq1 (by rw [e]; simp [← c, ha])
        · intro c
          exact (List.nodup_append.mp hnd2).2.2 ha (by simp [c])
      · intro b hb'
        have hbm : b ∈ m ++ [p] := List.mem_of_mem_tail hb'
        refine eff.prev_other b ?_ ?_
        · intro c; exact hq1 (by rw [e, ← c]; exact hbm)
        · intro c
          rw [← e] at hb'
          simp at hb'
          exact (List.nodup_cons.mp (List.nodup_cons.mp hnd).2).1 (c ▸ hb')
  | cons h l' =>
    obtain ⟨L, p, e⟩ := exists_snoc h l'
    have hnd' := hnd
    rw [e] at hnd'
    have n1 : (L ++ [p]).Nodup ∧ (q :: r).Nodup ∧ (L ++ [p]).Disjoint (q :: r) :=
      List.nodup_append.mp hnd'
    have hpL : p ∉ L := fun c => (List.nodup_append.mp n1.1).2.2 c (by simp)
    have hhl : h ∈ L ++ [p] := by rw [← e]; simp
    have hpl : p ∈ L ++ [p] := by simp
    have hqL : q ∉ L := fun c => n1.2.2 (show q ∈ L ++ [p] by simp [c]) (by simp)
    have hqp : q ≠ p := fun c => n1.2.2 hpl (by simp [c])
    have hqh : q ≠ h := fun c => n1.2.2 hhl (by simp [c])
    have hpm : p ∈ h :: l' ++ q :: r := by rw [e]; simp
    have hht : h ∉ (L ++ [p]).tail := by
      rw [← e]
      have := hnd
      simp only [List.cons_append, List.nodup_cons, List.mem_append, not_or] at this
      simpa using this.1.1
    cases r with
    | nil =>
      have hch : List.Chain' (Link items) (L ++ p :: q :: h :: []) := by
        have := chain_of_circ (h := h) (by simp) hc
        rw [e] at this
        simpa using this
      have hpq : Link items p q := by
        rw [List.chain'_split, List.chain'_cons] at hch
        exact hch.2.1
      have hqn : Link items q h := by
        rw [List.chain'_split, List.chain'_cons, List.chain'_cons] at hch
        exact hch.2.2.1
      obtain ⟨items', h1, eff⟩ := remove_item_eff items p q h hqb (hb h (by simp)) (hb p hpm)
        hpq.2 hqn.1 hqh hqp
      refine ⟨items', by simpa [headOf] using h1, ?_,
        frame_of_rem eff (by simp) hpm (by simp), eff.next_q, eff.prev_q⟩
      have key : List.Chain' (Link items') (L ++ p :: h :: []) :=
        chain_remove hch eff hqL hqp hqh (by simp) hpL hht (by simp) (by simp)
      refine circ_of_chain (h := h) (by simp) ?_
      rw [List.append_nil, e]
      simpa using key
    | cons n r' =>
      have hch : List.Chain' (Link items) (L ++ p :: q :: n :: (r' ++ [h])) := by
        have := chain_of_circ (h := h) (by simp) hc
        rw [e] at this
        simpa using this
      have hpq : Link items p q := by
        rw [List.chain'_split, List.chain'_cons] at hch
        exact hch.2.1
      have hqn : Link items q n := by
        rw [List.chain'_split, List.chain'_cons, List.chain'_cons] at hch
        exact hch.2.2.1
      have hqn' : q ≠ n := fun c => (List.nodup_cons.mp n1.2.1).1 (by simp [c])
      have hnr : n ∉ r' := (List.nodup_cons.mp (List.nodup_cons.mp n1.2.1).2).1
      have hqr : q ∉ r' := fun c => (List.nodup_cons.mp n1.2.1).1 (by simp [c])
      obtain ⟨items', h1, eff⟩ := remove_item_eff items p q n hqb (hb n (by simp)) (hb p hpm)
        hpq.2 hqn.1 hqn' hqp
      refine ⟨items', by simpa [headOf] using h1, ?_,
        frame_of_rem eff (by simp) hpm (by simp), eff.next_q, eff.prev_q⟩
      have key : List.Chain' (Link items') (L ++ p :: n :: (r' ++ [h])) := by
        refine chain_remove hch eff hqL hqp hqn' ?_ hpL ?_ ?_ ?_
        · intro c
          simp at c
          rcases c with c | c
          · exact hqr c
          · exact hqh c
        · intro c
          exact n1.2.2 (List.mem_of_mem_tail c) (by simp)
        · intro c
          have c' : p ∈ n :: r' := by
            have : (n :: (r' ++ [h])).dropLast = n :: r' := by
              rw [← List.cons_append, List.dropLast_concat]
            rwa [this] at c
          exact n1.2.2 hpl (List.mem_cons_of_mem _ c')
        · intro c
          simp at c
          rcases c with c | c
          · exact hnr c
          · exact n1.2.2 hhl (by simp [c])
      refine circ_of_chain (h := h) (by simp) ?_
      rw [e]
      simpa using key

/-! ## Well-formed lists: traversal -/

theorem Rep.nodup {l : list_t} {us fs : List Nat} (h : Rep l us fs) : (us ++ fs).Nodup :=
  (h.perm.nodup_iff).mpr (List.nodup_range _)

theorem Rep.lt_of_mem {l : list_t} {us fs : List Nat} (h : Rep l us fs) {x : Nat}
    (hx : x ∈ us ++ fs) : x < l.items.length := by
  rw [h.len]
  exact List.mem_range.mp ((h.perm.mem_iff).mp hx)

theorem Rep.length_add {l : list_t} {us fs : List Nat} (h : Rep l us fs) :
    us.length + fs.length = l.size := by
  have := h.perm.length_eq
  simpa using this

theorem circ_congr {items items' : List list_item_t} {xs : List Nat}
    (h : Circ items xs)
    (hn : ∀ y, (slot items' y).next = (slot items y).next)
    (hp : ∀ y, (slot items' y).prev = (slot items y).prev) : Circ items' xs := by
  cases xs with
  | nil => trivial
  | cons x t =>
    have h' : List.Chain' (Link items) ((x :: t) ++ [x]) := h
    show List.Chain' (Link items') ((x :: t) ++ [x])
    exact chain_frame_mem h' (fun a _ => hn a) (fun a _ => hp a)

/-- The `next` link of a slot of a circular chain. -/
theorem circ_next {items : List list_item_t} {a : Nat} {pre s : List Nat}
    (hc : Circ items (pre ++ a :: s)) :
    (slot items a).next = headOf (s ++ pre ++ [a]) := by
  cases pre with
  | nil =>
    have hch := chain_of_circ (h := a) (by simp) hc
    cases s with
    | nil =>
      simp only [List.nil_append, List.singleton_append, List.chain'_cons] at hch
      simpa [headOf] using hch.1.1
    | cons b s' =>
      simp only [List.nil_append, List.cons_append, List.chain'_cons] at hch
      simpa [headOf] using hch.1.1
  | cons h pre' =>
    have hch := chain_of_circ (h := h) (by simp) hc
    cases s with
    | nil =>
      have : List.Chain' (Link items) ((h :: pre') ++ a :: [h]) := by simpa using hch
      rw [List.chain'_split, List.chain'_cons] at this
      simpa [headOf] using this.2.1.1
    | cons b s' =>
      have : List.Chain' (Link items) ((h :: pre') ++ a :: b :: (s' ++ [h])) := by
        simpa using hch
      rw [List.chain'_split, List.chain'_cons] at this
      simpa [headOf] using this.2.1.1

theorem headOf_ne_end_cons (a : Nat) (s : List Nat) : headOf (a :: s) ≠ list_itr_end_t := by
  simp [headOf, list_itr_end_t]

theorem list_itr_next_rep {l : list_t} {us fs : List Nat} (h : Rep l us fs)
    {a : Nat} {pre s : List Nat} (e : us = pre ++ a :: s) :
    list_itr_next l (a : Int) = some (headOf s) := by
  subst e
  have hnd : (pre ++ a :: s).Nodup := (List.nodup_append.mp h.nodup).1
  have ha : a < l.items.length := h.lt_of_mem (by simp)
  have hn := circ_next h.used_circ
  simp only [list_itr_next, nat_ne_end, if_false, ITEM_AT_nat _ _ ha, Option.bind_eq_bind,
    Option.some_bind, hn, h.uhead]
  cases s with
  | nil =>
    cases pre with
    | nil => simp [headOf]
    | cons p pre' => simp [headOf]
  | cons b s' =>
    have hb : (b : Int) ≠ headOf (pre ++ a :: b :: s') := by
      cases pre with
      | nil =>
        simp only [headOf, List.nil_append]
        intro c
        have : b = a := by exact_mod_cast c
        subst this
        simp at hnd
      | cons p pre' =>
        simp only [headOf, List.cons_append]
        intro c
        have : b = p := by exact_mod_cast c
        subst this
        simp at hnd
    simp [headOf] at hb ⊢
    simp [hb]

theorem walk_handles_rep {l : list_t} {us fs : List Nat} (h : Rep l us fs) :
    ∀ (s pre : List Nat), us = pre ++ s → ∀ fuel, s.length ≤ fuel →
      walk_handles l fuel (headOf s) = some (s.map (fun x : Nat => (x : Int)))
  | [], _, _, fuel, _ => by
    cases fuel <;> simp [walk_handles, headOf, list_itr_end]
  | a :: s, pre, e, fuel, hf => by
    cases fuel with
    | zero => simp at hf
    | succ fuel =>
      have hne : headOf (a :: s) ≠ list_itr_end l := headOf_ne_end_cons a s
      have ih := walk_handles_rep h s (pre ++ [a]) (by simp [e]) fuel (by simpa using hf)
      simp only [walk_handles, hne, if_true, ne_eq, not_false_eq_true]
      have : headOf (a :: s) = (a : Int) := rfl
      rw [this, list_itr_next_rep h e]
      simp [ih]

theorem handles_rep {l : list_t} {us fs : List Nat} (h : Rep l us fs) :
    handles l = some (us.map (fun x : Nat => (x : Int))) := by
  have hcnt : list_itr_begin l = headOf us := by
    simp only [list_itr_begin, h.cnt, h.uhead]
    cases us <;> simp [headOf]
  unfold handles
  rw [hcnt]
  refine walk_handles_rep h us [] (by simp) _ ?_
  have := h.length_add
  omega

theorem list_get_rep {l : list_t} {us fs : List Nat} (h : Rep l us fs) {x : Nat}
    (hx : x ∈ us) : list_get l (x : Int) = some (slot l.items x).data := by
  have hb : x < l.items.length := h.lt_of_mem (by simp [hx])
  have hs : x < l.size := h.len ▸ hb
  have hu : (slot l.items x).used = true := (h.flags x hs).mpr hx
  have h0 : l.size ≠ 0 := by omega
  simp [list_get, nat_ne_end, h0, ITEM_AT_nat _ _ hb, hu, hs]

theorem mapM_get_rep {l : list_t} {us fs : List Nat} (h : Rep l us fs) :
    ∀ (s : List Nat), (∀ x ∈ s, x ∈ us) →
      (s.map (fun x : Nat => (x : Int))).mapM (list_get l) = some (payloads l.items s)
  | [], _ => by
    simp only [List.map_nil, List.mapM_nil, payloads]
    rfl
  | a :: s, hs => by
    have ih := mapM_get_rep h s (fun x hx => hs x (by simp [hx]))
    have ha := list_get_rep h (hs a (by simp))
    rw [List.map_cons, List.mapM_cons, ha, ih]
    rfl

theorem traversal_rep {l : list_t} {us fs : List Nat} (h : Rep l us fs) :
    traversal l = some (payloads l.items us) := by
  simp only [traversal, handles_rep h, Option.bind_eq_bind, Option.some_bind]
  exact mapM_get_rep h us (fun _ hx => hx)

/-! ## Well-formed lists: `list_push` without growth, `list_pop` -/

theorem pushAt_perm {itr before the_head : Int} {f : Nat} {us us' : List Nat}
    (hp : PushAt itr before the_head f us us') : List.Perm us' (f :: us) := by
  cases hp with
  | empty _ => exact List.Perm.refl _
  | tail h t _ =>
    have : (h :: t ++ [f]).Perm ([f] ++ h :: t) := List.perm_append_comm
    simpa using this
  | head h t _ _ => exact List.Perm.refl _
  | mid h q l r _ _ _ =>
    have : ((h :: l) ++ f :: (q :: r)).Perm (f :: ((h :: l) ++ (q :: r))) := List.perm_middle
    simpa using this

theorem push_place_rep {m : list_t} {itr before the_head : Int} {f : Nat}
    {us us' : List Nat} (hp : PushAt itr before the_head f us us')
    (hcnt : m.count = us.length) (hhead : m.used_head = headOf us)
    (hc : Circ m.items us) (hnd : (f :: us).Nodup)
    (hb : ∀ a ∈ f :: us, a < m.items.length) :
    ∃ items4, push_place m (f : Int) itr before the_head
        = some { m with items := items4, used_head := headOf us' } ∧
      Circ items4 us' ∧ Frame m.items items4 (f :: us) := by
  have hfb : f < m.items.length := hb f (by simp)
  have hfu : f ∉ us := (List.nodup_cons.mp hnd).1
  have hndu : us.Nodup := (List.nodup_cons.mp hnd).2
  cases hp with
  | empty hbe =>
    obtain ⟨items4, h1, h2, h3⟩ := circ_insert_self hfb
    refine ⟨items4, ?_, h2, h3⟩
    simp [push_place, hcnt, hbe, h1, headOf]
  | tail h t hi =>
    obtain ⟨items4, h1, h2, h3⟩ := circ_insert_tail hndu hfu hc
      (fun a ha => hb a (List.mem_cons_of_mem _ ha)) hfb
    refine ⟨items4, ?_, h2, h3⟩
    have e : m.used_head = (h : Int) := hhead
    simp [push_place, hcnt, hi, e, h1, headOf]
  | head h t hi1 hi2 =>
    obtain ⟨items4, h1, h2, h3⟩ := circ_insert_tail hndu hfu hc
      (fun a ha => hb a (List.mem_cons_of_mem _ ha)) hfb
    refine ⟨items4, ?_, circ_rotate h2, h3⟩
    have e : m.used_head = (h : Int) := hhead
    subst hi2
    simp [push_place, hcnt, hi1, e, h1, headOf]
  | mid h q l r hi1 hi2 hbe =>
    obtain ⟨items4, h1, h2, h3⟩ := circ_insert_mid hndu hfu hc
      (fun a ha => hb a (List.mem_cons_of_mem _ ha)) hfb
    refine ⟨items4, ?_, h2, h3⟩
    have e : m.used_head = (h : Int) := hhead
    simp [push_place, hcnt, hi1, hi2, hbe, e, h1, headOf]

theorem push_link_rep {l : list_t} {us fs' us' : List Nat} {f : Nat}
    (h : Rep l us (f :: fs')) {itr before the_head : Int}
    (hp : PushAt itr before the_head f us us') (v : Nat) :
    ∃ l', push_link l v itr before the_head = some (l', true) ∧ Rep l' us' fs' ∧
      l'.size = l.size ∧ l'.dfn = l.dfn ∧ (slot l'.items f).data = v ∧
      ∀ y, y ≠ f → (slot l'.items y).data = (slot l.items y).data := by
  have hnd := h.nodup
  have hndf : ([] ++ f :: fs').Nodup := (List.nodup_append.mp hnd).2.1
  have hdis := (List.nodup_append.mp hnd).2.2
  have hfb : f < l.items.length := h.lt_of_mem (by simp)
  obtain ⟨items1, hr, hc1, fr1, -, -⟩ := circ_remove (l := []) hndf h.free_circ
    (fun a ha => h.lt_of_mem (List.mem_append_right _ ha))
  have hfb1 : f < items1.length := fr1.len ▸ hfb
  have hfh : l.free_head = (f : Int) := h.fhead
  simp only [List.append_nil, List.nil_append] at hr hc1 fr1
  have hfu : f ∉ us := fun c => hdis c (by simp)
  have hndu : (f :: us).Nodup := List.nodup_cons.mpr ⟨hfu, (List.nodup_append.mp hnd).1⟩
  -- the array after the payload and the used flag are stored
  let items3 : List list_item_t :=
    (items1.set f { next := (slot items1 f).next, prev := (slot items1 f).prev,
                    used := (slot items1 f).used, data := v }).set f
      { next := (slot items1 f).next, prev := (slot items1 f).prev, used := true, data := v }
  have hs3 : ∀ y, slot items3 y = if f = y then
      { next := (slot items1 f).next, prev := (slot items1 f).prev, used := true, data := v }
      else slot items1 y := by
    intro y
    simp only [items3, slot_set, List.length_set, hfb1]
    split_ifs <;> rfl
  have hl3 : items3.length = l.items.length := by simp [items3, fr1.len]
  have hn3 : ∀ y, (slot items3 y).next = (slot items1 y).next := by
    intro y; rw [hs3]; split_ifs with c
    · subst c; rfl
    · rfl
  have hp3 : ∀ y, (slot items3 y).prev = (slot items1 y).prev := by
    intro y; rw [hs3]; split_ifs with c
    · subst c; rfl
    · rfl
  have hcu1 : Circ items1 us := circ_frame h.used_circ fr1 (fun a ha c => hdis ha c)
  have hcu3 : Circ items3 us := circ_congr hcu1 hn3 hp3
  have hcf3 : Circ items3 fs' := circ_congr hc1 hn3 hp3
  obtain ⟨items4, hpl, hc4, fr4⟩ := push_place_rep
    (m := { dfn := l.dfn, size := l.size, count := l.count, used_head := l.used_head,
            free_head := headOf fs', items := items3 }) hp h.cnt h.uhead hcu3 hndu
    (by
      intro a ha
      show a < items3.length
      rw [hl3]
      rcases List.mem_cons.mp ha with c | c
      · exact c ▸ hfb
      · exact h.lt_of_mem (List.mem_append_left _ c))
  have hperm := pushAt_perm hp
  unfold push_link
  simp only [hfh, hr, Option.bind_eq_bind, Option.some_bind, ITEM_SET_nat, hfb1,
    List.length_set, slot_set, if_true]
  simp only [items3] at hpl
  simp only [hpl, Option.some_bind, Option.pure_def]
  refine ⟨_, rfl, ?_, rfl, rfl, ?_, ?_⟩
  · have hff : f ∉ fs' := (List.nodup_cons.mp (by simpa using hndf)).1
    constructor
    · show items4.length = l.size
      rw [fr4.len]; exact hl3.trans h.len
    · show (us' ++ fs').Perm (List.range l.size)
      refine List.Perm.trans ?_ h.perm
      refine (List.Perm.append_right fs' hperm).trans ?_
      exact (@List.perm_middle _ f us fs').symm
    · exact hc4
    · refine circ_frame hcf3 fr4 ?_
      intro a ha c
      rcases List.mem_cons.mp c with c | c
      · exact hff (c ▸ ha)
      · exact hdis c (List.mem_cons_of_mem _ ha)
    · rfl
    · rfl
    · show l.count + 1 = us'.length
      rw [hperm.length_eq, h.cnt]; rfl
    · intro x hx
      show (slot items4 x).used = true ↔ x ∈ us'
      rw [fr4.used_eq, hs3, hperm.mem_iff]
      by_cases c : f = x
      · subst c; simp
      · have c' : x ≠ f := fun e => c e.symm
        simp only [c, if_false, List.mem_cons, c', false_or]
        rw [fr1.used_eq]
        exact h.flags x hx
  · show (slot items4 f).data = v
    rw [fr4.data_eq, hs3]; simp
  · intro y hy
    show (slot items4 y).data = (slot l.items y).data
    have c : ¬ f = y := fun e => hy e.symm
    rw [fr4.data_eq, hs3]
    simp only [c, if_false]
    exact fr1.data_eq y

/-- Linking `x` before the head of a possibly empty chain appends it. -/
theorem circ_insert_end {items : List list_item_t} {x : Nat} {xs : List Nat}
    (hnd : xs.Nodup) (hx : x ∉ xs) (hc : Circ items xs)
    (hb : ∀ a ∈ xs, a < items.length) (hxb : x < items.length) :
    ∃ items', insert_item items (headOf xs) (x : Int) = some (items', headOf (xs ++ [x])) ∧
      Circ items' (xs ++ [x]) ∧ Frame items items' (x :: xs) := by
  cases xs with
  | nil => exact circ_insert_self hxb
  | cons h t => exact circ_insert_tail hnd hx hc hb hxb

theorem list_itr_tail_rep {l : list_t} {lu fs : List Nat} {q : Nat}
    (h : Rep l (lu ++ [q]) fs) : list_itr_tail l = some (q : Int) := by
  have hc0 : l.count ≠ 0 := by rw [h.cnt]; simp
  cases lu with
  | nil =>
    have hl : Link l.items q q := circ_last_link (L := []) h.used_circ rfl
    have hb : q < l.items.length := h.lt_of_mem (by simp)
    have e : l.used_head = (q : Int) := h.uhead
    simp [list_itr_tail, hc0, e, ITEM_AT_nat _ _ hb, hl.2]
  | cons a t =>
    have hl : Link l.items q a := circ_last_link (L := a :: t) h.used_circ rfl
    have hb : a < l.items.length := h.lt_of_mem (by simp)
    have e : l.used_head = (a : Int) := h.uhead
    simp [list_itr_tail, hc0, e, ITEM_AT_nat _ _ hb, hl.2]

theorem list_pop_rep {l : list_t} {lu ru fs : List Nat} {q : Nat}
    (h : Rep l (lu ++ q :: ru) fs) (itr : Int)
    (hi : itr = (q : Int) ∨ (itr = list_itr_end_t ∧ ru = [])) :
    ∃ l', list_pop l itr
        = some (l', if itr = list_itr_end_t then list_itr_end_t else headOf (ru ++ lu)) ∧
      Rep l' (lu ++ ru) (fs ++ [q]) ∧ l'.size = l.size ∧ l'.dfn = l.dfn ∧
      ∀ y, y ≠ q → (slot l'.items y).data = (slot l.items y).data := by
  have hnd := h.nodup
  have hndu : (lu ++ q :: ru).Nodup := (List.nodup_append.mp hnd).1
  have hndf : fs.Nodup := (List.nodup_append.mp hnd).2.1
  have hdis := (List.nodup_append.mp hnd).2.2
  have hqu : q ∈ lu ++ q :: ru := by simp
  have hqb : q < l.items.length := h.lt_of_mem (List.mem_append_left _ hqu)
  have hqs : q < l.size := h.len ▸ hqb
  have hs0 : l.size ≠ 0 := by omega
  have hqf : q ∉ fs := fun c => hdis hqu c
  have hused : (slot l.items q).used = true := (h.flags q hqs).mpr hqu
  -- the slot that is removed
  have hitem : (if itr = list_itr_end_t then list_itr_tail l else some itr) = some (q : Int) := by
    rcases hi with hi | ⟨hi, hr⟩
    · subst hi; simp [nat_ne_end]
    · subst hr
      simp [hi, list_itr_tail_rep h]
  have hrange : (itr = list_itr_end_t ∨ (0 ≤ itr ∧ itr < (l.size : Int))) := by
    rcases hi with hi | ⟨hi, -⟩
    · right; subst hi; constructor <;> omega
    · left; exact hi
  obtain ⟨items1, hr, hc1, fr1, -, -⟩ := circ_remove hndu h.used_circ
    (fun a ha => h.lt_of_mem (List.mem_append_left _ ha))
  have hqb1 : q < items1.length := fr1.len ▸ hqb
  let items3 : List list_item_t :=
    (items1.set q { next := (slot items1 q).next, prev := (slot items1 q).prev,
                    used := (slot items1 q).used, data := 0 }).set q
      { next := (slot items1 q).next, prev := (slot items1 q).prev, used := false, data := 0 }
  have hs3 : ∀ y, slot items3 y = if q = y then
      { next := (slot items1 q).next, prev := (slot items1 q).prev, used := false, data := 0 }
      else slot items1 y := by
    intro y
    simp only [items3, slot_set, List.length_set, hqb1]
    split_ifs <;> rfl
  have hl3 : items3.length = l.items.length := by simp [items3, fr1.len]
  have hn3 : ∀ y, (slot items3 y).next = (slot items1 y).next := by
    intro y; rw [hs3]; split_ifs with c
    · subst c; rfl
    · rfl
  have hp3 : ∀ y, (slot items3 y).prev = (slot items1 y).prev := by
    intro y; rw [hs3]; split_ifs with c
    · subst c; rfl
    · rfl
  have hcf1 : Circ items1 fs := circ_frame h.free_circ fr1 (fun a ha c => hdis c ha)
  have hcf3 : Circ items3 fs := circ_congr hcf1 hn3 hp3
  have hcu3 : Circ items3 (lu ++ ru) := circ_congr hc1 hn3 hp3
  obtain ⟨items4, hins, hc4, fr4⟩ := circ_insert_end hndf hqf hcf3
    (fun a ha => hl3 ▸ h.lt_of_mem (List.mem_append_right _ ha)) (hl3 ▸ hqb)
  have hhead : (if (q : Int) = l.used_head then headOf (ru ++ lu) else l.used_head)
      = headOf (lu ++ ru) := by
    rw [h.uhead]
    cases lu with
    | nil => simp [headOf]
    | cons a t =>
      have : q ≠ a := by
        intro c; subst c
        simp at hndu
      simp [headOf, this]
  have hfh : l.free_head = headOf fs := h.fhead
  unfold list_pop
  simp only [hs0, if_false, hrange, not_true_eq_false, hitem, Option.bind_eq_bind,
    Option.some_bind, ITEM_AT_nat _ _ hqb, hused, hr]
  have hif : (if (q : Int) = l.used_head then
        ({ l with items := items1, used_head := headOf (ru ++ lu) } : list_t)
      else { l with items := items1 })
      = { l with items := items1, used_head := headOf (lu ++ ru) } := by
    split_ifs with c
    · have := hhead; rw [if_pos c] at this; rw [this]
    · have := hhead; rw [if_neg c] at this; rw [this]
  simp only [hif]
  simp only [ITEM_SET_nat, hqb1, List.length_set, slot_set, if_true, Option.some_bind, hfh]
  simp only [items3] at hins
  simp only [hins, Option.some_bind, Option.pure_def]
  refine ⟨_, rfl, ?_, rfl, rfl, ?_⟩
  · have hperm : (lu ++ ru ++ (fs ++ [q])).Perm (lu ++ q :: ru ++ fs) := by
      have h1 : (lu ++ q :: ru ++ fs).Perm (q :: (lu ++ ru ++ fs)) := by
        have := @List.perm_middle _ q lu (ru ++ fs)
        simp only [List.append_assoc, List.cons_append] at this ⊢
        exact this
      have h2 : (lu ++ ru ++ (fs ++ [q])).Perm (q :: (lu ++ ru ++ fs)) := by
        have : (lu ++ ru ++ fs ++ [q]).Perm ([q] ++ (lu ++ ru ++ fs)) := List.perm_append_comm
        simpa using this
      exact h2.trans h1.symm
    constructor
    · show items4.length = l.size
      rw [fr4.len]; exact hl3.trans h.len
    · exact hperm.trans h.perm
    · refine circ_frame hcu3 fr4 ?_
      intro a ha c
      have hndu' : (q :: (lu ++ ru)).Nodup := List.nodup_middle.mp hndu
      rcases List.mem_cons.mp c with c | c
      · exact (List.nodup_cons.mp hndu').1 (c ▸ ha)
      · refine hdis ?_ c
        simp only [List.mem_append, List.mem_cons] at ha ⊢
        tauto
    · exact hc4
    · rfl
    · rfl
    · show l.count - 1 = (lu ++ ru).length
      rw [h.cnt]; simp
    · intro x hx
      show (slot items4 x).used = true ↔ x ∈ lu ++ ru
      rw [fr4.used_eq, hs3]
      have hndu' : (q :: (lu ++ ru)).Nodup := List.nodup_middle.mp hndu
      by_cases c : q = x
      · subst c
        simp only [if_true]
        constructor
        · intro c; cases c
        · intro c; exact absurd c (List.nodup_cons.mp hndu').1
      · simp only [c, if_false]
        rw [fr1.used_eq, h.flags x hx]
        simp only [List.mem_append, List.mem_cons]
        have c' : x ≠ q := fun e => c e.symm
        tauto
  · intro y hy
    show (slot items4 y).data = (slot l.items y).data
    have c : ¬ q = y := fun e => hy e.symm
    rw [fr4.data_eq, hs3]
    simp only [c, if_false]
    exact fr1.data_eq y

/-! ## Well-formed lists: `list_grow` -/

theorem grow_double_ge : ∀ (fuel ns target : Nat), 0 < ns → target ≤ ns + fuel →
    target ≤ grow_double fuel ns target
  | 0, ns, target, _, h => by simpa [grow_double] using h
  | fuel + 1, ns, target, h0, h => by
    simp only [grow_double, Nat.shiftLeft_eq, pow_one]
    split_ifs with c
    · exact grow_double_ge fuel (ns * 2) target (by omega) (by omega)
    · omega

theorem grow_new_size_ge (size amount : Nat) : size + amount ≤ grow_new_size size amount := by
  unfold grow_new_size
  split_ifs with c
  · exact grow_double_ge _ _ _ (by omega) (by omega)
  · omega

theorem grow_fill_spec : ∀ (k i : Nat) (items : List list_item_t),
    i + k = items.length → Circ items (List.range i) →
    ∃ items', grow_fill k i items (headOf (List.range i))
        = some (items', headOf (List.range (i + k))) ∧
      Circ items' (List.range (i + k)) ∧ items'.length = items.length ∧
      (∀ y, (slot items' y).used = (slot items y).used) ∧
      (∀ y, (slot items' y).data = (slot items y).data)
  | 0, i, items, _, hc => ⟨items, rfl, hc, rfl, fun _ => rfl, fun _ => rfl⟩
  | k + 1, i, items, hl, hc => by
    obtain ⟨items1, h1, hc1, fr1⟩ := circ_insert_end (x := i) (List.nodup_range i)
      (by simp) hc (fun a ha => by have := List.mem_range.mp ha; omega) (by omega)
    rw [← List.range_succ] at h1 hc1
    obtain ⟨items2, h2, hc2, hl2, hu2, hd2⟩ := grow_fill_spec k (i + 1) items1
      (by rw [fr1.len]; omega) hc1
    refine ⟨items2, ?_, ?_, hl2.trans fr1.len, ?_, ?_⟩
    · simp only [grow_fill, h1, Option.bind_eq_bind, Option.some_bind]
      have e : i + 1 + k = i + (k + 1) := by omega
      rw [e] at h2
      exact h2
    · have : i + (k + 1) = i + 1 + k := by omega
      rw [this]; exact hc2
    · intro y; rw [hu2, fr1.used_eq]
    · intro y; rw [hd2, fr1.data_eq]

theorem range'_cons_of_lt {j ns : Nat} (h : j < ns) :
    List.range' j (ns - j) = j :: List.range' (j + 1) (ns - (j + 1)) := by
  have : ns - j = (ns - (j + 1)) + 1 := by omega
  rw [this, List.range'_succ]

theorem grow_move_spec {l : list_t} {us fs : List Nat} (h : Rep l us fs) (ns : Nat)
    (hns : us.length ≤ ns) :
    ∀ (s pre : List Nat) (items : List list_item_t) (fuel : Nat),
      us = pre ++ s → s.length ≤ fuel → items.length = ns →
      Circ items (List.range pre.length) →
      Circ items (List.range' pre.length (ns - pre.length)) →
      ∃ items', grow_move l fuel (headOf s) items
            (headOf (List.range' pre.length (ns - pre.length))) (headOf (List.range pre.length))
          = some (items', headOf (List.range' us.length (ns - us.length)),
                  headOf (List.range us.length)) ∧
        Circ items' (List.range us.length) ∧
        Circ items' (List.range' us.length (ns - us.length)) ∧
        items'.length = ns ∧
        (∀ y, y < pre.length ∨ us.length ≤ y →
          (slot items' y).used = (slot items y).used ∧
          (slot items' y).data = (slot items y).data) ∧
        payloads items' (List.range' pre.length s.length) = payloads l.items s ∧
        (∀ y ∈ List.range' pre.length s.length, (slot items' y).used = true)
  | [], pre, items, fuel, e, _, hl, hcu, hcf => by
    have e' : us = pre := by simpa using e
    subst e'
    refine ⟨items, ?_, hcu, hcf, hl, fun y _ => ⟨rfl, rfl⟩, by simp [payloads], by simp⟩
    cases fuel <;> simp [grow_move, headOf, list_itr_end]
  | a :: s, pre, items, fuel, e, hf, hl, hcu, hcf => by
    cases fuel with
    | zero => simp at hf
    | succ fuel =>
      have hlen : us.length = pre.length + (s.length + 1) := by rw [e]; simp
      have hj : pre.length < ns := by omega
      have hau : a ∈ us := by rw [e]; simp
      have hab : a < l.items.length := h.lt_of_mem (List.mem_append_left _ hau)
      have haused : (slot l.items a).used = true :=
        (h.flags a (h.len ▸ hab)).mpr hau
      rw [range'_cons_of_lt hj] at hcf ⊢
      have hndF : ([] ++ pre.length :: List.range' (pre.length + 1) (ns - (pre.length + 1))).Nodup := by
        rw [List.nil_append, ← range'_cons_of_lt hj]
        exact List.nodup_range' _ _
      have hbF : ∀ x ∈ List.range' (pre.length + 1) (ns - (pre.length + 1)),
          pre.length + 1 ≤ x ∧ x < ns := by
        intro x hx
        rw [List.mem_range'] at hx
        obtain ⟨i, hi, rfl⟩ := hx
        omega
      obtain ⟨items1, hr, hc1, fr1, -, -⟩ := circ_remove (l := []) hndF hcf
        (by
          intro x hx
          simp only [List.nil_append, List.mem_cons] at hx
          rcases hx with hx | hx
          · omega
          · have := hbF x hx; omega)
      simp only [List.append_nil, List.nil_append] at hr hc1 fr1
      have hjb1 : pre.length < items1.length := by rw [fr1.len]; omega
      let items3 : List list_item_t :=
        (items1.set pre.length
            { next := (slot items1 pre.length).next, prev := (slot items1 pre.length).prev,
              used := (slot items1 pre.length).used, data := (slot l.items a).data }).set
          pre.length
          { next := (slot items1 pre.length).next, prev := (slot items1 pre.length).prev,
            used := (slot l.items a).used, data := (slot l.items a).data }
      have hs3 : ∀ y, slot items3 y = if pre.length = y then
          { next := (slot items1 pre.length).next, prev := (slot items1 pre.length).prev,
            used := (slot l.items a).used, data := (slot l.items a).data }
          else slot items1 y := by
        intro y
        simp only [items3, slot_set, List.length_set, hjb1]
        split_ifs <;> rfl
      have hl3 : items3.length = ns := by simp [items3, fr1.len, hl]
      have hn3 : ∀ y, (slot items3 y).next = (slot items1 y).next := by
        intro y; rw [hs3]; split_ifs with c
        · subst c; rfl
        · rfl
      have hp3 : ∀ y, (slot items3 y).prev = (slot items1 y).prev := by
        intro y; rw [hs3]; split_ifs with c
        · subst c; rfl
        · rfl
      have hcu1 : Circ items1 (List.range pre.length) := by
        refine circ_frame hcu fr1 ?_
        intro x hx c
        have hx' := List.mem_range.mp hx
        rcases List.mem_cons.mp c with c | c
        · omega
        · have := hbF x c; omega
      have hcu3 := circ_congr hcu1 hn3 hp3
      have hcf3 := circ_congr hc1 hn3 hp3
      obtain ⟨items4, hins, hc4, fr4⟩ := circ_insert_end (x := pre.length)
        (List.nodup_range _) (by simp) hcu3
        (fun x hx => by have := List.mem_range.mp hx; omega) (by omega)
      rw [← List.range_succ] at hins hc4
      have hcf4 : Circ items4 (List.range' (pre.length + 1) (ns - (pre.length + 1))) := by
        refine circ_frame hcf3 fr4 ?_
        intro x hx c
        have hx' := hbF x hx
        rcases List.mem_cons.mp c with c | c
        · omega
        · have := List.mem_range.mp c; omega
      have hnext := list_itr_next_rep h e
      obtain ⟨items5, h5, hcu5, hcf5, hl5, hfr5, hpay5, hused5⟩ :=
        grow_move_spec h ns hns s (pre ++ [a]) items4 fuel (by simp [e]) (by simpa using hf)
          (by rw [fr4.len]; exact hl3)
          (by simpa using hc4) (by simpa using hcf4)
      simp only [List.length_append, List.length_singleton] at h5 hfr5 hpay5 hused5
      have hkeep' : (slot items5 pre.length).used = (slot items4 pre.length).used ∧
           (slot items5 pre.length).data = (slot items4 pre.length).data :=
        hfr5 pre.length (Or.inl (by omega))
      have h4 : (slot items4 pre.length).used = (slot l.items a).used ∧
          (slot items4 pre.length).data = (slot l.items a).data := by
        rw [fr4.used_eq, fr4.data_eq, hs3]; simp
      refine ⟨items5, ?_, hcu5, hcf5, hl5, ?_, ?_, ?_⟩
      · have hne : headOf (a :: s) ≠ list_itr_end l := headOf_ne_end_cons a s
        have hha : headOf (a :: s) = (a : Int) := rfl
        have hhj : headOf (pre.length :: List.range' (pre.length + 1) (ns - (pre.length + 1)))
            = (pre.length : Int) := rfl
        simp only [grow_move, hne, if_true, ne_eq, not_false_eq_true, hhj, hr,
          Option.bind_eq_bind, Option.some_bind, hha, ITEM_AT_nat _ _ hab, ITEM_SET_nat, hjb1,
          List.length_set, slot_set]
        simp only [items3] at hins
        simp only [hins, Option.some_bind, hnext]
        exact h5
      · intro y hy
        have hy' : y < pre.length + 1 ∨ us.length ≤ y := by omega
        have hne : pre.length ≠ y := by omega
        have k5 : (slot items5 y).used = (slot items4 y).used ∧
            (slot items5 y).data = (slot items4 y).data := hfr5 y hy'
        rw [k5.1, k5.2, fr4.used_eq, fr4.data_eq, hs3]
        simp only [hne, if_false]
        exact ⟨fr1.used_eq y, fr1.data_eq y⟩
      · simp only [List.length_cons, List.range'_succ, payloads, List.map_cons]
        simp only [payloads] at hpay5
        rw [hpay5, hkeep'.2, h4.2]
      · intro y hy
        rw [List.length_cons, List.range'_succ, List.mem_cons] at hy
        rcases hy with hy | hy
        · subst hy
          rw [hkeep'.1, h4.1, haused]
        · exact hused5 y hy

theorem slot_replicate_used (n y : Nat) :
    (slot (List.replicate n (⟨0, 0, false, 0⟩ : list_item_t)) y).used = false := by
  simp only [slot, List.getD_eq_getElem?_getD, List.getElem?_replicate]
  split_ifs <;> rfl

theorem list_itr_begin_rep {l : list_t} {us fs : List Nat} (h : Rep l us fs) :
    list_itr_begin l = headOf us := by
  simp only [list_itr_begin, h.cnt, h.uhead]
  cases us <;> simp [headOf]

/-- Growth of a well-formed list: the items are renumbered `0 .. count - 1` in
traversal order and the rest of the new array is the free chain. -/
theorem list_grow_rep {l : list_t} {us fs : List Nat} (h : Rep l us fs) {amount : Nat}
    (ha : 0 < amount) :
    ∃ l', list_grow true l amount = some (l', true) ∧
      Rep l' (List.range us.length)
        (List.range' us.length (grow_new_size l.size amount - us.length)) ∧
      payloads l'.items (List.range us.length) = payloads l.items us ∧
      l'.size = grow_new_size l.size amount ∧ l'.dfn = l.dfn ∧ l'.count = l.count := by
  have hge := grow_new_size_ge l.size amount
  have hcs := h.length_add
  generalize hns : grow_new_size l.size amount = ns at hge ⊢
  have hle : us.length ≤ ns := by omega
  obtain ⟨items1, h1, hc1, hl1, hu1, hd1⟩ := grow_fill_spec ns 0
    (List.replicate ns (⟨0, 0, false, 0⟩ : list_item_t)) (by simp) trivial
  simp only [Nat.zero_add, List.length_replicate] at h1 hc1 hl1
  obtain ⟨items2, h2, hcu2, hcf2, hl2, hfr2, hpay2, hused2⟩ :=
    grow_move_spec h ns hle us [] items1 (ns + 1) (by simp) (by omega) hl1 trivial
      (by simpa [List.range_eq_range'] using hc1)
  simp only [List.length_nil, Nat.sub_zero, ← List.range_eq_range'] at h2 hfr2 hpay2 hused2
  refine ⟨{ l with items := items2, size := ns,
                   used_head := headOf (List.range us.length),
                   free_head := headOf (List.range' us.length (ns - us.length)) },
    ?_, ?_, hpay2, rfl, rfl, rfl⟩
  · have ha0 : amount ≠ 0 := by omega
    have hr0 : headOf (List.range 0) = list_itr_end_t := rfl
    simp only [list_grow, ha0, if_false, hns, Bool.not_true, Bool.false_eq_true,
      Option.bind_eq_bind, not_false_eq_true, not_true_eq_false]
    rw [hr0] at h1 h2
    rw [h1]
    simp only [Option.some_bind, list_itr_begin_rep h, h2, Option.pure_def]
  · constructor
    · exact hl2
    · show (List.range us.length ++ List.range' us.length (ns - us.length)).Perm (List.range ns)
      have : List.range us.length ++ List.range' us.length (ns - us.length) = List.range ns := by
        rw [List.range_eq_range', List.range_eq_range']
        have k := List.range'_append_1 0 us.length (ns - us.length)
        simp only [Nat.zero_add] at k
        rw [k]
        congr 1
        omega
      rw [this]
    · exact hcu2
    · exact hcf2
    · rfl
    · rfl
    · show l.count = (List.range us.length).length
      rw [h.cnt]; simp
    · intro x hx
      show (slot items2 x).used = true ↔ x ∈ List.range us.length
      rw [List.mem_range]
      by_cases c : x < us.length
      · simp only [c, iff_true]
        exact hused2 x (List.mem_range.mpr c)
      · simp only [c, iff_false]
        have k : (slot items2 x).used = (slot items1 x).used :=
          (hfr2 x (Or.inr (by omega))).1
        rw [k, hu1, slot_replicate_used]
        simp

/-! ## Well-formed lists: `list_push`, `list_init`, `list_deinit`, `list_clear`, `list_reserve` -/

theorem headOf_append_cons (mid : List Nat) (q : Nat) (post : List Nat) :
    headOf (mid ++ q :: post) = headOf (mid ++ [q]) := by
  cases mid <;> rfl

theorem push_find_rep {l : list_t} {us fs : List Nat} (h : Rep l us fs) {q : Nat}
    {ru : List Nat} :
    ∀ (mid pre : List Nat), us = pre ++ mid ++ q :: ru → ∀ fuel, mid.length ≤ fuel →
      push_find l.items (q : Int) l.count fuel (headOf (mid ++ [q])) pre.length
        = some (pre.length + mid.length)
  | [], pre, _, fuel, _ => by
    cases fuel <;> simp [push_find, headOf]
  | a :: mid, pre, e, fuel, hf => by
    cases fuel with
    | zero => simp at hf
    | succ fuel =>
      have hnd : us.Nodup := (List.nodup_append.mp h.nodup).1
      have hab : a < l.items.length := h.lt_of_mem (by rw [e]; simp)
      have haq : (a : Int) ≠ (q : Int) := by
        intro c
        have : a = q := by exact_mod_cast c
        subst this
        rw [e] at hnd
        have := (List.nodup_append.mp hnd).2.2
        exact this (show a ∈ pre ++ a :: mid by simp) (by simp)
      have hi : pre.length < l.count := by rw [h.cnt, e]; simp
      have e' : us = pre ++ a :: (mid ++ q :: ru) := by simp [e]
      have hn := circ_next (e' ▸ h.used_circ)
      have hn' : (slot l.items a).next = headOf (mid ++ [q]) := by
        rw [hn]
        cases mid <;> rfl
      have ih := @push_find_rep l us fs h q ru mid (pre ++ [a]) (by simp [e]) fuel
        (by simpa using hf)
      have hha : headOf (a :: mid ++ [q]) = (a : Int) := rfl
      simp only [push_find, hha, ne_eq, haq, not_false_eq_true, hi, and_self, if_true,
        ITEM_AT_nat _ _ hab, Option.bind_eq_bind, Option.some_bind, hn']
      simp only [List.length_append, List.length_singleton] at ih
      rw [ih]
      simp only [List.length_cons]
      congr 1
      omega

theorem push_walk_circ {items : List list_item_t} {q : Nat} {post : List Nat} :
    ∀ (mid pre : List Nat), Circ items (pre ++ mid ++ q :: post) →
      (∀ a ∈ mid, a < items.length) →
      push_walk items mid.length (headOf (mid ++ [q])) = some (q : Int)
  | [], _, _, _ => by simp [push_walk, headOf]
  | a :: mid, pre, hc, hb => by
    have hab : a < items.length := hb a (by simp)
    have hc' : Circ items (pre ++ a :: (mid ++ q :: post)) := by simpa using hc
    have hn := circ_next hc'
    have hn' : (slot items a).next = headOf (mid ++ [q]) := by
      rw [hn]
      cases mid <;> rfl
    have ih := @push_walk_circ items q post mid (pre ++ [a]) (by simpa using hc)
      (fun x hx => hb x (by simp [hx]))
    have hha : headOf (a :: mid ++ [q]) = (a : Int) := rfl
    simp only [List.length_cons, push_walk, hha, ITEM_AT_nat _ _ hab, Option.bind_eq_bind,
      Option.some_bind, hn', ih]

theorem headOf_eq_end_iff (xs : List Nat) : headOf xs = list_itr_end_t ↔ xs = [] := by
  cases xs with
  | nil => simp [headOf]
  | cons a t => simp [headOf, list_itr_end_t]

theorem headOf_split_iff {lu ru : List Nat} (hnd : (lu ++ ru).Nodup) (hr : ru ≠ []) :
    headOf ru = headOf (lu ++ ru) ↔ lu = [] := by
  cases ru with
  | nil => exact absurd rfl hr
  | cons q t =>
    cases lu with
    | nil => simp
    | cons a s =>
      simp only [headOf, List.cons_append, reduceCtorEq, iff_false]
      intro c
      have : q = a := by exact_mod_cast c
      subst this
      simp at hnd

theorem pushAt_split {itr before the_head : Int} {f : Nat} {lu ru : List Nat}
    (h1 : itr = list_itr_end_t ↔ ru = [])
    (h2 : ru ≠ [] → before = headOf ru)
    (h2' : ru = [] → lu = [] → before = list_itr_end_t)
    (h3 : ru ≠ [] → (itr = the_head ↔ lu = [])) :
    PushAt itr before the_head f (lu ++ ru) (lu ++ f :: ru) := by
  cases ru with
  | nil =>
    have hi : itr = list_itr_end_t := h1.mpr rfl
    cases lu with
    | nil => exact PushAt.empty (h2' rfl rfl)
    | cons a s =>
      have := @PushAt.tail itr before the_head f a s hi
      simpa using this
  | cons q t =>
    have hi : itr ≠ list_itr_end_t := fun c => by simpa using h1.mp c
    have hb : before = (q : Int) := h2 (by simp)
    cases lu with
    | nil =>
      exact PushAt.head q t hi ((h3 (by simp)).mpr rfl)
    | cons a s =>
      have hne : itr ≠ the_head := fun c => by simpa using (h3 (by simp)).mp c
      exact PushAt.mid a q s t hi hne hb

theorem payloads_congr {items items' : List list_item_t} {xs : List Nat}
    (h : ∀ y ∈ xs, (slot items' y).data = (slot items y).data) :
    payloads items' xs = payloads items xs := by
  unfold payloads
  exact List.map_congr_left h

theorem payloads_append (items : List list_item_t) (xs ys : List Nat) :
    payloads items (xs ++ ys) = payloads items xs ++ payloads items ys := by
  simp [payloads]

/-- A push that does not grow the array. -/
theorem list_push_nogrow {l : list_t} {us fs : List Nat} (h : Rep l us fs)
    (hlt : l.count ≠ l.size) (c : Bool) (v : Nat) {lu ru : List Nat} (e : us = lu ++ ru) :
    ∃ l' f fs', fs = f :: fs' ∧ list_push c l v (headOf ru) = some (l', true) ∧
      Rep l' (lu ++ f :: ru) fs' ∧ l'.size = l.size ∧ l'.dfn = l.dfn ∧
      (slot l'.items f).data = v ∧
      ∀ y, y ≠ f → (slot l'.items y).data = (slot l.items y).data := by
  have hadd := h.length_add
  have hcnt := h.cnt
  cases fs with
  | nil => simp at hadd; omega
  | cons f fs' =>
    have hnd : (lu ++ ru).Nodup := e ▸ (List.nodup_append.mp h.nodup).1
    have hp : PushAt (headOf ru) (headOf ru) l.used_head f us (lu ++ f :: ru) := by
      rw [e]
      refine pushAt_split (headOf_eq_end_iff ru) (fun _ => rfl) ?_ ?_
      · intro hr _; exact (headOf_eq_end_iff ru).mpr hr
      · intro hr
        rw [h.uhead, e]
        exact headOf_split_iff hnd hr
    obtain ⟨l', h1, h2, h3, h4, h5, h6⟩ := push_link_rep h hp v
    refine ⟨l', f, fs', rfl, ?_, h2, h3, h4, h5, h6⟩
    simp only [list_push, hlt, if_false]
    exact h1

theorem range_split {k c : Nat} (hk : k ≤ c) :
    List.range c = List.range k ++ List.range' k (c - k) := by
  rw [List.range_eq_range', List.range_eq_range']
  have e := List.range'_append_1 0 k (c - k)
  simp only [Nat.zero_add] at e
  rw [e]
  congr 1
  omega

/-- First loop of `list_push` on a full list, for a valid position: the index
found is the ordinal position of `itr`, and the range check passes. -/
theorem push_index_valid {l : list_t} {us fs : List Nat} (h : Rep l us fs)
    {lu ru : List Nat} (e : us = lu ++ ru) :
    (if l.count > 0 ∧ headOf ru ≠ list_itr_end_t then
        push_find l.items (headOf ru) l.count l.count l.used_head 0 else some 0)
      = some (if ru = [] then 0 else lu.length) ∧
    ¬ (l.count > 0 ∧ headOf ru ≠ list_itr_end_t ∧
      (if ru = [] then 0 else lu.length) = l.count) := by
  have hcnt := h.cnt
  have hull : us.length = lu.length + ru.length := by rw [e]; simp
  constructor
  · cases ru with
    | nil => simp [headOf]
    | cons q t =>
      have hc0 : l.count > 0 := by rw [hcnt, e]; simp
      have hne : headOf (q :: t) ≠ list_itr_end_t := headOf_ne_end_cons q t
      have := push_find_rep h (q := q) lu [] (by simpa using e) l.count
        (by rw [hcnt, e]; simp)
      simp only [hc0, hne, ne_eq, not_false_eq_true, and_self, if_true, reduceCtorEq, if_false]
      rw [h.uhead, e, headOf_append_cons]
      simpa [headOf] using this
  · cases ru with
    | nil => simp [headOf]
    | cons q t =>
      simp only [reduceCtorEq, if_false, hcnt, hull, List.length_cons]
      omega

/-- A push onto a full list: the array grows, the position is translated, and
the payload lands at the ordinal position of `itr`. -/
theorem list_push_grow {l : list_t} {us fs : List Nat} (h : Rep l us fs)
    (heq : l.count = l.size) (v : Nat) {lu ru : List Nat} (e : us = lu ++ ru) :
    ∃ l' us' fs', list_push true l v (headOf ru) = some (l', true) ∧ Rep l' us' fs' ∧
      payloads l'.items us' = payloads l.items lu ++ v :: payloads l.items ru ∧
      l'.size = grow_new_size l.size 1 ∧ l'.dfn = l.dfn := by
  have hadd := h.length_add
  have hcnt := h.cnt
  have hndu : (lu ++ ru).Nodup := e ▸ (List.nodup_append.mp h.nodup).1
  have hull : us.length = lu.length + ru.length := by rw [e]; simp
  obtain ⟨l1, hg, hrep1, hpay1, hsz1, hdfn1, hcnt1⟩ := list_grow_rep h (show 0 < 1 by omega)
  have hge := grow_new_size_ge l.size 1
  have hkc : lu.length ≤ us.length := by omega
  -- the free chain of the grown array starts at slot `count`
  have hfree : List.range' us.length (grow_new_size l.size 1 - us.length)
      = us.length :: List.range' (us.length + 1) (grow_new_size l.size 1 - (us.length + 1)) :=
    range'_cons_of_lt (by omega)
  rw [hfree, range_split hkc] at hrep1
  have hpu : payloads l.items us = payloads l.items lu ++ payloads l.items ru := by
    rw [e, payloads_append]
  rw [range_split hkc, payloads_append, hpu] at hpay1
  have hpl : payloads l1.items (List.range lu.length) = payloads l.items lu ∧
      payloads l1.items (List.range' lu.length (us.length - lu.length)) = payloads l.items ru := by
    refine List.append_inj hpay1 ?_
    simp [payloads]
  obtain ⟨hi, hchk⟩ := push_index_valid h e
  have hbefore : ∃ before,
      (if l1.count > 0 ∧ headOf ru ≠ list_itr_end_t then
          push_walk l1.items (if ru = [] then 0 else lu.length) l1.used_head
        else some (headOf ru)) = some before ∧
      (ru ≠ [] → before = (lu.length : Int)) ∧ (ru = [] → before = list_itr_end_t) := by
    cases ru with
    | nil => exact ⟨list_itr_end_t, by simp [headOf], by simp, fun _ => rfl⟩
    | cons q t =>
      have hc0 : l1.count > 0 := by rw [hcnt1, hcnt, e]; simp
      have hne : headOf (q :: t) ≠ list_itr_end_t := headOf_ne_end_cons q t
      have hlt : lu.length < us.length := by rw [hull]; simp
      have hsp : List.range' lu.length (us.length - lu.length)
          = lu.length :: List.range' (lu.length + 1) (us.length - (lu.length + 1)) :=
        range'_cons_of_lt hlt
      have hc := hrep1.used_circ
      rw [hsp] at hc
      have hw := push_walk_circ (q := lu.length) (List.range lu.length) []
        (by simpa using hc)
        (fun a ha => hrep1.lt_of_mem (by simp [List.mem_range.mp ha]))
      have hh : l1.used_head = headOf (List.range lu.length ++ [lu.length]) := by
        rw [hrep1.uhead, hsp, headOf_append_cons]
      refine ⟨(lu.length : Int), ?_, fun _ => rfl, by simp⟩
      simp only [hc0, hne, ne_eq, not_false_eq_true, and_self, if_true, reduceCtorEq, if_false]
      rw [hh]
      simpa using hw
  obtain ⟨before, hb1, hb2, hb3⟩ := hbefore
  have hrl : (List.range' lu.length (us.length - lu.length) = [] ↔ ru = []) := by
    rw [← List.length_eq_zero, ← List.length_eq_zero (l := ru), List.length_range']
    omega
  have hp : PushAt (headOf ru) before l.used_head us.length
      (List.range lu.length ++ List.range' lu.length (us.length - lu.length))
      (List.range lu.length ++ us.length :: List.range' lu.length (us.length - lu.length)) := by
    refine pushAt_split ?_ ?_ ?_ ?_
    · rw [hrl]; exact headOf_eq_end_iff ru
    · intro hr
      have hr' : ru ≠ [] := fun c => hr (hrl.mpr c)
      rw [hb2 hr']
      have hlt : lu.length < us.length := by
        have := List.length_pos.mpr hr'
        omega
      rw [range'_cons_of_lt hlt]
      rfl
    · intro hr _
      exact hb3 (hrl.mp hr)
    · intro hr
      have hr' : ru ≠ [] := fun c => hr (hrl.mpr c)
      rw [h.uhead, e, headOf_split_iff hndu hr']
      rw [← List.length_eq_zero, ← List.length_eq_zero (l := List.range lu.length)]
      simp
  obtain ⟨l', h1, h2, h3, h4, h5, h6⟩ := push_link_rep hrep1 hp v
  refine ⟨l', _, _, ?_, h2, ?_, h3.trans hsz1, h4.trans hdfn1⟩
  · simp only [list_push, heq, if_true]
    rw [← heq, hi]
    simp only [Option.bind_eq_bind, Option.some_bind, hchk, if_false, hg, Bool.not_true,
      Bool.false_eq_true, not_true_eq_false, not_false_eq_true]
    rw [hb1]
    exact h1
  · have hlu : ∀ y ∈ List.range lu.length, (slot l'.items y).data = (slot l1.items y).data := by
      intro y hy
      exact h6 y (by have := List.mem_range.mp hy; omega)
    have hru : ∀ y ∈ List.range' lu.length (us.length - lu.length),
        (slot l'.items y).data = (slot l1.items y).data := by
      intro y hy
      refine h6 y ?_
      rw [List.mem_range'] at hy
      obtain ⟨i, hi', rfl⟩ := hy
      omega
    rw [payloads_append]
    show payloads l'.items (List.range lu.length) ++
      (slot l'.items us.length).data ::
        payloads l'.items (List.range' lu.length (us.length - lu.length)) = _
    rw [payloads_congr hlu, payloads_congr hru, h5, hpl.1, hpl.2]

/-- A push at a valid position of a well-formed list (allocation succeeding):
the payload is inserted at the ordinal position of `itr`. -/
theorem list_push_rep {l : list_t} {us fs : List Nat} (h : Rep l us fs) (v : Nat)
    {lu ru : List Nat} (e : us = lu ++ ru) :
    ∃ l' us' fs', list_push true l v (headOf ru) = some (l', true) ∧ Rep l' us' fs' ∧
      payloads l'.items us' = payloads l.items lu ++ v :: payloads l.items ru ∧
      l'.dfn = l.dfn := by
  by_cases hc : l.count = l.size
  · obtain ⟨l', us', fs', h1, h2, h3, -, h5⟩ := list_push_grow h hc v e
    exact ⟨l', us', fs', h1, h2, h3, h5⟩
  · obtain ⟨l', f, fs', hfs, h1, h2, -, h4, h5, h6⟩ := list_push_nogrow h hc true v e
    refine ⟨l', _, _, h1, h2, ?_, h4⟩
    have hnd := h.nodup
    rw [hfs, e] at hnd
    have hf : f ∉ lu ++ ru := by
      intro c
      exact (List.nodup_append.mp hnd).2.2 c (by simp)
    have hlu : ∀ y ∈ lu, (slot l'.items y).data = (slot l.items y).data :=
      fun y hy => h6 y (fun c => hf (by simp [← c, hy]))
    have hru : ∀ y ∈ ru, (slot l'.items y).data = (slot l.items y).data :=
      fun y hy => h6 y (fun c => hf (by simp [← c, hy]))
    rw [payloads_append]
    show payloads l'.items lu ++ (slot l'.items f).data :: payloads l'.items ru = _
    rw [payloads_congr hlu, payloads_congr hru, h5]

theorem list_grow_fail (l : list_t) {amount : Nat} (ha : 0 < amount) :
    list_grow false l amount = some (l, false) := by
  have : amount ≠ 0 := by omega
  simp [list_grow, this]

theorem list_grow_zero (c : Bool) (l : list_t) : list_grow c l 0 = some (l, true) := by
  simp [list_grow]

theorem rep_empty (d : Nat) :
    Rep { dfn := d, size := 0, count := 0, used_head := list_itr_end_t,
          free_head := list_itr_end_t, items := [] } [] [] :=
  ⟨rfl, by simp, trivial, trivial, rfl, rfl, rfl, fun x hx => by simp at hx⟩

theorem list_init_rep (c d : Nat) :
    ∃ l, list_init true c d = some (l, true) ∧ Rep l [] (List.range c) ∧ l.dfn = d ∧
      l.size = c := by
  by_cases hc : c = 0
  · subst hc
    refine ⟨_, ?_, rep_empty d, rfl, rfl⟩
    simp [list_init, list_grow_zero]
  · obtain ⟨l', h1, h2, -, h4, h5, -⟩ := list_grow_rep (rep_empty d) (show 0 < c by omega)
    have hns : grow_new_size 0 c = c := by simp [grow_new_size]
    simp only [List.length_nil, List.range_zero, hns, Nat.sub_zero, ← List.range_eq_range']
      at h2 h4
    refine ⟨l', ?_, h2, h5, h4⟩
    simp [list_init, h1]

theorem list_init_fail (c d : Nat) :
    ∃ l r, list_init false c d = some (l, r) ∧ Rep l [] [] := by
  by_cases hc : c = 0
  · subst hc
    exact ⟨_, true, by simp [list_init, list_grow_zero], rep_empty d⟩
  · refine ⟨_, false, ?_, rep_empty d⟩
    simp [list_init, list_grow_fail _ (show 0 < c by omega)]

theorem deinit_walk_rep {l : list_t} {us fs : List Nat} (h : Rep l us fs) :
    ∀ (s pre : List Nat), us = pre ++ s → ∀ fuel, s.length ≤ fuel →
      deinit_walk l fuel (headOf s) = some (payloads l.items s)
  | [], _, _, fuel, _ => by
    cases fuel <;> simp [deinit_walk, headOf, list_itr_end, payloads]
  | a :: s, pre, e, fuel, hf => by
    cases fuel with
    | zero => simp at hf
    | succ fuel =>
      have hne : headOf (a :: s) ≠ list_itr_end l := headOf_ne_end_cons a s
      have hab : a < l.items.length := h.lt_of_mem (by rw [e]; simp)
      have ih := deinit_walk_rep h s (pre ++ [a]) (by simp [e]) fuel (by simpa using hf)
      have hha : headOf (a :: s) = (a : Int) := rfl
      simp only [deinit_walk, hne, if_true, ne_eq, not_false_eq_true, hha,
        ITEM_AT_nat _ _ hab, Option.bind_eq_bind, Option.some_bind, list_itr_next_rep h e, ih]
      rfl

/-- The outcome of `list_deinit` on a well-formed list: the destructor is run on
the payloads in traversal order, and the list is left empty with capacity 0. -/
theorem list_deinit_rep {l : list_t} {us fs : List Nat} (h : Rep l us fs) :
    ∃ l' calls, list_deinit l = some (l', true, calls) ∧ Rep l' [] [] ∧
      (l.size ≠ 0 → l'.dfn = 0) ∧ (l.size = 0 → l' = l) ∧
      calls = (if l.size ≠ 0 ∧ l.dfn ≠ 0 then payloads l.items us else []) := by
  by_cases hs : l.size = 0
  · have hadd := h.length_add
    have hu : us = [] := List.length_eq_zero.mp (by omega)
    have hf : fs = [] := List.length_eq_zero.mp (by omega)
    subst hu hf
    exact ⟨l, [], by simp [list_deinit, hs], h, fun c => absurd hs c, fun _ => rfl,
      by simp [hs]⟩
  · by_cases hd : l.dfn = 0
    · exact ⟨_, [], by simp [list_deinit, hs, hd], rep_empty 0, fun _ => rfl,
        fun c => absurd c hs, by simp [hd]⟩
    · have hw := deinit_walk_rep h us [] (by simp) (l.size + 1)
        (by have := h.length_add; omega)
      refine ⟨_, payloads l.items us, ?_, rep_empty 0, fun _ => rfl,
        fun c => absurd c hs, by simp [hs, hd]⟩
      simp [list_deinit, hs, hd, list_itr_begin_rep h, hw]

theorem list_clear_rep {l : list_t} {us fs : List Nat} (h : Rep l us fs) (c : Bool) :
    ∃ l' calls, list_clear c l = some (l', true, calls) ∧ Rep l' [] [] := by
  obtain ⟨l1, calls, h1, -, -, -, -⟩ := list_deinit_rep h
  refine ⟨_, calls, ?_, rep_empty l.dfn⟩
  simp [list_clear, h1, list_init, list_grow_zero]

theorem list_reserve_rep {l : list_t} {us fs : List Nat} (h : Rep l us fs) (c : Bool)
    (n : Nat) : ∃ l' r, list_reserve c l n = some (l', r) ∧ WF l' ∧ (c = true → r = true) := by
  by_cases hn : n > l.size
  · cases c with
    | false =>
      refine ⟨l, false, ?_, ⟨us, fs, h⟩, by simp⟩
      simp [list_reserve, hn, list_grow_fail l (show 0 < n - l.size by omega)]
    | true =>
      obtain ⟨l', h1, h2, -⟩ := list_grow_rep h (show 0 < n - l.size by omega)
      exact ⟨l', true, by simp [list_reserve, hn, h1], ⟨_, _, h2⟩, fun _ => rfl⟩
  · exact ⟨l, true, by simp [list_reserve, hn], ⟨us, fs, h⟩, fun _ => rfl⟩

/-- A push onto a full list when the allocation fails: `FALSE`, list unchanged. -/
theorem list_push_full_fail {l : list_t} {us fs : List Nat} (h : Rep l us fs)
    (heq : l.count = l.size) (v : Nat) {lu ru : List Nat} (e : us = lu ++ ru) :
    list_push false l v (headOf ru) = some (l, false) := by
  obtain ⟨hi, hchk⟩ := push_index_valid h e
  simp only [list_push, heq, if_true]
  rw [← heq, hi]
  simp [hchk, list_grow_fail]

/-- Every `list_pop` call on a well-formed list, except `list_pop(list,
list_itr_end_t)` on an empty list of non-zero capacity, returns and leaves a
well-formed list. -/
theorem list_pop_total {l : list_t} {us fs : List Nat} (h : Rep l us fs) (itr : Int)
    (hx : l.count = 0 → l.size = 0 ∨ itr ≠ list_itr_end_t) :
    ∃ l' r, list_pop l itr = some (l', r) ∧ WF l' := by
  by_cases hs : l.size = 0
  · exact ⟨l, list_itr_end_t, by simp [list_pop, hs], ⟨us, fs, h⟩⟩
  by_cases hr : (itr = list_itr_end_t ∨ (0 ≤ itr ∧ itr < (l.size : Int)))
  swap
  · exact ⟨l, list_itr_end_t, by simp [list_pop, hs, hr], ⟨us, fs, h⟩⟩
  rcases hr with hr | hr
  · -- pop of the tail
    have hc : l.count ≠ 0 := by
      intro c
      rcases hx c with c' | c'
      · exact hs c'
      · exact c' hr
    cases us with
    | nil => exact absurd h.cnt hc
    | cons a t =>
      obtain ⟨lu, q, e⟩ := exists_snoc a t
      rw [e] at h
      obtain ⟨l', h1, h2, -⟩ := @list_pop_rep l lu [] fs q h itr (Or.inr ⟨hr, rfl⟩)
      exact ⟨l', _, h1, ⟨_, _, h2⟩⟩
  · -- pop at a handle inside the array
    obtain ⟨x, rfl⟩ : ∃ x : Nat, itr = (x : Int) := ⟨itr.toNat, by omega⟩
    have hxs : x < l.size := by omega
    have hxb : x < l.items.length := by rw [h.len]; exact hxs
    by_cases hu : x ∈ us
    · obtain ⟨lu, ru, e⟩ := List.append_of_mem hu
      rw [e] at h
      obtain ⟨l', h1, h2, -⟩ := list_pop_rep h (x : Int) (Or.inl rfl)
      exact ⟨l', _, h1, ⟨_, _, h2⟩⟩
    · have hf : (slot l.items x).used = false := by
        have := h.flags x hxs
        cases hb : (slot l.items x).used with
        | false => rfl
        | true => exact absurd (this.mp hb) hu
      refine ⟨l, list_itr_end_t, ?_, ⟨us, fs, h⟩⟩
      have hr' : (0 : Int) ≤ (x : Int) ∧ (x : Int) < (l.size : Int) := hr
      simp [list_pop, hs, hr', nat_ne_end, ITEM_AT_nat _ _ hxb, hf]

/-- An in-use handle of a well-formed list is a slot of the used chain. -/
theorem in_use_mem {l : list_t} {us fs : List Nat} (h : Rep l us fs) {itr : Int}
    (hv : in_use l itr) : ∃ x : Nat, itr = (x : Int) ∧ x ∈ us := by
  obtain ⟨it, h1, h2⟩ := hv
  have h0 : 0 ≤ itr := by
    by_contra c
    rw [ITEM_AT_neg _ _ (by omega)] at h1
    cases h1
  obtain ⟨x, rfl⟩ : ∃ x : Nat, itr = (x : Int) := ⟨itr.toNat, by omega⟩
  have hxb : x < l.items.length := by
    by_contra c
    simp only [ITEM_AT, Int.natCast_nonneg, if_true, Int.toNat_ofNat] at h1
    rw [List.getElem?_eq_none (by omega)] at h1
    cases h1
  rw [ITEM_AT_nat _ _ hxb] at h1
  have hu : (slot l.items x).used = true := by
    rw [Option.some.inj h1]; exact h2
  exact ⟨x, rfl, (h.flags x (h.len ▸ hxb)).mp hu⟩

/-- A slot of the used chain of a well-formed list is an in-use handle. -/
theorem mem_in_use {l : list_t} {us fs : List Nat} (h : Rep l us fs) {x : Nat}
    (hx : x ∈ us) : in_use l (x : Int) := by
  have hb : x < l.items.length := h.lt_of_mem (List.mem_append_left _ hx)
  exact ⟨slot l.items x, ITEM_AT_nat _ _ hb, (h.flags x (h.len ▸ hb)).mpr hx⟩

/-- First loop of `list_push` on a full list when `itr` is not on the used
chain: the walk visits the whole chain and stops with `i = count`. -/
theorem push_find_miss {l : list_t} {us fs : List Nat} (h : Rep l us fs) {itr : Int} :
    ∀ (s pre : List Nat), us = pre ++ s → (∀ x ∈ s, (x : Int) ≠ itr) →
      ∀ tmp : Int, (∀ a t, s = a :: t → tmp = (a : Int)) →
      push_find l.items itr l.count s.length tmp pre.length = some l.count
  | [], pre, e, _, tmp, _ => by
    simp [push_find, h.cnt, e]
  | a :: s, pre, e, hne, tmp, ht => by
    have hta : tmp = (a : Int) := ht a s rfl
    have hab : a < l.items.length := h.lt_of_mem (by rw [e]; simp)
    have hi : pre.length < l.count := by rw [h.cnt, e]; simp
    have hai : (a : Int) ≠ itr := hne a (by simp)
    have hn := circ_next (e ▸ h.used_circ)
    have ih := @push_find_miss l us fs h itr s (pre ++ [a]) (by simp [e])
      (fun x hx => hne x (by simp [hx])) (slot l.items a).next
      (by
        intro b t hs
        rw [hn, hs]
        rfl)
    simp only [List.length_append, List.length_singleton] at ih
    simp only [List.length_cons, push_find, hta, ne_eq, hai, not_false_eq_true, hi, and_self,
      if_true, ITEM_AT_nat _ _ hab, Option.bind_eq_bind, Option.some_bind]
    exact ih

/-- A push onto a full non-empty list at a position that is neither
`list_itr_end_t` nor a slot of the used chain: `FALSE`, list unchanged, whether
or not memory is available. -/
theorem list_push_full_invalid {l : list_t} {us fs : List Nat} (h : Rep l us fs)
    (heq : l.count = l.size) (hc : 0 < l.count) (ok : Bool) (v : Nat) {itr : Int}
    (hi : itr ≠ list_itr_end_t) (hm : ∀ x ∈ us, (x : Int) ≠ itr) :
    list_push ok l v itr = some (l, false) := by
  have hf := push_find_miss h us [] (by simp) hm l.used_head
    (by
      intro a t e
      rw [h.uhead, e]
      rfl)
  rw [← h.cnt] at hf
  simp only [List.length_nil] at hf
  simp only [list_push, heq, if_true]
  rw [← heq]
  simp [hc, hi, hf]

/-- A push onto a full well-formed list when growth cannot obtain memory:
`FALSE` and the list is unchanged, whatever the position. -/
theorem list_push_full_nomem {l : list_t} {us fs : List Nat} (h : Rep l us fs)
    (heq : l.count = l.size) (v : Nat) (itr : Int) :
    list_push false l v itr = some (l, false) := by
  by_cases hv : itr = list_itr_end_t ∨ ∃ x : Nat, x ∈ us ∧ (x : Int) = itr
  · rcases hv with hv | ⟨x, hx, rfl⟩
    · have := @list_push_full_fail l us fs h heq v us [] (by simp)
      rw [hv]; exact this
    · obtain ⟨lu, ru, e⟩ := List.append_of_mem hx
      exact @list_push_full_fail l us fs h heq v lu (x :: ru) e
  · have hi : itr ≠ list_itr_end_t := fun c => hv (Or.inl c)
    have hm : ∀ x ∈ us, (x : Int) ≠ itr := fun x hx c => hv (Or.inr ⟨x, hx, c⟩)
    by_cases hc : 0 < l.count
    · exact list_push_full_invalid h heq hc false v hi hm
    · have hc0 : l.count = 0 := by omega
      simp only [list_push, heq, if_true]
      rw [← heq]
      simp [hc0, list_grow_fail]

/-! ## Claims on the indexed list -/

theorem pops_guarded_take : ∀ (ops : List deque_op) (n k : Nat),
    pops_guarded n ops = true → pops_guarded n (ops.take k) = true
  | [], _, k, _ => by simp [pops_guarded]
  | o :: os, n, 0, _ => by simp [pops_guarded]
  | o :: os, n, k + 1, h => by
    cases o <;> simp only [List.take_succ_cons, pops_guarded, Bool.and_eq_true] at h ⊢
    · exact pops_guarded_take os _ k h
    · exact pops_guarded_take os _ k h
    · exact ⟨h.1, pops_guarded_take os _ k h.2⟩
    · exact ⟨h.1, pops_guarded_take os _ k h.2⟩

theorem run_ops_rep : ∀ (ops : List deque_op) (l : list_t) (us fs : List Nat),
    Rep l us fs → pops_guarded us.length ops = true →
    ∃ l' us' fs', run_ops l ops = some l' ∧ Rep l' us' fs' ∧
      payloads l'.items us' = deque_run (payloads l.items us) ops ∧
      us'.length + count_pops ops = us.length + count_pushes ops
  | [], l, us, fs, h, _ => ⟨l, us, fs, rfl, h, rfl, rfl⟩
  | .push_head v :: os, l, us, fs, h, hg => by
    obtain ⟨l1, us1, fs1, h1, h2, h3, -⟩ := @list_push_rep l us fs h v [] us rfl
    have hlen : us1.length = us.length + 1 := by
      have := congrArg List.length h3
      simpa [payloads] using this
    obtain ⟨l2, us2, fs2, k1, k2, k3, k4⟩ := run_ops_rep os l1 us1 fs1 h2
      (by rw [hlen]; exact hg)
    refine ⟨l2, us2, fs2, ?_, k2, ?_, ?_⟩
    · simp only [run_ops, apply_op, list_itr_begin_rep h, h1, Option.some_bind]
      exact k1
    · rw [k3, h3]; rfl
    · simp only [count_pops, count_pushes]; omega
  | .push_tail v :: os, l, us, fs, h, hg => by
    obtain ⟨l1, us1, fs1, h1, h2, h3, -⟩ := @list_push_rep l us fs h v us []
      (by simp)
    have hlen : us1.length = us.length + 1 := by
      have := congrArg List.length h3
      simpa [payloads] using this
    obtain ⟨l2, us2, fs2, k1, k2, k3, k4⟩ := run_ops_rep os l1 us1 fs1 h2
      (by rw [hlen]; exact hg)
    refine ⟨l2, us2, fs2, ?_, k2, ?_, ?_⟩
    · have e : headOf [] = list_itr_end_t := rfl
      rw [e] at h1
      simp only [run_ops, apply_op, h1, Option.some_bind]
      exact k1
    · rw [k3, h3]
      simp [deque_run, deque_step, payloads]
    · simp only [count_pops, count_pushes]; omega
  | .pop_head :: os, l, us, fs, h, hg => by
    simp only [pops_guarded, Bool.and_eq_true, decide_eq_true_eq] at hg
    cases us with
    | nil => simp at hg
    | cons q ru =>
      obtain ⟨l1, h1, h2, -, -, h3⟩ := @list_pop_rep l [] ru fs q h (q : Int) (Or.inl rfl)
      simp only [List.nil_append] at h2
      obtain ⟨l2, us2, fs2, k1, k2, k3, k4⟩ := run_ops_rep os l1 ru _ h2
        (by simpa using hg.2)
      have hq : q ∉ ru := by
        have := (List.nodup_append.mp h.nodup).1
        exact (List.nodup_cons.mp this).1
      refine ⟨l2, us2, fs2, ?_, k2, ?_, ?_⟩
      · have hb : list_itr_begin l = (q : Int) := list_itr_begin_rep h
        simp only [run_ops, apply_op, hb, h1, Option.map_some', Option.some_bind]
        exact k1
      · rw [k3, payloads_congr (fun y hy => h3 y (fun c => hq (c ▸ hy)))]
        rfl
      · simp only [count_pops, count_pushes, List.length_cons]; omega
  | .pop_tail :: os, l, us, fs, h, hg => by
    simp only [pops_guarded, Bool.and_eq_true, decide_eq_true_eq] at hg
    cases us with
    | nil => simp at hg
    | cons a t =>
      obtain ⟨lu, q, e⟩ := exists_snoc a t
      have hlen : (a :: t).length = lu.length + 1 := by rw [e]; simp
      rw [e] at h
      obtain ⟨l1, h1, h2, -, -, h3⟩ := @list_pop_rep l lu [] fs q h list_itr_end_t
        (Or.inr ⟨rfl, rfl⟩)
      simp only [List.append_nil] at h2
      obtain ⟨l2, us2, fs2, k1, k2, k3, k4⟩ := run_ops_rep os l1 lu _ h2
        (by
          have := hg.2
          rw [hlen] at this
          simpa using this)
      have hq : q ∉ lu := by
        have := (List.nodup_append.mp h.nodup).1
        intro c
        exact (List.nodup_append.mp this).2.2 c (by simp)
      refine ⟨l2, us2, fs2, ?_, k2, ?_, ?_⟩
      · simp only [run_ops, apply_op, h1, Option.map_some', Option.some_bind, if_true]
        exact k1
      · rw [k3, payloads_congr (fun y hy => h3 y (fun c => hq (c ▸ hy))), e]
        simp [deque_run, deque_step, payloads, List.dropLast_concat]
      · simp only [count_pops, count_pushes]
        rw [hlen]; omega

/-- C1. For every initial capacity `c` and every sequence of push-head,
push-tail, pop-head and pop-tail operations whose pops only hit a non-empty
list, with allocation succeeding: after every step (every prefix `ops.take n`)
the run returns, `list_count` plus the pops equals the pushes, and the forward
traversal equals the contents of the reference double-ended queue. -/
theorem C1_deque_refinement (c d : Nat) (ops : List deque_op)
    (hg : pops_guarded 0 ops = true) (n : Nat) :
    ∃ l0 l, list_init true c d = some (l0, true) ∧ run_ops l0 (ops.take n) = some l ∧
      list_count l + count_pops (ops.take n) = count_pushes (ops.take n) ∧
      traversal l = some (deque_run [] (ops.take n)) := by
  obtain ⟨l0, h0, hrep, -, -⟩ := list_init_rep c d
  obtain ⟨l, us, fs, h1, h2, h3, h4⟩ := run_ops_rep (ops.take n) l0 [] _ hrep
    (pops_guarded_take ops 0 n hg)
  refine ⟨l0, l, h0, h1, ?_, ?_⟩
  · simp only [list_count, h2.cnt]
    simpa using h4
  · rw [traversal_rep h2, h3]
    rfl

/-- Witness of C1: capacity 1, push 10 at the tail, push 20 at the head, pop
the tail. -/
theorem C1_deque_refinement_witness :
    pops_guarded 0 [deque_op.push_tail 10, deque_op.push_head 20, deque_op.pop_tail] = true ∧
    ∃ l0 l, list_init true 1 0 = some (l0, true) ∧
      run_ops l0 ([deque_op.push_tail 10, deque_op.push_head 20, deque_op.pop_tail].take 3)
        = some l ∧
      list_count l +
          count_pops ([deque_op.push_tail 10, deque_op.push_head 20, deque_op.pop_tail].take 3)
        = count_pushes
          ([deque_op.push_tail 10, deque_op.push_head 20, deque_op.pop_tail].take 3) ∧
      traversal l = some (deque_run []
        ([deque_op.push_tail 10, deque_op.push_head 20, deque_op.pop_tail].take 3)) :=
  ⟨by decide, C1_deque_refinement 1 0 _ (by decide) 3⟩

theorem headOf_drop {us : List Nat} {k q : Nat} (h : us[k]? = some q) :
    headOf (us.drop k) = (q : Int) := by
  have hk : k < us.length := by
    by_contra c
    rw [List.getElem?_eq_none (by omega)] at h
    cases h
  have hq : us[k] = q := by
    rw [List.getElem?_eq_getElem hk] at h
    exact Option.some.inj h
  rw [List.drop_eq_getElem_cons hk, hq]
  rfl

/-- C2. Push onto a full well-formed list before the in-use handle `h` found at
ordinal position `k` of the traversal (so `count = capacity ≥ 1`), allocation
succeeding: the call returns `TRUE`, and the forward traversal becomes
`old[0..k) ++ [v] ++ old[k..)` although growth renumbers the handles; for
`k = 0` the new item is the head. -/
theorem C2_push_full_translates (l : list_t) (hwf : WF l) (hfull : l.count = l.size)
    (hs : List Int) (old : List Nat) (k : Nat) (h : Int) (v : Nat)
    (hh : handles l = some hs) (hk : hs[k]? = some h) (hold : traversal l = some old) :
    ∃ l', list_push true l v h = some (l', true) ∧ WF l' ∧
      traversal l' = some (old.take k ++ v :: old.drop k) ∧
      (k = 0 → list_itr_begin l' ≠ list_itr_end_t ∧
        list_get l' (list_itr_begin l') = some v) := by
  obtain ⟨us, fs, hrep⟩ := hwf
  rw [handles_rep hrep] at hh
  have hhs : hs = us.map (fun x : Nat => (x : Int)) := (Option.some.inj hh).symm
  rw [traversal_rep hrep] at hold
  have hold' : old = payloads l.items us := (Option.some.inj hold).symm
  subst hhs hold'
  rw [List.getElem?_map] at hk
  obtain ⟨q, hq, rfl⟩ := Option.map_eq_some'.mp hk
  have hsplit : us = us.take k ++ us.drop k := (List.take_append_drop k us).symm
  obtain ⟨l', us', fs', h1, h2, h3, -, -⟩ := list_push_grow hrep hfull v hsplit
  rw [headOf_drop hq] at h1
  refine ⟨l', h1, ⟨us', fs', h2⟩, ?_, ?_⟩
  · rw [traversal_rep h2, h3]
    simp [payloads, List.map_take, List.map_drop]
  · intro hk0
    subst hk0
    simp only [List.take_zero, payloads, List.map_nil, List.nil_append] at h3
    cases us' with
    | nil => simp [payloads] at h3
    | cons x t =>
      have hb : list_itr_begin l' = (x : Int) := list_itr_begin_rep h2
      rw [hb]
      refine ⟨by simp [list_itr_end_t], ?_⟩
      rw [list_get_rep h2 (by simp)]
      simp only [payloads, List.map_cons, List.cons.injEq] at h3
      rw [h3.1]

theorem rep_list_one_full : Rep list_one_full [0] [] := by
  refine ⟨rfl, (List.Perm.refl [0] : List.Perm [0] [0]), ?_, trivial, rfl, rfl, rfl, ?_⟩
  · simp [Circ, Link, slot, list_one_full]
  · intro x hx
    have : x = 0 := by simp [list_one_full] at hx; omega
    subst this
    simp [slot, list_one_full]

/-- Witness of C2: the full one-slot list holding 10, push of 20 before
handle 0. -/
theorem C2_push_full_translates_witness :
    WF list_one_full ∧ list_one_full.count = list_one_full.size ∧
    handles list_one_full = some [0] ∧ ([0] : List Int)[0]? = some 0 ∧
    traversal list_one_full = some [10] ∧
    ∃ l', list_push true list_one_full 20 0 = some (l', true) ∧ WF l' ∧
      traversal l' = some (([10] : List Nat).take 0 ++ 20 :: ([10] : List Nat).drop 0) ∧
      (0 = 0 → list_itr_begin l' ≠ list_itr_end_t ∧
        list_get l' (list_itr_begin l') = some 20) :=
  ⟨⟨[0], [], rep_list_one_full⟩, rfl, by decide, by decide, by decide,
   C2_push_full_translates list_one_full ⟨[0], [], rep_list_one_full⟩ rfl [0] [10] 0 0 20
     (by decide) (by decide) (by decide)⟩

theorem valid_position_split {l : list_t} {us fs : List Nat} (h : Rep l us fs) {itr : Int}
    (hv : itr = list_itr_end_t ∨ in_use l itr) :
    ∃ lu ru, us = lu ++ ru ∧ itr = headOf ru := by
  rcases hv with hv | ⟨it, h1, h2⟩
  · exact ⟨us, [], by simp, hv⟩
  · have h0 : 0 ≤ itr := by
      by_contra c
      rw [ITEM_AT_neg _ _ (by omega)] at h1
      cases h1
    obtain ⟨x, rfl⟩ : ∃ x : Nat, itr = (x : Int) := ⟨itr.toNat, by omega⟩
    have hxb : x < l.items.length := by
      by_contra c
      simp only [ITEM_AT, Int.natCast_nonneg, if_true, Int.toNat_ofNat] at h1
      rw [List.getElem?_eq_none (by omega)] at h1
      cases h1
    rw [ITEM_AT_nat _ _ hxb] at h1
    have hu : (slot l.items x).used = true := by
      rw [Option.some.inj h1]; exact h2
    have hx : x ∈ us := (h.flags x (h.len ▸ hxb)).mp hu
    obtain ⟨lu, ru, e⟩ := List.append_of_mem hx
    exact ⟨lu, x :: ru, e, rfl⟩

/-- Every `list_push` at a valid position of a well-formed list returns and
leaves a well-formed list; it returns `TRUE` when allocation succeeds. -/
theorem list_push_total {l : list_t} {us fs : List Nat} (h : Rep l us fs) (ok : Bool)
    (v : Nat) {itr : Int} (hv : itr = list_itr_end_t ∨ in_use l itr) :
    ∃ l' r, list_push ok l v itr = some (l', r) ∧ WF l' ∧ (ok = true → r = true) := by
  obtain ⟨lu, ru, e, rfl⟩ := valid_position_split h hv
  cases ok with
  | true =>
    obtain ⟨l', us', fs', h1, h2, -⟩ := list_push_rep h v e
    exact ⟨l', true, h1, ⟨us', fs', h2⟩, fun _ => rfl⟩
  | false =>
    by_cases hc : l.count = l.size
    · exact ⟨l, false, list_push_full_fail h hc v e, ⟨us, fs, h⟩, by simp⟩
    · obtain ⟨l', f, fs', -, h1, h2, -⟩ := list_push_nogrow h hc false v e
      exact ⟨l', true, h1, ⟨_, _, h2⟩, fun _ => rfl⟩

/-- C3. Well-formedness (both chains circular and doubly linked, partitioning
`[0, capacity)`, used flags marking exactly the used chain, `count` its length)
holds after `list_init` and is preserved by `list_push` at a valid position,
by `list_pop` (every call but `list_pop(list, list_itr_end_t)` on an empty list
of non-zero capacity, which reads outside the array), by `list_reserve` and by
`list_clear`; each of these calls returns, with `TRUE` from push and reserve
when allocation succeeds. -/
theorem C3_wellformed_invariant :
    (∀ (ok : Bool) (c d : Nat), ∃ l r, list_init ok c d = some (l, r) ∧ WF l ∧
        (ok = true → r = true)) ∧
    (∀ l : list_t, WF l →
      (∀ (ok : Bool) (v : Nat) (itr : Int), (itr = list_itr_end_t ∨ in_use l itr) →
        ∃ l' r, list_push ok l v itr = some (l', r) ∧ WF l' ∧ (ok = true → r = true)) ∧
      (∀ itr : Int, (l.count = 0 → l.size = 0 ∨ itr ≠ list_itr_end_t) →
        ∃ l' r, list_pop l itr = some (l', r) ∧ WF l') ∧
      (∀ (ok : Bool) (n : Nat),
        ∃ l' r, list_reserve ok l n = some (l', r) ∧ WF l' ∧ (ok = true → r = true)) ∧
      (∀ ok : Bool, ∃ l' calls, list_clear ok l = some (l', true, calls) ∧ WF l')) := by
  constructor
  · intro ok c d
    cases ok with
    | true =>
      obtain ⟨l, h1, h2, -⟩ := list_init_rep c d
      exact ⟨l, true, h1, ⟨_, _, h2⟩, fun _ => rfl⟩
    | false =>
      obtain ⟨l, r, h1, h2⟩ := list_init_fail c d
      exact ⟨l, r, h1, ⟨_, _, h2⟩, by simp⟩
  · rintro l ⟨us, fs, h⟩
    refine ⟨?_, ?_, ?_, ?_⟩
    · intro ok v itr hv
      exact list_push_total h ok v hv
    · intro itr hx
      exact list_pop_total h itr hx
    · intro ok n
      exact list_reserve_rep h ok n
    · intro ok
      obtain ⟨l', calls, h1, h2⟩ := list_clear_rep h ok
      exact ⟨l', calls, h1, ⟨_, _, h2⟩⟩

/-- Witness of C3: the full one-slot list is well formed, and popping its
only item leaves a well-formed list. -/
theorem C3_wellformed_invariant_witness :
    WF list_one_full ∧ ∃ l' r, list_pop list_one_full 0 = some (l', r) ∧ WF l' :=
  ⟨⟨[0], [], rep_list_one_full⟩,
   ((C3_wellformed_invariant.2 list_one_full ⟨[0], [], rep_list_one_full⟩).2.1) 0
     (by decide)⟩

/-- C9 (code defect). In the two-item list `list_two` slot 1 is the tail, yet
`list_pop(list, 1)` returns handle 0 (the head) instead of `list_itr_end_t`:
`remove_item` hands back the circular successor and `list_pop` only maps it to
`list_itr_end_t` when the argument was `list_itr_end_t`. -/
theorem C9_pop_tail_handle_returns_head :
    (list_init true 2 0).bind (fun r =>
      run_ops r.1 [deque_op.push_tail 10, deque_op.push_tail 20]) = some list_two ∧
    handles list_two = some [0, 1] ∧ list_itr_tail list_two = some 1 ∧
    (list_pop list_two 1).map (fun r => r.2) = some 0 ∧
    (list_pop list_two list_itr_end_t).map (fun r => r.2) = some list_itr_end_t := by
  decide

/-- C10 (code defect). On the empty list of capacity 1 left by `list_init`,
`list_pop(list, list_itr_end_t)` passes the `size` check, takes
`list_itr_tail = list_itr_end_t` as the item and reads `items[-1].used`, a slot
outside `[0, capacity)`: the call faults. -/
theorem C10_pop_end_on_empty_reads_outside :
    list_init true 1 0 = some (list_empty_cap1, true) ∧
    list_empty_cap1.count = 0 ∧
    list_itr_tail list_empty_cap1 = some list_itr_end_t ∧
    ITEM_AT list_empty_cap1.items list_itr_end_t = none ∧
    list_pop list_empty_cap1 list_itr_end_t = none := by
  decide

/-- C11 (code defect). On the non-full list `list_two_of_four` slot 3 is free
and 7 and -2 are out of range.  `list_push(list, 30, 3)` returns `TRUE`, raises
`count` to 3 and links the new slot to the free slot, so the traversal still
yields two items; `list_push(list, 30, 7)` and `list_push(list, 30, -2)` read
outside the array.  Only a full list validates the position. -/
theorem C11_push_position_unchecked :
    (list_init true 4 0).bind (fun r =>
      run_ops r.1 [deque_op.push_tail 10, deque_op.push_tail 20]) = some list_two_of_four ∧
    handles list_two_of_four = some [0, 1] ∧
    (ITEM_AT list_two_of_four.items 3).map (fun s => s.used) = some false ∧
    list_push true list_two_of_four 30 3 = some (list_two_of_four_broken, true) ∧
    list_count list_two_of_four_broken = 3 ∧
    traversal list_two_of_four_broken = some [10, 20] ∧
    list_push true list_two_of_four 30 7 = none ∧
    list_push true list_two_of_four 30 (-2) = none := by
  decide

/-- C12 (counterexample). In the full list `list_rev2` handle 0 is in use and
holds 10.  A push of 30 at the tail, or `list_reserve(list, 3)`, succeeds and
grows the array; afterwards handle 0 holds 20. -/
theorem C12_growth_renumbers_handles :
    (list_init true 2 0).bind (fun r =>
      run_ops r.1 [deque_op.push_tail 10, deque_op.push_head 20]) = some list_rev2 ∧
    (ITEM_AT list_rev2.items 0).map (fun s => s.used) = some true ∧
    list_get list_rev2 0 = some 10 ∧
    (list_push true list_rev2 30 list_itr_end_t).map (fun r => (r.2, list_get r.1 0))
      = some (true, some 20) ∧
    (list_reserve true list_rev2 3).map (fun r => (r.2, list_get r.1 0))
      = some (true, some 20) := by
  decide

theorem rep_list_two_of_four : Rep list_two_of_four [0, 1] [2, 3] := by
  refine ⟨rfl, (List.Perm.refl _ : List.Perm [0, 1, 2, 3] [0, 1, 2, 3]), ?_, ?_, rfl, rfl,
    rfl, ?_⟩
  · simp [Circ, Link, slot, list_two_of_four]
  · simp [Circ, Link, slot, list_two_of_four]
  · intro x hx
    have hx' : x < 4 := hx
    interval_cases x <;> simp [slot, list_two_of_four]

/-- C12 (amended). A handle stays valid across calls that do not grow the
array: for a well-formed list and an in-use handle `h`, a `list_push` at a
valid position of a list that is not full returns `TRUE` and leaves `h` in use
with the same `list_get` result, and `list_reserve(list, n)` with
`n <= capacity` returns `TRUE` and changes nothing. -/
theorem C12_handles_stable_without_growth (l : list_t) (hwf : WF l) (h : Int)
    (hu : in_use l h) :
    (∀ (ok : Bool) (v : Nat) (itr : Int), l.count ≠ l.size →
      (itr = list_itr_end_t ∨ in_use l itr) →
      ∃ l', list_push ok l v itr = some (l', true) ∧ in_use l' h ∧
        list_get l' h = list_get l h) ∧
    (∀ (ok : Bool) (n : Nat), n ≤ l.size → list_reserve ok l n = some (l, true)) := by
  obtain ⟨us, fs, hrep⟩ := hwf
  obtain ⟨x, rfl, hx⟩ := in_use_mem hrep hu
  constructor
  · intro ok v itr hlt hv
    obtain ⟨lu, ru, e, rfl⟩ := valid_position_split hrep hv
    obtain ⟨l', f, fs', hfs, h1, h2, -, -, -, h6⟩ := list_push_nogrow hrep hlt ok v e
    have hxf : x ≠ f := by
      intro c
      have hnd := hrep.nodup
      rw [hfs] at hnd
      exact (List.nodup_append.mp hnd).2.2 hx (by simp [c])
    have hx' : x ∈ lu ++ f :: ru := by
      rw [e] at hx
      simp only [List.mem_append, List.mem_cons] at hx ⊢
      tauto
    refine ⟨l', h1, mem_in_use h2 hx', ?_⟩
    rw [list_get_rep h2 hx', list_get_rep hrep hx, h6 x hxf]
  · intro ok n hn
    have : ¬ n > l.size := by omega
    simp [list_reserve, this]

/-- Witness of C12 (amended): handle 0 of `list_two_of_four`, a push of 30 at
the tail. -/
theorem C12_handles_stable_without_growth_witness :
    WF list_two_of_four ∧ in_use list_two_of_four 0 ∧
    list_two_of_four.count ≠ list_two_of_four.size ∧
    ∃ l', list_push true list_two_of_four 30 list_itr_end_t = some (l', true) ∧
      in_use l' 0 ∧ list_get l' 0 = list_get list_two_of_four 0 :=
  ⟨⟨_, _, rep_list_two_of_four⟩, ⟨_, rfl, rfl⟩, by decide,
   (C12_handles_stable_without_growth list_two_of_four ⟨_, _, rep_list_two_of_four⟩ 0
      ⟨_, rfl, rfl⟩).1 true 30 list_itr_end_t (by decide) (Or.inl rfl)⟩

theorem getElem?_handles {us : List Nat} {k : Nat} {h : Int}
    (hk : (us.map (fun x : Nat => (x : Int)))[k]? = some h) :
    ∃ q : Nat, us[k]? = some q ∧ h = (q : Int) := by
  rw [List.getElem?_map] at hk
  obtain ⟨q, hq, rfl⟩ := Option.map_eq_some'.mp hk
  exact ⟨q, hq, rfl⟩

theorem headOf_insert_iff {lu ru : List Nat} {f : Nat} (hf : f ∉ lu) :
    headOf (lu ++ f :: ru) = (f : Int) ↔ lu = [] := by
  cases lu with
  | nil => simp [headOf]
  | cons a t =>
    simp only [headOf, List.cons_append, reduceCtorEq, iff_false]
    intro c
    have : a = f := by exact_mod_cast c
    exact hf (by simp [this])

theorem headOf_insert_of_ne {lu ru : List Nat} {f : Nat} (hl : lu ≠ []) :
    headOf (lu ++ f :: ru) = headOf (lu ++ ru) := by
  cases lu with
  | nil => exact absurd rfl hl
  | cons a t => rfl

/-- C13. Push onto a well-formed list with `1 <= count < capacity`, whatever
the allocator would answer.  Before the in-use handle `h` at ordinal position
`k`: the call returns `TRUE` and the traversal becomes
`old[0..k) ++ [v] ++ old[k..)`; the new item sits in the slot that was
`free_head` (not in use before, holding `v` afterwards), and it is the head
exactly when `h` was the head, the head being unchanged otherwise.  At
`list_itr_end_t`: the traversal becomes `old ++ [v]` and the head is
unchanged. -/
theorem C13_push_nonfull_position (l : list_t) (hwf : WF l) (hc1 : 1 ≤ l.count)
    (hc2 : l.count < l.size) (ok : Bool) (hs : List Int) (old : List Nat) (v : Nat)
    (hh : handles l = some hs) (hold : traversal l = some old) :
    (∀ (k : Nat) (h : Int), hs[k]? = some h →
      ∃ l', list_push ok l v h = some (l', true) ∧
        traversal l' = some (old.take k ++ v :: old.drop k) ∧
        ¬ in_use l l.free_head ∧ list_get l' l.free_head = some v ∧
        (list_itr_begin l' = l.free_head ↔ h = list_itr_begin l) ∧
        (h ≠ list_itr_begin l → list_itr_begin l' = list_itr_begin l)) ∧
    (∃ l', list_push ok l v list_itr_end_t = some (l', true) ∧
        traversal l' = some (old ++ [v]) ∧ list_itr_begin l' = list_itr_begin l) := by
  obtain ⟨us, fs, hrep⟩ := hwf
  rw [handles_rep hrep] at hh
  have hhs : hs = us.map (fun x : Nat => (x : Int)) := (Option.some.inj hh).symm
  rw [traversal_rep hrep] at hold
  have hold' : old = payloads l.items us := (Option.some.inj hold).symm
  subst hhs hold'
  have hlt : l.count ≠ l.size := by omega
  have hnd := hrep.nodup
  have hndu : us.Nodup := (List.nodup_append.mp hnd).1
  -- what every non-growing push has in common
  have key : ∀ (lu ru : List Nat), us = lu ++ ru →
      ∃ l' f fs', fs = f :: fs' ∧ list_push ok l v (headOf ru) = some (l', true) ∧
        Rep l' (lu ++ f :: ru) fs' ∧ f ∉ us ∧ l.free_head = (f : Int) ∧
        traversal l' = some (payloads l.items lu ++ v :: payloads l.items ru) ∧
        list_get l' (f : Int) = some v := by
    intro lu ru e
    obtain ⟨l', f, fs', hfs, h1, h2, -, -, h5, h6⟩ := list_push_nogrow hrep hlt ok v e
    have hfu : f ∉ us := by
      intro c
      rw [hfs] at hnd
      exact (List.nodup_append.mp hnd).2.2 c (by simp)
    have hfh : l.free_head = (f : Int) := by rw [hrep.fhead, hfs]; rfl
    refine ⟨l', f, fs', hfs, h1, h2, hfu, hfh, ?_, ?_⟩
    · have hlu : ∀ y ∈ lu, (slot l'.items y).data = (slot l.items y).data :=
        fun y hy => h6 y (fun c => hfu (by rw [e]; simp [← c, hy]))
      have hru : ∀ y ∈ ru, (slot l'.items y).data = (slot l.items y).data :=
        fun y hy => h6 y (fun c => hfu (by rw [e]; simp [← c, hy]))
      rw [traversal_rep h2, payloads_append]
      show some (payloads l'.items lu ++ (slot l'.items f).data :: payloads l'.items ru) = _
      rw [payloads_congr hlu, payloads_congr hru, h5]
    · rw [list_get_rep h2 (by simp), h5]
  constructor
  · intro k h hk
    obtain ⟨q, hq, rfl⟩ := getElem?_handles hk
    have hsplit : us = us.take k ++ us.drop k := (List.take_append_drop k us).symm
    have hdrop := headOf_drop hq
    have hkl : k < us.length := by
      by_contra c
      rw [List.getElem?_eq_none (by omega)] at hq
      cases hq
    have hrne : us.drop k ≠ [] := by
      intro c
      have := congrArg List.length c
      simp at this
      omega
    obtain ⟨l', f, fs', -, h1, h2, hfu, hfh, h3, h4⟩ := key _ _ hsplit
    rw [hdrop] at h1
    have hfl : f ∉ us.take k := fun c => hfu (List.mem_of_mem_take c)
    have hb' : list_itr_begin l' = headOf (us.take k ++ f :: us.drop k) :=
      list_itr_begin_rep h2
    have hb : list_itr_begin l = headOf us := list_itr_begin_rep hrep
    have hhead : (q : Int) = headOf us ↔ us.take k = [] := by
      have := @headOf_split_iff (us.take k) (us.drop k)
        (by rw [← hsplit]; exact hndu) hrne
      rw [hdrop, ← hsplit] at this
      exact this
    refine ⟨l', h1, ?_, ?_, ?_, ?_, ?_⟩
    · rw [h3]
      simp [payloads, List.map_take, List.map_drop]
    · rw [hfh]
      intro c
      obtain ⟨x, hx1, hx2⟩ := in_use_mem hrep c
      have : f = x := by exact_mod_cast hx1
      exact hfu (this ▸ hx2)
    · rw [hfh]; exact h4
    · rw [hb', hfh, hb, headOf_insert_iff hfl, hhead]
    · intro hne
      rw [hb', hb]
      have hl : us.take k ≠ [] := fun c => hne (by rw [hb]; exact hhead.mpr c)
      rw [headOf_insert_of_ne hl, ← hsplit]
  · obtain ⟨l', f, fs', -, h1, h2, -, -, h3, -⟩ := key us [] (by simp)
    have e : headOf [] = list_itr_end_t := rfl
    rw [e] at h1
    refine ⟨l', h1, ?_, ?_⟩
    · rw [h3]; simp [payloads]
    · have hune : us ≠ [] := by
        intro c
        have := hrep.cnt
        rw [c] at this
        simp at this
        omega
      rw [list_itr_begin_rep h2, list_itr_begin_rep hrep, headOf_insert_of_ne hune,
        List.append_nil]

/-- Witness of C13: `list_two_of_four`, a push of 30 before handle 1 (ordinal
position 1). -/
theorem C13_push_nonfull_position_witness :
    WF list_two_of_four ∧ 1 ≤ list_two_of_four.count ∧
    list_two_of_four.count < list_two_of_four.size ∧
    handles list_two_of_four = some [0, 1] ∧ traversal list_two_of_four = some [10, 20] ∧
    ([0, 1] : List Int)[1]? = some 1 ∧
    ∃ l', list_push true list_two_of_four 30 1 = some (l', true) ∧
      traversal l' = some (([10, 20] : List Nat).take 1 ++ 30 :: ([10, 20] : List Nat).drop 1) ∧
      ¬ in_use list_two_of_four list_two_of_four.free_head ∧
      list_get l' list_two_of_four.free_head = some 30 ∧
      (list_itr_begin l' = list_two_of_four.free_head ↔ 1 = list_itr_begin list_two_of_four) ∧
      ((1 : Int) ≠ list_itr_begin list_two_of_four →
        list_itr_begin l' = list_itr_begin list_two_of_four) :=
  ⟨⟨_, _, rep_list_two_of_four⟩, by decide, by decide, by decide, by decide, by decide,
   (C13_push_nonfull_position list_two_of_four ⟨_, _, rep_list_two_of_four⟩ (by decide)
      (by decide) true [0, 1] [10, 20] 30 (by decide) (by decide)).1 1 1 (by decide)⟩

/-- C14. `list_pop` at the in-use handle `h` found at ordinal position `k` of a
well-formed list returns, lowers `list_count` by exactly one, and the traversal
becomes the old one without its `k`-th element. -/
theorem C14_pop_removes_kth (l : list_t) (hwf : WF l) (hs : List Int) (old : List Nat)
    (k : Nat) (h : Int) (hh : handles l = some hs) (hold : traversal l = some old)
    (hk : hs[k]? = some h) :
    ∃ l' r, list_pop l h = some (l', r) ∧ list_count l' + 1 = list_count l ∧
      traversal l' = some (old.eraseIdx k) := by
  obtain ⟨us, fs, hrep⟩ := hwf
  rw [handles_rep hrep] at hh
  have hhs : hs = us.map (fun x : Nat => (x : Int)) := (Option.some.inj hh).symm
  rw [traversal_rep hrep] at hold
  have hold' : old = payloads l.items us := (Option.some.inj hold).symm
  subst hhs hold'
  obtain ⟨q, hq, rfl⟩ := getElem?_handles hk
  have hkl : k < us.length := by
    by_contra c
    rw [List.getElem?_eq_none (by omega)] at hq
    cases hq
  have hqe : us[k] = q := by
    rw [List.getElem?_eq_getElem hkl] at hq
    exact Option.some.inj hq
  have hsplit : us = us.take k ++ q :: us.drop (k + 1) := by
    have h1 := (List.take_append_drop k us).symm
    rw [List.drop_eq_getElem_cons hkl, hqe] at h1
    exact h1
  have hrep' : Rep l (us.take k ++ q :: us.drop (k + 1)) fs := hsplit ▸ hrep
  obtain ⟨l', h1, h2, -, -, h5⟩ := list_pop_rep hrep' (q : Int) (Or.inl rfl)
  have hndu : (us.take k ++ q :: us.drop (k + 1)).Nodup :=
    hsplit ▸ (List.nodup_append.mp hrep.nodup).1
  have hq' : q ∉ us.take k ++ us.drop (k + 1) := by
    have := List.nodup_middle.mp hndu
    exact (List.nodup_cons.mp this).1
  refine ⟨l', _, h1, ?_, ?_⟩
  · simp only [list_count, h2.cnt, hrep.cnt]
    have := congrArg List.length hsplit
    simp only [List.length_append, List.length_cons] at this ⊢
    omega
  · rw [traversal_rep h2, payloads_congr (fun y hy => h5 y (fun c => hq' (c ▸ hy)))]
    simp [payloads, List.eraseIdx_eq_take_drop_succ, List.map_take, List.map_drop]

/-- Witness of C14: `list_two`, pop at handle 0 (ordinal position 0). -/
theorem C14_pop_removes_kth_witness :
    WF list_two ∧ handles list_two = some [0, 1] ∧ traversal list_two = some [10, 20] ∧
    ([0, 1] : List Int)[0]? = some 0 ∧
    ∃ l' r, list_pop list_two 0 = some (l', r) ∧ list_count l' + 1 = list_count list_two ∧
      traversal l' = some (([10, 20] : List Nat).eraseIdx 0) :=
  have hw : WF list_two := ⟨[0, 1], [], by
    refine ⟨rfl, (List.Perm.refl _ : List.Perm [0, 1] [0, 1]), ?_, trivial, rfl, rfl, rfl, ?_⟩
    · simp [Circ, Link, slot, list_two]
    · intro x hx
      have hx' : x < 2 := hx
      interval_cases x <;> simp [slot, list_two]⟩
  ⟨hw, by decide, by decide, by decide,
   C14_pop_removes_kth list_two hw [0, 1] [10, 20] 0 0 (by decide) (by decide) (by decide)⟩

/-- C15. `list_reserve` on a well-formed list returns (with `TRUE` when
allocation succeeds) and leaves `list_count` and the forward traversal of
payloads as they were, whether or not the array grew. -/
theorem C15_reserve_keeps_content (l : list_t) (hwf : WF l) (ok : Bool) (n : Nat) :
    ∃ l' r, list_reserve ok l n = some (l', r) ∧ (ok = true → r = true) ∧
      list_count l' = list_count l ∧ traversal l' = traversal l := by
  obtain ⟨us, fs, hrep⟩ := hwf
  by_cases hn : n > l.size
  · cases ok with
    | false =>
      refine ⟨l, false, ?_, by simp, rfl, rfl⟩
      simp [list_reserve, hn, list_grow_fail l (show 0 < n - l.size by omega)]
    | true =>
      obtain ⟨l', h1, h2, h3, -, -, h6⟩ := list_grow_rep hrep (show 0 < n - l.size by omega)
      refine ⟨l', true, by simp [list_reserve, hn, h1], fun _ => rfl, h6, ?_⟩
      rw [traversal_rep h2, traversal_rep hrep, h3]
  · exact ⟨l, true, by simp [list_reserve, hn], fun _ => rfl, rfl, rfl⟩

/-- Witness of C15: `list_rev2`, reserve of 3 slots. -/
theorem C15_reserve_keeps_content_witness :
    WF list_rev2 ∧
    ∃ l' r, list_reserve true list_rev2 3 = some (l', r) ∧ (true = true → r = true) ∧
      list_count l' = list_count list_rev2 ∧ traversal l' = traversal list_rev2 :=
  have hw : WF list_rev2 := ⟨[1, 0], [], by
    refine ⟨rfl, ?_, ?_, trivial, rfl, rfl, rfl, ?_⟩
    · exact (List.Perm.swap 0 1 [] : List.Perm [1, 0] [0, 1])
    · simp [Circ, Link, slot, list_rev2]
    · intro x hx
      have hx' : x < 2 := hx
      interval_cases x <;> simp [slot, list_rev2]⟩
  ⟨hw, C15_reserve_keeps_content list_rev2 hw true 3⟩

/-- C16. `list_push` onto a full well-formed list (capacity 0 included) when
growth cannot obtain memory returns `FALSE` at every position and leaves the
list as it was: same count and capacity, same traversal, same payload at every
handle. -/
theorem C16_push_nomem_unchanged (l : list_t) (hwf : WF l) (hfull : l.count = l.size)
    (v : Nat) (itr : Int) :
    ∃ l', list_push false l v itr = some (l', false) ∧ l' = l ∧
      list_count l' = list_count l ∧ l'.size = l.size ∧ traversal l' = traversal l ∧
      ∀ h : Int, list_get l' h = list_get l h := by
  obtain ⟨us, fs, hrep⟩ := hwf
  exact ⟨l, list_push_full_nomem hrep hfull v itr, rfl, rfl, rfl, rfl, fun _ => rfl⟩

/-- Witness of C16: the full one-slot list, a push of 20 before handle 0. -/
theorem C16_push_nomem_unchanged_witness :
    WF list_one_full ∧ list_one_full.count = list_one_full.size ∧
    ∃ l', list_push false list_one_full 20 0 = some (l', false) ∧ l' = list_one_full ∧
      list_count l' = list_count list_one_full ∧ l'.size = list_one_full.size ∧
      traversal l' = traversal list_one_full ∧
      ∀ h : Int, list_get l' h = list_get list_one_full h :=
  ⟨⟨[0], [], rep_list_one_full⟩, rfl,
   C16_push_nomem_unchanged list_one_full ⟨[0], [], rep_list_one_full⟩ rfl 20 0⟩

/-- A handle is in use exactly when it is inside the array and the used flag
of its slot is set. -/
theorem in_use_iff {l : list_t} {us fs : List Nat} (h : Rep l us fs) (itr : Int) :
    in_use l itr ↔
      (0 ≤ itr ∧ itr < (l.size : Int) ∧ (slot l.items itr.toNat).used = true) := by
  constructor
  · intro hu
    obtain ⟨x, rfl, hx⟩ := in_use_mem h hu
    have hb : x < l.items.length := h.lt_of_mem (List.mem_append_left _ hx)
    have hs : x < l.size := h.len ▸ hb
    refine ⟨by omega, by omega, ?_⟩
    rw [Int.toNat_ofNat]
    exact (h.flags x hs).mpr hx
  · rintro ⟨h0, h1, h2⟩
    obtain ⟨x, rfl⟩ : ∃ x : Nat, itr = (x : Int) := ⟨itr.toNat, by omega⟩
    rw [Int.toNat_ofNat] at h2
    have hs : x < l.size := by omega
    exact mem_in_use h ((h.flags x hs).mp h2)

/-- On a well-formed list `list_get` returns `NULL` at every handle that is
not in use. -/
theorem list_get_not_in_use {l : list_t} {us fs : List Nat} (h : Rep l us fs) {itr : Int}
    (hn : ¬ in_use l itr) : list_get l itr = some 0 := by
  by_cases h1 : itr = list_itr_end_t
  · simp [list_get, h1]
  by_cases h2 : l.size = 0
  · simp [list_get, h1, h2]
  by_cases h3 : (0 ≤ itr ∧ itr < (l.size : Int))
  swap
  · simp [list_get, h1, h2, h3]
  obtain ⟨x, rfl⟩ : ∃ x : Nat, itr = (x : Int) := ⟨itr.toNat, by omega⟩
  have hs : x < l.size := by omega
  have hb : x < l.items.length := by rw [h.len]; exact hs
  have hf : (slot l.items x).used = false := by
    cases hu : (slot l.items x).used with
    | false => rfl
    | true => exact absurd (mem_in_use h ((h.flags x hs).mp hu)) hn
  have h3' : (0 : Int) ≤ (x : Int) ∧ (x : Int) < (l.size : Int) := h3
  simp [list_get, h1, h2, h3', ITEM_AT_nat _ _ hb, hf]

/-- C27. On a well-formed list, a handle `h` is in use exactly when
`0 <= h < capacity` and the used flag of slot `h` is set; `list_get(list, h)`
returns the payload held by slot `h` when `h` is in use and `NULL` at every
other `h` (the end iterator, out of range, capacity 0, a free slot).  The
payload of a slot is the value of the push that allocated it: a successful
`list_push` of `v` at a valid position leaves an in-use handle at which
`list_get` returns `v`, and on a list that is not full that handle is the old
head of the free chain, not in use before.  (`list_get` takes the list as a
pointer to `const`; the model has no list result for it.) -/
theorem C27_get_payload_or_null (l : list_t) (hwf : WF l) (h : Int) :
    (in_use l h ↔
      (0 ≤ h ∧ h < (l.size : Int) ∧ (slot l.items h.toNat).used = true)) ∧
    (in_use l h → list_get l h = some (slot l.items h.toNat).data) ∧
    (¬ in_use l h → list_get l h = some 0) ∧
    (∀ (v : Nat) (itr : Int), (itr = list_itr_end_t ∨ in_use l itr) →
      ∃ l' h', list_push true l v itr = some (l', true) ∧ in_use l' h' ∧
        list_get l' h' = some v ∧
        (l.count ≠ l.size → h' = l.free_head ∧ ¬ in_use l h')) := by
  obtain ⟨us, fs, hrep⟩ := hwf
  refine ⟨in_use_iff hrep h, ?_, list_get_not_in_use hrep, ?_⟩
  · intro hu
    obtain ⟨x, rfl, hx⟩ := in_use_mem hrep hu
    rw [Int.toNat_ofNat]
    exact list_get_rep hrep hx
  · intro v itr hv
    obtain ⟨lu, ru, e, rfl⟩ := valid_position_split hrep hv
    by_cases hc : l.count = l.size
    · obtain ⟨l', us', fs', h1, h2, h3, -, -⟩ := list_push_grow hrep hc v e
      have hm : v ∈ payloads l'.items us' := by rw [h3]; simp
      obtain ⟨x, hx, hxv⟩ := List.mem_map.mp hm
      refine ⟨l', (x : Int), h1, mem_in_use h2 hx, ?_, fun c => absurd hc c⟩
      rw [list_get_rep h2 hx, hxv]
    · obtain ⟨l', f, fs', hfs, h1, h2, -, -, h5, -⟩ := list_push_nogrow hrep hc true v e
      have hf' : f ∈ lu ++ f :: ru := by simp
      refine ⟨l', (f : Int), h1, mem_in_use h2 hf', ?_, fun _ => ⟨?_, ?_⟩⟩
      · rw [list_get_rep h2 hf', h5]
      · rw [hrep.fhead, hfs]; rfl
      · intro hu
        obtain ⟨y, hy, hyu⟩ := in_use_mem hrep hu
        have hyf : y = f := by exact_mod_cast hy.symm
        have hnd := hrep.nodup
        rw [hfs] at hnd
        exact (List.nodup_append.mp hnd).2.2 hyu (by simp [hyf])

/-- Witness of C27: handle 1 of `list_two_of_four` (in use, payload 20). -/
theorem C27_get_payload_or_null_witness :
    WF list_two_of_four ∧ in_use list_two_of_four 1 ∧
    list_get list_two_of_four 1 = some 20 :=
  ⟨⟨_, _, rep_list_two_of_four⟩, ⟨_, rfl, rfl⟩,
   (C27_get_payload_or_null list_two_of_four ⟨_, _, rep_list_two_of_four⟩ 1).2.1
     ⟨_, rfl, rfl⟩⟩

/-- C28. On a well-formed list with used chain `us` and free chain `fs`,
`list_pop(list, h)` with `h < -1`, `h >= capacity` or `h` a slot of the free
chain returns `list_itr_end_t` and leaves the list exactly as it was. -/
theorem C28_pop_invalid_handle (l : list_t) (us fs : List Nat) (hrep : Rep l us fs) (h : Int)
    (hbad : h < -1 ∨ (l.size : Int) ≤ h ∨ ∃ x : Nat, x ∈ fs ∧ h = (x : Int)) :
    list_pop l h = some (l, list_itr_end_t) := by
  by_cases hs : l.size = 0
  · simp [list_pop, hs]
  rcases hbad with hb | hb | ⟨x, hx, rfl⟩
  · have hr : ¬ (h = list_itr_end_t ∨ (0 ≤ h ∧ h < (l.size : Int))) := by
      simp only [list_itr_end_t]; omega
    simp [list_pop, hs, hr]
  · have hr : ¬ (h = list_itr_end_t ∨ (0 ≤ h ∧ h < (l.size : Int))) := by
      simp only [list_itr_end_t]; omega
    simp [list_pop, hs, hr]
  · have hxb : x < l.items.length := hrep.lt_of_mem (List.mem_append_right _ hx)
    have hxs : x < l.size := hrep.len ▸ hxb
    have hnu : x ∉ us := fun c => (List.nodup_append.mp hrep.nodup).2.2 c hx
    have hf : (slot l.items x).used = false := by
      cases hu : (slot l.items x).used with
      | false => rfl
      | true => exact absurd ((hrep.flags x hxs).mp hu) hnu
    have hr : (0 : Int) ≤ (x : Int) ∧ (x : Int) < (l.size : Int) := by
      constructor <;> omega
    simp [list_pop, hs, hr, nat_ne_end, ITEM_AT_nat _ _ hxb, hf]

/-- Witness of C28: the free slot 3 of `list_two_of_four`. -/
theorem C28_pop_invalid_handle_witness :
    Rep list_two_of_four [0, 1] [2, 3] ∧
    list_pop list_two_of_four 3 = some (list_two_of_four, list_itr_end_t) :=
  ⟨rep_list_two_of_four,
   C28_pop_invalid_handle list_two_of_four [0, 1] [2, 3] rep_list_two_of_four 3
     (Or.inr (Or.inr ⟨3, by simp, rfl⟩))⟩

/-- C29. For every capacity `c` and destructor `d` (`0` for none), allocation
succeeding: `list_init` returns `TRUE` and `list_new` the same non-`NULL`
list, with `list_count` 0, capacity exactly `c`, destructor `d`, an empty used
chain and the free chain `0, 1, ..., c - 1`; `list_itr_begin`,
`list_itr_tail`, `list_itr_next(list_itr_end_t)` and
`list_itr_rnext(list_itr_end_t)` all return `list_itr_end_t`. -/
theorem C29_init_empty (c d : Nat) :
    ∃ l, list_init true c d = some (l, true) ∧ list_new true true c d = some (some l) ∧
      list_count l = 0 ∧ l.size = c ∧ l.dfn = d ∧ Rep l [] (List.range c) ∧
      list_itr_begin l = list_itr_end_t ∧ list_itr_tail l = some list_itr_end_t ∧
      list_itr_next l list_itr_end_t = some list_itr_end_t ∧
      list_itr_rnext l list_itr_end_t = some list_itr_end_t := by
  obtain ⟨l, h1, h2, h3, h4⟩ := list_init_rep c d
  have hc : l.count = 0 := h2.cnt
  refine ⟨l, h1, ?_, hc, h4, h3, h2, ?_, ?_, ?_, ?_⟩
  · simp [list_new, h1]
  · simp [list_itr_begin, hc]
  · simp [list_itr_tail, hc]
  · simp [list_itr_next]
  · simp [list_itr_rnext]

/-- In arithmetic without wrap-around, `list_reserve(list, n)` on a well-formed
list of capacity `c`, allocation succeeding, returns `TRUE` and leaves a
well-formed list of capacity at least `max(n, c)`; when `n <= c` the list is
the one before the call. -/
theorem list_reserve_capacity (l : list_t) (hwf : WF l) (n : Nat) :
    ∃ l', list_reserve true l n = some (l', true) ∧ max n l.size ≤ l'.size ∧ WF l' ∧
      (n ≤ l.size → l' = l) := by
  obtain ⟨us, fs, hrep⟩ := hwf
  by_cases hn : n > l.size
  · obtain ⟨l', h1, h2, -, h4, -, -⟩ := list_grow_rep hrep (show 0 < n - l.size by omega)
    have hge := grow_new_size_ge l.size (n - l.size)
    refine ⟨l', by simp [list_reserve, hn, h1], ?_, ⟨_, _, h2⟩, fun c => absurd c (by omega)⟩
    rw [h4]
    exact max_le (by omega) (by omega)
  · refine ⟨l, by simp [list_reserve, hn], ?_, ⟨us, fs, hrep⟩, fun _ => rfl⟩
    exact max_le (by omega) (le_refl _)

/-- The list `list_two_of_four_dtor` is well formed. -/
theorem rep_list_two_of_four_dtor : Rep list_two_of_four_dtor [0, 1] [2, 3] :=
  have r := rep_list_two_of_four
  ⟨r.len, r.perm, r.used_circ, r.free_circ, r.uhead, r.fhead, r.cnt, r.flags⟩

/-- In a circular chain the `prev` link of a slot is the slot before it. -/
theorem circ_prev {items : List list_item_t} {a b : Nat} {pre s : List Nat}
    (hc : Circ items (pre ++ a :: b :: s)) : (slot items b).prev = (a : Int) := by
  cases pre with
  | nil =>
    have h := chain_of_circ (h := a) (by simp) hc
    simp only [List.nil_append, List.cons_append, List.chain'_cons] at h
    exact h.1.2
  | cons p pre' =>
    have h := chain_of_circ (h := p) (by simp) hc
    have h1 : List.Chain' (Link items) ((p :: pre') ++ a :: b :: (s ++ [p])) := by
      simpa using h
    rw [List.chain'_split, List.chain'_cons] at h1
    exact h1.2.1.2

/-- The function `list_itr_rnext` on a well-formed list steps to the slot
before, and to the end iterator from the head. -/
theorem list_itr_rnext_rep {l : list_t} {us fs : List Nat} (h : Rep l us fs)
    {a : Nat} {pre s : List Nat} (e : us = pre ++ a :: s) :
    list_itr_rnext l (a : Int) = some (headOf pre.reverse) := by
  subst e
  have hnd : (pre ++ a :: s).Nodup := (List.nodup_append.mp h.nodup).1
  have ha : a < l.items.length := h.lt_of_mem (by simp)
  rcases List.eq_nil_or_concat pre with hp | ⟨L, p, hp⟩
  · subst hp
    have e : l.used_head = (a : Int) := h.uhead
    simp [list_itr_rnext, nat_ne_end, e, headOf]
  · subst hp
    have hne : (a : Int) ≠ l.used_head := by
      rw [h.uhead]
      intro c
      cases L with
      | nil =>
        simp only [List.nil_append, List.concat_eq_append, List.cons_append, headOf] at c
        have : a = p := by exact_mod_cast c
        subst this
        simp at hnd
      | cons x L' =>
        simp only [List.concat_eq_append, List.cons_append, headOf] at c
        have : a = x := by exact_mod_cast c
        subst this
        simp at hnd
    have hc := h.used_circ
    rw [List.concat_eq_append, List.append_assoc, List.singleton_append] at hc
    have hp := circ_prev hc
    simp [list_itr_rnext, nat_ne_end, hne, ITEM_AT_nat _ _ ha, hp, headOf]

/-- The reverse walk from a slot of a well-formed list visits the slots before
it, last first. -/
theorem rwalk_handles_rep {l : list_t} {us fs : List Nat} (h : Rep l us fs) :
    ∀ (pre s : List Nat), us = pre ++ s → ∀ fuel, pre.length ≤ fuel →
      rwalk_handles l fuel (headOf pre.reverse)
        = some (pre.reverse.map (fun x : Nat => (x : Int))) := by
  intro pre
  induction pre using List.reverseRecOn with
  | nil =>
    intro s _ fuel _
    cases fuel <;> simp [rwalk_handles, headOf, list_itr_end]
  | append_singleton L a ih =>
    intro s e fuel hf
    cases fuel with
    | zero => simp at hf
    | succ fuel =>
      have e' : us = L ++ a :: s := by simp [e]
      have hne : headOf (L ++ [a]).reverse ≠ list_itr_end l := by
        simp [headOf, list_itr_end, list_itr_end_t]
      have hh : headOf (L ++ [a]).reverse = (a : Int) := by simp [headOf]
      have ih' := ih (a :: s) e' fuel (by simpa using hf)
      simp only [rwalk_handles, hne, if_true, ne_eq, not_false_eq_true]
      rw [hh, list_itr_rnext_rep h e']
      simp [ih']

/-- The reverse traversal of a well-formed list visits the used chain
backwards. -/
theorem rhandles_rep {l : list_t} {us fs : List Nat} (h : Rep l us fs) :
    rhandles l = some (us.reverse.map (fun x : Nat => (x : Int))) := by
  have hlen : us.length ≤ l.size + 1 := by
    have := h.length_add
    omega
  have hw := rwalk_handles_rep h us [] (by simp) (l.size + 1) hlen
  rcases List.eq_nil_or_concat us with hu | ⟨L, q, hu⟩
  · subst hu
    have hc : l.count = 0 := h.cnt
    simp only [rhandles, list_itr_tail, hc, if_true, Option.bind_eq_bind, Option.some_bind]
    exact hw
  · rw [List.concat_eq_append] at hu
    subst hu
    have ht := list_itr_tail_rep h
    have hh : headOf (L ++ [q]).reverse = (q : Int) := by simp [headOf]
    rw [hh] at hw
    simp only [rhandles, ht, Option.bind_eq_bind, Option.some_bind]
    exact hw

/-- The payloads of the reverse traversal of a well-formed list. -/
theorem rtraversal_rep {l : list_t} {us fs : List Nat} (h : Rep l us fs) :
    rtraversal l = some (payloads l.items us).reverse := by
  simp only [rtraversal, rhandles_rep h, Option.bind_eq_bind, Option.some_bind]
  rw [mapM_get_rep h us.reverse (fun x hx => List.mem_reverse.mp hx)]
  simp [payloads]

/-- Tail pops on a well-formed list: `n` rounds of reading the tail and
popping it return the last `n` payloads of the traversal, last first, and
leave a well-formed list holding the payloads before them. -/
theorem pop_tail_n_rep : ∀ (n : Nat) (l : list_t) (us fs : List Nat) (a b : List Nat),
    Rep l us fs → payloads l.items us = a ++ b → b.length = n →
    ∃ l' us' fs', pop_tail_n n l = some (l', b.reverse) ∧ Rep l' us' fs' ∧
      payloads l'.items us' = a ∧ l'.size = l.size ∧ l'.dfn = l.dfn
  | 0, l, us, fs, a, b, h, hp, hb => by
    have : b = [] := List.length_eq_zero.mp hb
    subst this
    exact ⟨l, us, fs, rfl, h, by simpa using hp, rfl, rfl⟩
  | n + 1, l, us, fs, a, b, h, hp, hb => by
    rcases List.eq_nil_or_concat b with hb0 | ⟨b', v, hb0⟩
    · subst hb0; simp at hb
    rw [List.concat_eq_append] at hb0
    subst hb0
    rcases List.eq_nil_or_concat us with hu | ⟨lu, q, hu⟩
    · subst hu; simp [payloads] at hp
    rw [List.concat_eq_append] at hu
    subst hu
    have hpl : payloads l.items lu = a ++ b' ∧ (slot l.items q).data = v := by
      rw [payloads_append, ← List.append_assoc] at hp
      have := List.append_inj' hp (by simp [payloads])
      exact ⟨this.1, by simpa [payloads] using this.2⟩
    have ht := list_itr_tail_rep h
    have hg := list_get_rep h (show q ∈ lu ++ [q] by simp)
    obtain ⟨l1, h1, h2, h3, h4, h5⟩ := @list_pop_rep l lu [] fs q h list_itr_end_t
      (Or.inr ⟨rfl, rfl⟩)
    rw [List.append_nil] at h2
    have hq : q ∉ lu := by
      have hnd : (lu ++ [q]).Nodup := (List.nodup_append.mp h.nodup).1
      intro c
      have := List.disjoint_of_nodup_append hnd c
      simp at this
    have hp1 : payloads l1.items lu = a ++ b' := by
      rw [← hpl.1]
      exact payloads_congr (fun y hy => h5 y (fun c => hq (c ▸ hy)))
    obtain ⟨l2, us2, fs2, k1, k2, k3, k4, k5⟩ := pop_tail_n_rep n l1 lu _ a b' h2 hp1
      (by simpa using hb)
    refine ⟨l2, us2, fs2, ?_, k2, k3, by rw [k4, h3], by rw [k5, h4]⟩
    simp only [pop_tail_n, ht, hg, Option.bind_eq_bind, Option.some_bind, h1, if_true, k1,
      hpl.2]
    simp

theorem deque_run_push_tail (vs : List Nat) : ∀ d : List Nat,
    deque_run d (vs.map deque_op.push_tail) = d ++ vs := by
  induction vs with
  | nil => intro d; simp [deque_run]
  | cons v vs ih =>
    intro d
    have := ih (d ++ [v])
    simp only [deque_run, List.map_cons, List.foldl_cons, deque_step] at this ⊢
    rw [this]
    simp

theorem deque_run_push_head (vs : List Nat) : ∀ d : List Nat,
    deque_run d (vs.map deque_op.push_head) = vs.reverse ++ d := by
  induction vs with
  | nil => intro d; simp [deque_run]
  | cons v vs ih =>
    intro d
    have := ih (v :: d)
    simp only [deque_run, List.map_cons, List.foldl_cons, deque_step] at this ⊢
    rw [this]
    simp

theorem pops_guarded_push_tail (vs : List Nat) : ∀ n : Nat,
    pops_guarded n (vs.map deque_op.push_tail) = true := by
  induction vs with
  | nil => intro n; rfl
  | cons v vs ih => intro n; simpa [pops_guarded] using ih (n + 1)

theorem pops_guarded_push_head (vs : List Nat) : ∀ n : Nat,
    pops_guarded n (vs.map deque_op.push_head) = true := by
  induction vs with
  | nil => intro n; rfl
  | cons v vs ih => intro n; simpa [pops_guarded] using ih (n + 1)

/-- C31. On a well-formed list with forward traversal `t`: when `t` ends in
`v`, `list_get` at `list_itr_tail` returns `v` and `list_pop(list,
list_itr_end_t)` returns `list_itr_end_t`, removes that last element and
nothing else, and lowers `list_count` by one.  After the values `vs` are pushed
at the tail in order (allocation succeeding), `|vs|` rounds of reading the tail
and popping it yield `vs` reversed and leave the earlier traversal and count.
After `vs` are pushed at the head instead, emptying the list from the tail
yields the earlier items last first and then `vs` in push order. -/
theorem C31_tail_pops_stack (l : list_t) (hwf : WF l) (t vs : List Nat)
    (ht : traversal l = some t) :
    (∀ (t1 : List Nat) (v : Nat), t = t1 ++ [v] →
      ∃ q l1, list_itr_tail l = some q ∧ list_get l q = some v ∧
        list_pop l list_itr_end_t = some (l1, list_itr_end_t) ∧
        traversal l1 = some t1 ∧ list_count l1 + 1 = list_count l) ∧
    (∃ l1 l2, run_ops l (vs.map deque_op.push_tail) = some l1 ∧
      traversal l1 = some (t ++ vs) ∧
      pop_tail_n vs.length l1 = some (l2, vs.reverse) ∧
      traversal l2 = some t ∧ list_count l2 = list_count l) ∧
    (∃ l1 l2, run_ops l (vs.map deque_op.push_head) = some l1 ∧
      traversal l1 = some (vs.reverse ++ t) ∧
      pop_tail_n (vs.length + t.length) l1 = some (l2, t.reverse ++ vs) ∧
      list_count l2 = 0) := by
  obtain ⟨us, fs, hrep⟩ := hwf
  have hpt : payloads l.items us = t := by
    have := traversal_rep hrep
    rw [ht] at this
    exact (Option.some.inj this).symm
  have hlen : us.length = t.length := by rw [← hpt]; simp [payloads]
  refine ⟨?_, ?_, ?_⟩
  · intro t1 v e
    obtain ⟨l1, us1, fs1, k1, k2, k3, -, -⟩ := pop_tail_n_rep 1 l us fs t1 [v] hrep
      (by rw [hpt, e]) rfl
    rcases List.eq_nil_or_concat us with hu | ⟨lu, q, hu⟩
    · subst hu
      rw [e] at hlen
      simp at hlen
    rw [List.concat_eq_append] at hu
    subst hu
    have hq : (slot l.items q).data = v := by
      rw [payloads_append, e] at hpt
      have := List.append_inj' hpt (by simp [payloads])
      simpa [payloads] using this.2
    obtain ⟨l2, h1, h2, -, -, h5⟩ := @list_pop_rep l lu [] fs q hrep list_itr_end_t
      (Or.inr ⟨rfl, rfl⟩)
    rw [List.append_nil] at h2
    have hnq : q ∉ lu := by
      have hnd : (lu ++ [q]).Nodup := (List.nodup_append.mp hrep.nodup).1
      intro c
      have := List.disjoint_of_nodup_append hnd c
      simp at this
    refine ⟨(q : Int), l2, list_itr_tail_rep hrep, ?_, by simpa using h1, ?_, ?_⟩
    · rw [list_get_rep hrep (show q ∈ lu ++ [q] by simp), hq]
    · rw [traversal_rep h2, payloads_congr (fun y hy => h5 y (fun c => hnq (c ▸ hy)))]
      rw [payloads_append, e] at hpt
      exact congrArg some (List.append_inj' hpt (by simp [payloads])).1
    · simp only [list_count, h2.cnt, hrep.cnt]
      simp
  · obtain ⟨l1, us1, fs1, h1, h2, h3, -⟩ := run_ops_rep (vs.map deque_op.push_tail) l us fs
      hrep (pops_guarded_push_tail vs _)
    rw [hpt, deque_run_push_tail] at h3
    obtain ⟨l2, us2, fs2, k1, k2, k3, -, -⟩ := pop_tail_n_rep vs.length l1 us1 fs1 t vs h2 h3
      rfl
    refine ⟨l1, l2, h1, by rw [traversal_rep h2, h3], k1, by rw [traversal_rep k2, k3], ?_⟩
    have : us2.length = t.length := by rw [← k3]; simp [payloads]
    simp only [list_count, k2.cnt, hrep.cnt, this, hlen]
  · obtain ⟨l1, us1, fs1, h1, h2, h3, -⟩ := run_ops_rep (vs.map deque_op.push_head) l us fs
      hrep (pops_guarded_push_head vs _)
    rw [hpt, deque_run_push_head] at h3
    obtain ⟨l2, us2, fs2, k1, k2, k3, -, -⟩ := pop_tail_n_rep (vs.length + t.length) l1 us1
      fs1 [] (vs.reverse ++ t) h2 (by simpa using h3) (by simp)
    refine ⟨l1, l2, h1, by rw [traversal_rep h2, h3], by simpa using k1, ?_⟩
    have : us2.length = 0 := by
      have := congrArg List.length k3
      simpa [payloads] using this
    simp only [list_count, k2.cnt, this]

/-- Witness of C31: `list_two_of_four` (traversal 10, 20) and the values 30,
40, 50. -/
theorem C31_tail_pops_stack_witness :
    WF list_two_of_four ∧ traversal list_two_of_four = some [10, 20] ∧
    ∃ l1 l2, run_ops list_two_of_four ([30, 40, 50].map deque_op.push_tail) = some l1 ∧
      traversal l1 = some ([10, 20] ++ [30, 40, 50]) ∧
      pop_tail_n [30, 40, 50].length l1 = some (l2, [30, 40, 50].reverse) ∧
      traversal l2 = some [10, 20] ∧ list_count l2 = list_count list_two_of_four :=
  ⟨⟨_, _, rep_list_two_of_four⟩, traversal_rep rep_list_two_of_four,
   (C31_tail_pops_stack list_two_of_four ⟨_, _, rep_list_two_of_four⟩ [10, 20] [30, 40, 50]
      (traversal_rep rep_list_two_of_four)).2.1⟩

/-- C32. On a well-formed list the handles met from `list_itr_tail` by
`list_itr_rnext` until `list_itr_end_t` are the handles of the forward
traversal in reverse order, the payloads read along them are the forward
traversal reversed, and both traversals end after `list_count` items. -/
theorem C32_reverse_traversal (l : list_t) (hwf : WF l) :
    ∃ (hs : List Int) (t : List Nat), handles l = some hs ∧ rhandles l = some hs.reverse ∧
      traversal l = some t ∧ rtraversal l = some t.reverse ∧
      hs.length = list_count l ∧ hs.reverse.length = list_count l ∧
      t.length = list_count l := by
  obtain ⟨us, fs, hrep⟩ := hwf
  refine ⟨_, _, handles_rep hrep, ?_, traversal_rep hrep, rtraversal_rep hrep, ?_, ?_, ?_⟩
  · rw [rhandles_rep hrep, List.map_reverse]
  · simp [list_count, hrep.cnt]
  · simp [list_count, hrep.cnt]
  · simp [list_count, hrep.cnt, payloads]

/-- Witness of C32: the list `list_two_of_four`, forward handles 0, 1. -/
theorem C32_reverse_traversal_witness :
    WF list_two_of_four ∧
    ∃ (hs : List Int) (t : List Nat), handles list_two_of_four = some hs ∧
      rhandles list_two_of_four = some hs.reverse ∧
      traversal list_two_of_four = some t ∧ rtraversal list_two_of_four = some t.reverse ∧
      hs.length = list_count list_two_of_four ∧
      hs.reverse.length = list_count list_two_of_four ∧
      t.length = list_count list_two_of_four :=
  ⟨⟨_, _, rep_list_two_of_four⟩,
   C32_reverse_traversal list_two_of_four ⟨_, _, rep_list_two_of_four⟩⟩

/-- C33. A well-formed list holding exactly one element, `h` being its
`list_itr_begin`: `list_itr_tail` is `h` too, `list_itr_next(list, h)` and
`list_itr_rnext(list, h)` are `list_itr_end_t`, `h` is the only handle of the
traversal, and slot `h` is in use and linked to itself (`next == prev == h`). -/
theorem C33_single_element (l : list_t) (hwf : WF l) (hc : list_count l = 1) (h : Int)
    (hb : list_itr_begin l = h) :
    list_itr_tail l = some h ∧ list_itr_next l h = some list_itr_end_t ∧
    list_itr_rnext l h = some list_itr_end_t ∧ handles l = some [h] ∧
    ∃ it, ITEM_AT l.items h = some it ∧ it.next = h ∧ it.prev = h ∧ it.used = true := by
  obtain ⟨us, fs, hrep⟩ := hwf
  obtain ⟨x, hx⟩ : ∃ x, us = [x] := by
    have : us.length = 1 := by rw [← hrep.cnt]; exact hc
    exact List.length_eq_one.mp this
  subst hx
  have hbx : h = (x : Int) := by
    rw [← hb, list_itr_begin_rep hrep]; rfl
  subst hbx
  have hxb : x < l.items.length := hrep.lt_of_mem (by simp)
  have hl : Link l.items x x := circ_last_link (L := []) hrep.used_circ rfl
  refine ⟨@list_itr_tail_rep l [] fs x hrep, ?_, ?_, ?_, slot l.items x,
    ITEM_AT_nat _ _ hxb, hl.1, hl.2, (hrep.flags x (hrep.len ▸ hxb)).mpr (by simp)⟩
  · have := @list_itr_next_rep l [x] fs hrep x [] [] rfl
    simpa [headOf] using this
  · have := @list_itr_rnext_rep l [x] fs hrep x [] [] rfl
    simpa [headOf] using this
  · have := handles_rep hrep
    simpa using this

/-- Witness of C33: the one-slot list `list_one_full`, handle 0. -/
theorem C33_single_element_witness :
    WF list_one_full ∧ list_count list_one_full = 1 ∧ list_itr_begin list_one_full = 0 ∧
    list_itr_tail list_one_full = some 0 ∧
    list_itr_next list_one_full 0 = some list_itr_end_t ∧
    list_itr_rnext list_one_full 0 = some list_itr_end_t ∧
    handles list_one_full = some [0] ∧
    ∃ it, ITEM_AT list_one_full.items 0 = some it ∧ it.next = 0 ∧ it.prev = 0 ∧
      it.used = true :=
  ⟨⟨[0], [], rep_list_one_full⟩, rfl, rfl,
   C33_single_element list_one_full ⟨[0], [], rep_list_one_full⟩ rfl 0 rfl⟩

/-- The doubling loop of `list_grow` returns `new_size * 2 ^ k` for the least
`k >= 1` that reaches the target. -/
theorem grow_double_spec : ∀ (fuel ns target : Nat), 0 < ns → 1 ≤ fuel →
    target ≤ ns + fuel →
    ∃ k, 1 ≤ k ∧ grow_double fuel ns target = ns * 2 ^ k ∧ target ≤ ns * 2 ^ k ∧
      ∀ j, 1 ≤ j → j < k → ns * 2 ^ j < target
  | 0, _, _, _, h, _ => by omega
  | fuel + 1, ns, target, h0, _, h => by
    simp only [grow_double, Nat.shiftLeft_eq, pow_one]
    split_ifs with c
    · obtain ⟨k, k1, k2, k3, k4⟩ := grow_double_spec fuel (ns * 2) target (by omega)
        (by omega) (by omega)
      refine ⟨k + 1, by omega, ?_, ?_, ?_⟩
      · rw [k2, pow_succ]; ring
      · rw [pow_succ]
        calc target ≤ ns * 2 * 2 ^ k := k3
          _ = ns * (2 ^ k * 2) := by ring
      · intro j j1 j2
        by_cases hj : j = 1
        · subst hj; simpa using c
        · have := k4 (j - 1) (by omega) (by omega)
          have e : ns * 2 ^ j = ns * 2 * 2 ^ (j - 1) := by
            obtain ⟨i, rfl⟩ : ∃ i, j = i + 1 := ⟨j - 1, by omega⟩
            rw [pow_succ]
            simp only [Nat.add_sub_cancel]
            ring
          rw [e]
          exact this
    · exact ⟨1, le_refl _, by simp, by simpa using Nat.le_of_not_lt c, fun j j1 j2 => by omega⟩

/-- Growth by one slot doubles a non-zero capacity and makes capacity 0 into
capacity 1. -/
theorem grow_new_size_one (c : Nat) : grow_new_size c 1 = if c = 0 then 1 else 2 * c := by
  by_cases hc : c = 0
  · simp [grow_new_size, hc]
  · obtain ⟨k, rfl⟩ : ∃ k, c = k + 1 := ⟨c - 1, by omega⟩
    have h2 : ¬ ((k + 1) * 2 < k + 1 + 1) := by omega
    simp only [grow_new_size, ne_eq, hc, not_false_eq_true, if_true, grow_double,
      Nat.shiftLeft_eq, pow_one, h2, if_false]
    omega

/-- What `list_clear` leaves of a well-formed list. -/
theorem list_clear_spec {l : list_t} {us fs : List Nat} (h : Rep l us fs) (c : Bool) :
    list_clear c l
      = some ({ dfn := l.dfn, size := 0, count := 0, used_head := list_itr_end_t,
                free_head := list_itr_end_t, items := [] }, true,
              if l.dfn ≠ 0 then payloads l.items us else []) := by
  obtain ⟨l1, calls, h1, -, -, -, h5⟩ := list_deinit_rep h
  have hcalls : calls = if l.dfn ≠ 0 then payloads l.items us else [] := by
    rw [h5]
    by_cases hs : l.size = 0
    · have hadd := h.length_add
      have hu : us = [] := List.length_eq_zero.mp (by omega)
      simp [hs, hu, payloads]
    · simp [hs]
  simp [list_clear, h1, list_init, list_grow_zero, hcalls]

/-- C34. `list_clear` on a well-formed list with forward traversal `t`
(whatever the allocator does) returns `TRUE`, hands the destructor, when one
is set, exactly the payloads of `t` in order, and leaves a well-formed list
with `list_count` 0, `list_itr_begin` equal to `list_itr_end_t`, capacity 0
and the destructor it had; a following `list_push` (allocation succeeding)
returns `TRUE` and the list then holds just the pushed value. -/
theorem C34_clear_empties_keeps_destructor (l : list_t) (hwf : WF l) (ok : Bool) :
    ∃ l1 calls t, list_clear ok l = some (l1, true, calls) ∧ traversal l = some t ∧
      calls = (if l.dfn ≠ 0 then t else []) ∧
      list_count l1 = 0 ∧ list_itr_begin l1 = list_itr_end_t ∧ l1.size = 0 ∧
      l1.dfn = l.dfn ∧ WF l1 ∧
      ∀ v : Nat, ∃ l2, list_push true l1 v list_itr_end_t = some (l2, true) ∧
        traversal l2 = some [v] ∧ list_count l2 = 1 ∧ l2.dfn = l.dfn := by
  obtain ⟨us, fs, hrep⟩ := hwf
  have hre := rep_empty l.dfn
  refine ⟨_, _, _, list_clear_spec hrep ok, traversal_rep hrep, rfl, rfl, rfl, rfl, rfl,
    ⟨_, _, hre⟩, ?_⟩
  intro v
  obtain ⟨l2, us2, fs2, h1, h2, h3, h4⟩ := @list_push_rep _ [] [] hre v [] [] rfl
  have hp : payloads l2.items us2 = [v] := by simpa [payloads] using h3
  refine ⟨l2, by simpa [headOf] using h1, by rw [traversal_rep h2, hp], ?_, h4⟩
  have : us2.length = 1 := by
    have := congrArg List.length hp
    simpa [payloads] using this
  simp [list_count, h2.cnt, this]

/-- Witness of C34: `list_two_of_four_dtor`, whose destructor is handed 10 and
20. -/
theorem C34_clear_empties_keeps_destructor_witness :
    WF list_two_of_four_dtor ∧
    ∃ l1 calls t, list_clear true list_two_of_four_dtor = some (l1, true, calls) ∧
      traversal list_two_of_four_dtor = some t ∧
      calls = (if list_two_of_four_dtor.dfn ≠ 0 then t else []) ∧
      list_count l1 = 0 ∧ list_itr_begin l1 = list_itr_end_t ∧ l1.size = 0 ∧
      l1.dfn = list_two_of_four_dtor.dfn ∧ WF l1 ∧
      ∀ v : Nat, ∃ l2, list_push true l1 v list_itr_end_t = some (l2, true) ∧
        traversal l2 = some [v] ∧ list_count l2 = 1 ∧ l2.dfn = list_two_of_four_dtor.dfn :=
  ⟨⟨_, _, rep_list_two_of_four_dtor⟩,
   C34_clear_empties_keeps_destructor list_two_of_four_dtor
     ⟨_, _, rep_list_two_of_four_dtor⟩ true⟩

/-- In arithmetic without wrap-around, on a well-formed list of capacity `c`,
allocation succeeding: `list_reserve(list, n)` with `n > c >= 1` leaves
capacity `c * 2 ^ k` for the least `k >= 1` with `c * 2 ^ k >= n`, and with
`c = 0 < n` capacity `n`; a `list_push` at a valid position leaves capacity
`2 * c` when the list is full and `c >= 1`, capacity 1 when `c = 0`, and
capacity `c` when the list is not full. -/
theorem list_capacity_doubles (l : list_t) (hwf : WF l) :
    (∀ n, 1 ≤ l.size → l.size < n →
      ∃ l1 k, list_reserve true l n = some (l1, true) ∧ 1 ≤ k ∧
        l1.size = l.size * 2 ^ k ∧ n ≤ l.size * 2 ^ k ∧
        ∀ j, 1 ≤ j → j < k → l.size * 2 ^ j < n) ∧
    (∀ n, l.size = 0 → 0 < n →
      ∃ l1, list_reserve true l n = some (l1, true) ∧ l1.size = n) ∧
    (∀ (v : Nat) (itr : Int), (itr = list_itr_end_t ∨ in_use l itr) →
      ∃ l1, list_push true l v itr = some (l1, true) ∧
        l1.size = (if l.count = l.size then (if l.size = 0 then 1 else 2 * l.size)
          else l.size)) := by
  obtain ⟨us, fs, hrep⟩ := hwf
  refine ⟨?_, ?_, ?_⟩
  · intro n h1 hn
    obtain ⟨l1, k1, -, -, k4, -, -⟩ := list_grow_rep hrep (show 0 < n - l.size by omega)
    have hs0 : l.size ≠ 0 := by omega
    have ht : l.size + (n - l.size) = n := by omega
    obtain ⟨k, m1, m2, m3, m4⟩ := grow_double_spec n l.size n (by omega) (by omega) (by omega)
    have hns : grow_new_size l.size (n - l.size) = l.size * 2 ^ k := by
      simp only [grow_new_size, ne_eq, hs0, not_false_eq_true, if_true, ht]
      exact m2
    refine ⟨l1, k, ?_, m1, by rw [k4, hns], m3, m4⟩
    have hgt : n > l.size := hn
    simp [list_reserve, hgt, k1]
  · intro n h0 hn
    obtain ⟨l1, k1, -, -, k4, -, -⟩ := list_grow_rep hrep (show 0 < n - l.size by omega)
    refine ⟨l1, ?_, ?_⟩
    · have hgt : n > l.size := by omega
      simp [list_reserve, hgt, k1]
    · rw [k4]
      simp [grow_new_size, h0]
  · intro v itr hv
    obtain ⟨lu, ru, e, rfl⟩ := valid_position_split hrep hv
    by_cases hc : l.count = l.size
    · obtain ⟨l1, us1, fs1, h1, -, -, h4, -⟩ := list_push_grow hrep hc v e
      refine ⟨l1, h1, ?_⟩
      rw [h4, grow_new_size_one, if_pos hc]
    · obtain ⟨l1, f, fs1, -, h1, -, h3, -⟩ := list_push_nogrow hrep hc true v e
      exact ⟨l1, h1, by rw [h3, if_neg hc]⟩

/-- C36. On a well-formed list: a `list_push` at a valid position of a list
that is not full returns `TRUE`, leaves every in-use handle in use with the
same `list_get` result, and puts the new value in a slot that was not in use,
the only new in-use handle; `list_pop(list, h)` at an in-use handle `h`
returns, leaves `h` not in use with `list_get(list, h)` `NULL`, and leaves
every other in-use handle in use with the same `list_get` result. -/
theorem C36_handles_stable (l : list_t) (hwf : WF l) :
    (∀ (ok : Bool) (v : Nat) (itr : Int), l.count < l.size →
      (itr = list_itr_end_t ∨ in_use l itr) →
      ∃ l1 f, list_push ok l v itr = some (l1, true) ∧
        (∀ h, in_use l h → in_use l1 h ∧ list_get l1 h = list_get l h) ∧
        ¬ in_use l f ∧ in_use l1 f ∧ list_get l1 f = some v ∧
        (∀ h, in_use l1 h → h = f ∨ in_use l h)) ∧
    (∀ h : Int, in_use l h →
      ∃ l1 r, list_pop l h = some (l1, r) ∧ ¬ in_use l1 h ∧ list_get l1 h = some 0 ∧
        ∀ h1, in_use l h1 → h1 ≠ h → in_use l1 h1 ∧ list_get l1 h1 = list_get l h1) := by
  obtain ⟨us, fs, hrep⟩ := hwf
  constructor
  · intro ok v itr hlt hv
    obtain ⟨lu, ru, e, rfl⟩ := valid_position_split hrep hv
    obtain ⟨l1, f, fs1, hfs, h1, h2, -, -, h5, h6⟩ := list_push_nogrow hrep (by omega) ok v e
    have hnd := hrep.nodup
    rw [hfs] at hnd
    have hfu : f ∉ us := fun c => (List.nodup_append.mp hnd).2.2 c (by simp)
    have hf1 : f ∈ lu ++ f :: ru := by simp
    refine ⟨l1, (f : Int), h1, ?_, ?_, mem_in_use h2 hf1, ?_, ?_⟩
    · intro h hu
      obtain ⟨x, rfl, hx⟩ := in_use_mem hrep hu
      have hxf : x ≠ f := fun c => hfu (c ▸ hx)
      have hx1 : x ∈ lu ++ f :: ru := by
        rw [e] at hx
        simp only [List.mem_append, List.mem_cons] at hx ⊢
        tauto
      exact ⟨mem_in_use h2 hx1, by rw [list_get_rep h2 hx1, list_get_rep hrep hx, h6 x hxf]⟩
    · intro hu
      obtain ⟨y, hy, hyu⟩ := in_use_mem hrep hu
      have : f = y := by exact_mod_cast hy
      exact hfu (this ▸ hyu)
    · rw [list_get_rep h2 hf1, h5]
    · intro h hu
      obtain ⟨x, rfl, hx⟩ := in_use_mem h2 hu
      by_cases hxf : x = f
      · left; rw [hxf]
      · right
        apply mem_in_use hrep
        rw [e]
        simp only [List.mem_append, List.mem_cons] at hx ⊢
        tauto
  · intro h hu
    obtain ⟨q, rfl, hq⟩ := in_use_mem hrep hu
    obtain ⟨lu, ru, e⟩ := List.append_of_mem hq
    subst e
    obtain ⟨l1, h1, h2, -, -, h5⟩ := list_pop_rep hrep (q : Int) (Or.inl rfl)
    have hndu : (lu ++ q :: ru).Nodup := (List.nodup_append.mp hrep.nodup).1
    have hq1 : q ∉ lu ++ ru := by
      intro c
      have h3 := List.nodup_middle.mp hndu
      exact (List.nodup_cons.mp h3).1 c
    have hnu : ¬ in_use l1 (q : Int) := by
      intro c
      obtain ⟨y, hy, hyu⟩ := in_use_mem h2 c
      have : q = y := by exact_mod_cast hy
      exact hq1 (this ▸ hyu)
    refine ⟨l1, _, h1, hnu, list_get_not_in_use h2 hnu, ?_⟩
    intro h1' hu1 hne
    obtain ⟨x, rfl, hx⟩ := in_use_mem hrep hu1
    have hxq : x ≠ q := fun c => hne (by rw [c])
    have hx1 : x ∈ lu ++ ru := by
      simp only [List.mem_append, List.mem_cons] at hx ⊢
      tauto
    exact ⟨mem_in_use h2 hx1, by rw [list_get_rep h2 hx1, list_get_rep hrep hx, h5 x hxq]⟩

/-- Witness of C36: `list_two_of_four`, a pop at handle 0. -/
theorem C36_handles_stable_witness :
    WF list_two_of_four ∧ in_use list_two_of_four 0 ∧
    ∃ l1 r, list_pop list_two_of_four 0 = some (l1, r) ∧ ¬ in_use l1 0 ∧
      list_get l1 0 = some 0 ∧
      ∀ h1, in_use list_two_of_four h1 → h1 ≠ 0 →
        in_use l1 h1 ∧ list_get l1 h1 = list_get list_two_of_four h1 :=
  ⟨⟨_, _, rep_list_two_of_four⟩, ⟨_, rfl, rfl⟩,
   (C36_handles_stable list_two_of_four ⟨_, _, rep_list_two_of_four⟩).2 0 ⟨_, rfl, rfl⟩⟩

/-- C37. A successful `list_grow` (allocation succeeding, `amount > 0`) of a
well-formed list with forward traversal `t`: afterwards the handles of the
traversal are `0, 1, ..., count - 1`, `list_get` at handle `k` is the `k`-th
payload of `t`, count, destructor and traversal are as before, `used_head` is
0 when `count > 0` and `list_itr_end_t` when `count = 0`, the free chain is
`count, count + 1, ..., capacity - 1` in that order and `free_head` is
`count`.  An enlarging `list_reserve` is that `list_grow`. -/
theorem C37_growth_renumbers (l : list_t) (hwf : WF l) (t : List Nat)
    (ht : traversal l = some t) (amount : Nat) (ha : 0 < amount) :
    ∃ l1, list_grow true l amount = some (l1, true) ∧
      list_reserve true l (l.size + amount) = some (l1, true) ∧
      handles l1 = some ((List.range l.count).map (fun k : Nat => (k : Int))) ∧
      traversal l1 = some t ∧
      (∀ k, k < l.count → list_get l1 (k : Int) = t[k]?) ∧
      l1.count = l.count ∧ l1.dfn = l.dfn ∧
      l1.used_head = (if 0 < l.count then 0 else list_itr_end_t) ∧
      Rep l1 (List.range l.count) (List.range' l.count (l1.size - l.count)) ∧
      l.count < l1.size ∧ l1.free_head = (l.count : Int) := by
  obtain ⟨us, fs, hrep⟩ := hwf
  obtain ⟨l1, h1, h2, h3, h4, h5, h6⟩ := list_grow_rep hrep ha
  have hcnt := hrep.cnt
  have hpt : payloads l.items us = t := by
    have := traversal_rep hrep
    rw [ht] at this
    exact (Option.some.inj this).symm
  have hge := grow_new_size_ge l.size amount
  have hadd := hrep.length_add
  have hlt : l.count < l1.size := by rw [h4]; omega
  rw [← hcnt, ← h4] at h2
  refine ⟨l1, h1, ?_, handles_rep h2, ?_, ?_, h6, h5, ?_, h2, hlt, ?_⟩
  · have hgt : l.size + amount > l.size := by omega
    simp [list_reserve, hgt, h1]
  · rw [traversal_rep h2, hcnt, h3, hpt]
  · intro k hk
    rw [list_get_rep h2 (List.mem_range.mpr hk)]
    have : (payloads l1.items (List.range l.count))[k]? = t[k]? := by
      rw [hcnt, h3, hpt]
    rw [← this]
    simp [payloads, hk]
  · rw [h2.uhead]
    by_cases hc : 0 < l.count
    · obtain ⟨c, hc'⟩ : ∃ c, l.count = c + 1 := ⟨l.count - 1, by omega⟩
      rw [if_pos hc, hc', List.range_succ_eq_map]
      rfl
    · have : l.count = 0 := by omega
      rw [if_neg hc, this]
      rfl
  · rw [h2.fhead]
    obtain ⟨c, hc'⟩ : ∃ c, l1.size - l.count = c + 1 := ⟨l1.size - l.count - 1, by omega⟩
    rw [hc']
    rfl

/-- Witness of C37: `list_rev2` (forward handles 1, 0) grown by 3 slots. -/
theorem C37_growth_renumbers_witness :
    WF list_rev2 ∧ traversal list_rev2 = some [20, 10] ∧ 0 < 3 ∧
    ∃ l1, list_grow true list_rev2 3 = some (l1, true) ∧
      list_reserve true list_rev2 (list_rev2.size + 3) = some (l1, true) ∧
      handles l1 = some ((List.range list_rev2.count).map (fun k : Nat => (k : Int))) ∧
      traversal l1 = some [20, 10] ∧
      (∀ k, k < list_rev2.count → list_get l1 (k : Int) = [20, 10][k]?) ∧
      l1.count = list_rev2.count ∧ l1.dfn = list_rev2.dfn ∧
      l1.used_head = (if 0 < list_rev2.count then 0 else list_itr_end_t) ∧
      Rep l1 (List.range list_rev2.count)
        (List.range' list_rev2.count (l1.size - list_rev2.count)) ∧
      list_rev2.count < l1.size ∧ l1.free_head = (list_rev2.count : Int) :=
  have hr : Rep list_rev2 [1, 0] [] := by
    refine ⟨rfl, ?_, ?_, trivial, rfl, rfl, rfl, ?_⟩
    · exact (List.Perm.swap 0 1 [] : List.Perm [1, 0] [0, 1])
    · simp [Circ, Link, slot, list_rev2]
    · intro x hx
      have hx1 : x < 2 := hx
      interval_cases x <;> simp [slot, list_rev2]
  ⟨⟨_, _, hr⟩, traversal_rep hr, by decide,
   C37_growth_renumbers list_rev2 ⟨_, _, hr⟩ [20, 10] (traversal_rep hr) 3 (by decide)⟩

/-- Once `new_size` is 0 the doubling loop never ends. -/
theorem grow_double_fix_zero (w target : Nat) (ht : 0 < target) :
    ∀ fuel : Nat, grow_double_fix w fuel 0 target = none
  | 0 => rfl
  | fuel + 1 => by
    simp only [grow_double_fix, Nat.zero_shiftLeft, Nat.zero_mod, ht, if_true]
    exact grow_double_fix_zero w target ht fuel

/-- In `w`-bit arithmetic the doubling loop started at a power of two never
reaches the target `2 ^ (w - 1) + 1`: the size wraps to 0. -/
theorem grow_double_fix_pow (w : Nat) (hw : 1 ≤ w) :
    ∀ (d j : Nat), d + j = w - 1 →
      ∀ fuel : Nat, grow_double_fix w fuel (2 ^ j) (2 ^ (w - 1) + 1) = none
  | 0, j, hj, fuel => by
    cases fuel with
    | zero => rfl
    | succ fuel =>
      have hjw : j = w - 1 := by omega
      have e : (2 ^ j <<< 1) % 2 ^ w = 0 := by
        rw [Nat.shiftLeft_eq, pow_one, ← pow_succ, hjw, Nat.sub_add_cancel hw, Nat.mod_self]
      simp only [grow_double_fix, e, Nat.zero_lt_succ, if_true]
      exact grow_double_fix_zero w _ (Nat.zero_lt_succ _) fuel
  | d + 1, j, hj, fuel => by
    cases fuel with
    | zero => rfl
    | succ fuel =>
      have hlt : 2 ^ (j + 1) < 2 ^ w := Nat.pow_lt_pow_right (by norm_num : 1 < 2) (by omega)
      have hle : 2 ^ (j + 1) ≤ 2 ^ (w - 1) :=
        Nat.pow_le_pow_right (by norm_num) (by omega)
      have e : (2 ^ j <<< 1) % 2 ^ w = 2 ^ (j + 1) := by
        rw [Nat.shiftLeft_eq, pow_one, ← pow_succ, Nat.mod_eq_of_lt hlt]
      have hc : 2 ^ (j + 1) < 2 ^ (w - 1) + 1 := by omega
      simp only [grow_double_fix, e, hc, if_true]
      exact grow_double_fix_pow w hw d (j + 1) (by omega) fuel

/-- More fuel does not change the result of a doubling loop that was left. -/
theorem grow_double_fix_mono (w : Nat) : ∀ (fuel ns target r k : Nat),
    grow_double_fix w fuel ns target = some r →
    grow_double_fix w (fuel + k) ns target = some r
  | 0, _, _, _, _, h => by simp [grow_double_fix] at h
  | fuel + 1, ns, target, r, k, h => by
    have e : fuel + 1 + k = (fuel + k) + 1 := by omega
    rw [e]
    simp only [grow_double_fix] at h ⊢
    split_ifs at h ⊢ with c
    · exact grow_double_fix_mono w fuel _ target r k h
    · exact h

/-- The doubling loop computes the same size in `w`-bit arithmetic as without
wrap-around whenever twice the target fits `w` bits. -/
theorem grow_double_fix_eq (w : Nat) : ∀ (fuel ns target : Nat),
    0 < ns → ns < target → target ≤ ns + fuel → 2 * target ≤ 2 ^ w →
    grow_double_fix w fuel ns target = some (grow_double fuel ns target)
  | 0, _, _, _, h1, h2, _ => by omega
  | fuel + 1, ns, target, h0, h1, h2, h3 => by
    have hs : ns <<< 1 = 2 * ns := by
      rw [Nat.shiftLeft_eq]; omega
    have hm : (ns <<< 1) % 2 ^ w = ns <<< 1 := by
      apply Nat.mod_eq_of_lt
      omega
    simp only [grow_double_fix, grow_double, hm]
    split_ifs with c
    · exact grow_double_fix_eq w fuel _ target (by omega) c (by omega) h3
    · rfl

/-- The size computation of `list_grow` is the same in `w`-bit arithmetic as
without wrap-around whenever twice the target fits `w` bits, for every fuel
of at least the target. -/
theorem grow_new_size_fix_eq (w fuel size amount : Nat) (ha : 0 < amount)
    (hw : 2 * (size + amount) ≤ 2 ^ w) (hf : size + amount ≤ fuel) :
    grow_new_size_fix w fuel size amount = some (grow_new_size size amount) := by
  by_cases hs : size = 0
  · simp [grow_new_size_fix, grow_new_size, hs]
  · have hm : (size + amount) % 2 ^ w = size + amount := Nat.mod_eq_of_lt (by omega)
    simp only [grow_new_size_fix, grow_new_size, ne_eq, hs, not_false_eq_true, if_true, hm]
    have h := grow_double_fix_eq w (size + amount) size (size + amount) (by omega) (by omega)
      (by omega) hw
    obtain ⟨k, rfl⟩ : ∃ k, fuel = size + amount + k := ⟨fuel - (size + amount), by omega⟩
    exact grow_double_fix_mono w _ _ _ _ k h

/-- The function `list_grow` is the size computation followed by
`list_grow_at`. -/
theorem list_grow_eq_at (ok : Bool) (l : list_t) (amount : Nat) :
    list_grow ok l amount
      = if amount = 0 then some (l, true)
        else list_grow_at ok l (grow_new_size l.size amount) := by
  simp only [list_grow, list_grow_at]

/-- The two models of `list_reserve` agree on every request below `2 ^ 32`
that does not enlarge the list or whose double fits `w` bits. -/
theorem list_reserve_fix_eq (w fuel : Nat) (ok : Bool) (l : list_t) (n : Nat)
    (hn : n < 2 ^ 32) (hw : n ≤ l.size ∨ 2 * n ≤ 2 ^ w) (hf : n ≤ fuel) :
    list_reserve_fix w fuel ok l n = list_reserve ok l n := by
  have hm : n % 2 ^ 32 = n := Nat.mod_eq_of_lt hn
  simp only [list_reserve_fix, list_reserve, hm]
  split_ifs with c
  · have hw2 : 2 * n ≤ 2 ^ w := by
      rcases hw with h | h
      · omega
      · exact h
    have ha : n - l.size ≠ 0 := by omega
    have e := grow_new_size_fix_eq w fuel l.size (n - l.size) (by omega)
      (by rw [Nat.add_sub_cancel' (le_of_lt c)]; exact hw2)
      (by rw [Nat.add_sub_cancel' (le_of_lt c)]; exact hf)
    rw [list_grow_eq_at]
    simp only [list_grow_fix, ha, if_false, e]
  · rfl

/-- C30 (code defect). With `uint_t` 32 bits wide (the default build),
`list_reserve(list, 0x80000001)` on the full one-slot list `list_one_full`
never returns: the doubling loop of `list_grow` goes 1, 2, ..., `2 ^ 31`, wraps
to 0 and stays below its target for ever, whatever the allocator would do.
For every width `w` of `uint_t`, every well-formed list of capacity `c` and
every request `n < 2 ^ 32` with `n <= c` or `4 * n <= 2 ^ w`, the call returns
for every fuel of at least `n`, with `TRUE` when allocation succeeds, and
leaves a well-formed list of capacity at least `max(n, c)`, the list being
unchanged when `n <= c` and the new capacity being below `2 * n` (so below
`2 ^ (w - 1)`: every slot index fits `int_t`) when `c < n`; with `uint_t` 64
bits wide that is every request.  So `list_reserve(list, 9)` on
`list_two_of_four` returns `TRUE` in the default build too. -/
theorem C30_reserve_doubling_never_ends :
    (∀ fuel : Nat, grow_double_fix 32 fuel 1 2147483649 = none) ∧
    (∀ (fuel : Nat) (ok : Bool),
      list_reserve_fix 32 fuel ok list_one_full 2147483649 = none) ∧
    (∀ (w fuel : Nat) (l : list_t) (n : Nat), WF l → n < 2 ^ 32 →
      (n ≤ l.size ∨ 4 * n ≤ 2 ^ w) → n ≤ fuel →
      ∃ l1, list_reserve_fix w fuel true l n = some (l1, true) ∧ max n l.size ≤ l1.size ∧
        WF l1 ∧ (n ≤ l.size → l1 = l) ∧ (l.size < n → l1.size < 2 * n)) ∧
    (∀ (fuel : Nat) (l : list_t) (n : Nat), WF l → n < 2 ^ 32 → n ≤ fuel →
      ∃ l1, list_reserve_fix 64 fuel true l n = some (l1, true) ∧ max n l.size ≤ l1.size ∧
        WF l1 ∧ (n ≤ l.size → l1 = l) ∧ (l.size < n → l1.size < 2 * n)) ∧
    (∃ l1, list_reserve_fix 32 9 true list_two_of_four 9 = some (l1, true) ∧
      9 ≤ l1.size ∧ l1.size < 18 ∧ WF l1) := by
  have hnever : ∀ fuel : Nat, grow_double_fix 32 fuel 1 2147483649 = none := by
    intro fuel
    have := grow_double_fix_pow 32 (by norm_num) 31 0 (by norm_num) fuel
    simpa using this
  have hpos : ∀ (w fuel : Nat) (l : list_t) (n : Nat), WF l → n < 2 ^ 32 →
      (n ≤ l.size ∨ 4 * n ≤ 2 ^ w) → n ≤ fuel →
      ∃ l1, list_reserve_fix w fuel true l n = some (l1, true) ∧ max n l.size ≤ l1.size ∧
        WF l1 ∧ (n ≤ l.size → l1 = l) ∧ (l.size < n → l1.size < 2 * n) := by
    intro w fuel l n hwf hn hw hf
    have hw2 : n ≤ l.size ∨ 2 * n ≤ 2 ^ w := by
      rcases hw with h | h
      · exact Or.inl h
      · exact Or.inr (by omega)
    rw [list_reserve_fix_eq w fuel true l n hn hw2 hf]
    obtain ⟨l1, h1, h2, h3, h4⟩ := list_reserve_capacity l hwf n
    refine ⟨l1, h1, h2, h3, h4, ?_⟩
    intro hlt
    by_cases h0 : l.size = 0
    · obtain ⟨l2, k1, k2⟩ := (list_capacity_doubles l hwf).2.1 n h0 (by omega)
      rw [h1] at k1
      have e : l2 = l1 := by
        have := Option.some.inj k1
        exact (congrArg Prod.fst this).symm
      rw [← e, k2]
      omega
    · obtain ⟨l2, k, k1, k2, k3, k4, k5⟩ := (list_capacity_doubles l hwf).1 n (by omega) hlt
      rw [h1] at k1
      have e : l2 = l1 := by
        have := Option.some.inj k1
        exact (congrArg Prod.fst this).symm
      rw [← e, k3]
      obtain ⟨i, rfl⟩ : ∃ i, k = i + 1 := ⟨k - 1, by omega⟩
      have hprev : l.size * 2 ^ i < n := by
        by_cases hi : i = 0
        · subst hi; simpa using hlt
        · exact k5 i (by omega) (by omega)
      have e2 : l.size * 2 ^ (i + 1) = 2 * (l.size * 2 ^ i) := by
        rw [pow_succ]; ring
      rw [e2]
      omega
  refine ⟨hnever, ?_, hpos, ?_, ?_⟩
  · intro fuel ok
    have h := hnever fuel
    simp only [list_reserve_fix, list_grow_fix, grow_new_size_fix, list_one_full]
    norm_num
    rw [h]
  · intro fuel l n hwf hn hf
    exact hpos 64 fuel l n hwf hn (Or.inr (by omega)) hf
  · obtain ⟨l1, h1, h2, h3, -, h5⟩ := hpos 32 9 list_two_of_four 9
      ⟨_, _, rep_list_two_of_four⟩ (by norm_num) (Or.inr (by norm_num)) (le_refl _)
    exact ⟨l1, h1, le_trans (le_max_left _ _) h2, h5 (by decide), h3⟩

/-- C35 (code defect). With `uint_t` 32 bits wide (the default build),
`list_reserve(list, 0x80000001)` on `list_two_of_four` (capacity 4) never
returns, whatever the allocator would do: the doubling goes 8, 16, ...,
`2 ^ 31`, wraps to 0 and stays there.  When the wrapped size does get past the
target the size computed is not `c * 2 ^ k`: from capacity 11 with request
3000000000 the size computation of `list_grow` is left, after 30 rounds, with
`3221225472 = 3 * 2 ^ 30` (nothing is stated here about the rest of that
call, whose new array has more slots than `int_t` can index).  For every width
`w` of `uint_t` and every request `n < 2 ^ 32` with `4 * n <= 2 ^ w` the
capacity after `list_reserve` is as claimed (`c * 2 ^ k` for the least
`k >= 1` reaching `n` when `1 <= c < n`, exactly `n` when `c = 0 < n`), for
every fuel of at least `n`; a `list_push` at a valid position leaves capacity
`2 * c`, 1 or `c` as claimed, its `list_grow(list, 1)` being the same in
`w`-bit arithmetic whenever `4 * (c + 1) <= 2 ^ w`.  So `list_reserve(list,
9)` on `list_two_of_four` leaves capacity 16 in the default build too. -/
theorem C35_doubling_wraps_capacity :
    (∀ (fuel : Nat) (ok : Bool),
      list_reserve_fix 32 fuel ok list_two_of_four 2147483649 = none) ∧
    (∀ fuel : Nat, 30 ≤ fuel →
      grow_new_size_fix 32 fuel 11 (3000000000 - 11) = some 3221225472) ∧
    (∀ k : Nat, 11 * 2 ^ k ≠ 3221225472) ∧
    (∀ (w fuel : Nat) (l : list_t) (n : Nat), WF l → n < 2 ^ 32 → 4 * n ≤ 2 ^ w →
      n ≤ fuel → 1 ≤ l.size → l.size < n →
      ∃ l1 k, list_reserve_fix w fuel true l n = some (l1, true) ∧ 1 ≤ k ∧
        l1.size = l.size * 2 ^ k ∧ n ≤ l.size * 2 ^ k ∧
        ∀ j, 1 ≤ j → j < k → l.size * 2 ^ j < n) ∧
    (∀ (w fuel : Nat) (l : list_t) (n : Nat), WF l → n < 2 ^ 32 → 4 * n ≤ 2 ^ w →
      n ≤ fuel → l.size = 0 → 0 < n →
      ∃ l1, list_reserve_fix w fuel true l n = some (l1, true) ∧ l1.size = n) ∧
    (∀ (l : list_t) (v : Nat) (itr : Int), WF l → (itr = list_itr_end_t ∨ in_use l itr) →
      ∃ l1, list_push true l v itr = some (l1, true) ∧
        l1.size = (if l.count = l.size then (if l.size = 0 then 1 else 2 * l.size)
          else l.size)) ∧
    (∀ (w fuel : Nat) (ok : Bool) (l : list_t), 4 * (l.size + 1) ≤ 2 ^ w →
      l.size + 1 ≤ fuel → list_grow_fix w fuel ok l 1 = list_grow ok l 1) ∧
    (∃ l1, list_reserve_fix 32 9 true list_two_of_four 9 = some (l1, true) ∧
      l1.size = 16) := by
  refine ⟨?_, ?_, ?_, ?_, ?_, ?_, ?_, ?_⟩
  · intro fuel ok
    have h := grow_double_fix_pow 32 (by norm_num) 29 2 (by norm_num) fuel
    have h4 : grow_double_fix 32 fuel 4 2147483649 = none := by simpa using h
    simp only [list_reserve_fix, list_grow_fix, grow_new_size_fix, list_two_of_four]
    norm_num
    rw [h4]
  · intro fuel hf
    obtain ⟨k, rfl⟩ : ∃ k, fuel = 30 + k := ⟨fuel - 30, by omega⟩
    have hd : grow_double_fix 32 30 11 3000000000 = some 3221225472 := by decide
    have hd2 := grow_double_fix_mono 32 30 11 3000000000 3221225472 k hd
    simp only [grow_new_size_fix]
    norm_num
    exact hd2
  · intro k h
    have := congrArg (fun x => x % 11) h
    simp at this
  · intro w fuel l n hwf hn hw hf h1 h2
    rw [list_reserve_fix_eq w fuel true l n hn (Or.inr (by omega)) hf]
    exact (list_capacity_doubles l hwf).1 n h1 h2
  · intro w fuel l n hwf hn hw hf h0 h1
    rw [list_reserve_fix_eq w fuel true l n hn (Or.inr (by omega)) hf]
    exact (list_capacity_doubles l hwf).2.1 n h0 h1
  · intro l v itr hwf hv
    exact (list_capacity_doubles l hwf).2.2 v itr hv
  · intro w fuel ok l hw hf
    have e := grow_new_size_fix_eq w fuel l.size 1 (by omega) (by omega) hf
    rw [list_grow_eq_at]
    simp only [list_grow_fix, e]
  · rw [list_reserve_fix_eq 32 9 true list_two_of_four 9 (by norm_num) (Or.inr (by norm_num))
      (le_refl _)]
    obtain ⟨l1, h1, -, -, h4, -, -⟩ := list_grow_rep rep_list_two_of_four (show 0 < 5 by omega)
    refine ⟨l1, ?_, ?_⟩
    · have hgt : 9 > list_two_of_four.size := by decide
      simp only [list_reserve, hgt, if_true]
      exact h1
    · rw [h4]
      decide

/-! ## The write path of the engine -/

theorem foldl_mod_sum (M : Nat) : ∀ (xs : List Nat) (t : Nat),
    xs.foldl (fun t len => (t + len) % M) (t % M) = (t + xs.sum) % M
  | [], t => by simp
  | x :: xs, t => by
    simp only [List.foldl_cons, List.sum_cons]
    have h : (t % M + x) % M = (t + x) % M := by rw [Nat.add_mod, Nat.mod_mod, ← Nat.add_mod]
    rw [h, foldl_mod_sum M xs (t + x), Nat.add_assoc]

theorem nleft_sub_self_mod (n : Nat) : nleft_sub (n % 2 ^ SIZE_BITS) n = 0 := by
  unfold nleft_sub
  rw [Nat.mod_mod]
  have hlt : n % 2 ^ SIZE_BITS < 2 ^ SIZE_BITS := Nat.mod_lt _ (by decide)
  have : n % 2 ^ SIZE_BITS + (2 ^ SIZE_BITS - n % 2 ^ SIZE_BITS) = 2 ^ SIZE_BITS := by omega
  rw [this, Nat.mod_self]

theorem nleft_sub_self (n : Nat) : nleft_sub n n = 0 := by
  unfold nleft_sub
  have hlt : n % 2 ^ SIZE_BITS < 2 ^ SIZE_BITS := Nat.mod_lt _ (by decide)
  have : n % 2 ^ SIZE_BITS + (2 ^ SIZE_BITS - n % 2 ^ SIZE_BITS) = 2 ^ SIZE_BITS := by omega
  rw [this, Nat.mod_self]

/-- A freshly queued request is completed by a write that accepts every byte
submitted. -/
theorem record_fresh (iovs : Nat → List Nat) (r : enqueue_req) :
    nleft_sub (r.record iovs).nleft
      (bytes_submitted iovs ⟨(r.record iovs).data, (r.record iovs).size, (r.record iovs).iov⟩)
      = 0 := by
  cases r with
  | plain buffer n => simp [enqueue_req.record, bytes_submitted, nleft_sub_self]
  | vector iov iovcnt =>
    simp only [enqueue_req.record, bytes_submitted, if_true]
    have h := foldl_mod_sum (2 ^ SIZE_BITS) ((iovs iov).take iovcnt) 0
    simp only [Nat.zero_mod, Nat.zero_add] at h
    rw [h]
    exact nleft_sub_self_mod _

theorem enqueue_all_spec (iovs : Nat → List Nat) :
    ∀ (reqs : List enqueue_req) (a : aiofd_t), (∀ r ∈ reqs, r.valid) →
      ∃ a1, enqueue_all iovs a reqs = some a1 ∧
        a1.wbuf = a.wbuf ++ reqs.map (enqueue_req.record iovs) ∧ a1.ops = a.ops ∧
        (reqs ≠ [] → a1.wevt = true)
  | [], a, _ => ⟨a, rfl, by simp, rfl, fun c => absurd rfl c⟩
  | .plain buffer n :: rs, a, hv => by
    have h1 : (enqueue_req.plain buffer n).valid := hv _ (by simp)
    simp only [enqueue_req.valid] at h1
    obtain ⟨a1, k1, k2, k3, -⟩ := enqueue_all_spec iovs rs
      { a with wbuf := a.wbuf ++ [⟨buffer, n, false, n⟩], wevt := true }
      (fun r hr => hv r (by simp [hr]))
    refine ⟨a1, ?_, ?_, k3, ?_⟩
    · simp only [enqueue_all, aiofd_write, aiofd_write_common, h1.1, if_false, h1.2,
        not_true_eq_false, Bool.not_true, Bool.false_eq_true, not_false_eq_true,
        array_push_tail, if_true, evt_start_event_handler]
      exact k1
    · rw [k2]; simp [enqueue_req.record]
    · intro _
      cases rs with
      | nil =>
        simp only [enqueue_all] at k1
        rw [← Option.some.inj k1]
      | cons r rs' =>
        obtain ⟨a2, m1, -, -, m4⟩ := enqueue_all_spec iovs (r :: rs')
          { a with wbuf := a.wbuf ++ [⟨buffer, n, false, n⟩], wevt := true }
          (fun r hr => hv r (by simp [hr]))
        rw [k1] at m1
        rw [Option.some.inj m1]
        exact m4 (by simp)
  | .vector iov iovcnt :: rs, a, hv => by
    have h1 : (enqueue_req.vector iov iovcnt).valid := hv _ (by simp)
    simp only [enqueue_req.valid] at h1
    obtain ⟨a1, k1, k2, k3, -⟩ := enqueue_all_spec iovs rs
      { a with wbuf := a.wbuf ++ [(enqueue_req.vector iov iovcnt).record iovs], wevt := true }
      (fun r hr => hv r (by simp [hr]))
    refine ⟨a1, ?_, ?_, k3, ?_⟩
    · simp only [enqueue_all, aiofd_writev, aiofd_write_common, h1.1, if_false, h1.2,
        not_true_eq_false, Bool.not_true, Bool.false_eq_true, not_false_eq_true,
        array_push_tail, if_true, evt_start_event_handler, false_and]
      exact k1
    · rw [k2]; simp
    · intro _
      cases rs with
      | nil =>
        simp only [enqueue_all] at k1
        rw [← Option.some.inj k1]
      | cons r rs' =>
        obtain ⟨a2, m1, -, -, m4⟩ := enqueue_all_spec iovs (r :: rs')
          { a with wbuf := a.wbuf ++ [(enqueue_req.vector iov iovcnt).record iovs],
                   wevt := true }
          (fun r hr => hv r (by simp [hr]))
        rw [k1] at m1
        rw [Option.some.inj m1]
        exact m4 (by simp)

theorem write_loop_drains (iovs : Nat → List Nat) (wr : Nat → write_call → write_res)
    (cb : Nat → Nat → Bool)
    (hacc : ∀ i call, wr i call = write_res.written (bytes_submitted iovs call)) :
    ∀ (ws : List aiofd_write_t) (s : wstate) (fuel : Nat),
      s.aiofd.wbuf = ws → s.aiofd.ops.write_fn ≠ 0 → ws.length ≤ fuel →
      (∀ w ∈ ws, nleft_sub w.nleft (bytes_submitted iovs ⟨w.data, w.size, w.iov⟩) = 0) →
      ∃ s', aiofd_write_loop wr cb fuel s = some (wstep.brk s') ∧
        s'.calls = s.calls ++ ws.map (fun w => cb_event.write_complete w.data) ∧
        s'.aiofd.wbuf = [] ∧ s'.aiofd.ops = s.aiofd.ops ∧ s'.aiofd.wevt = s.aiofd.wevt
  | [], s, fuel, hq, _, _, _ => by
    refine ⟨s, ?_, by simp, hq, rfl, rfl⟩
    cases fuel <;> simp [aiofd_write_loop, array_size, hq]
  | w :: ws, s, fuel, hq, hfn, hf, hfresh => by
    cases fuel with
    | zero => simp at hf
    | succ fuel =>
      have hw := hfresh w (by simp)
      obtain ⟨s', k1, k2, k3, k4, k5⟩ := write_loop_drains iovs wr cb hacc ws
        { aiofd := { s.aiofd with wbuf := ws },
          keep_evt_on := cb s.calls.length w.data,
          calls := s.calls ++ [cb_event.write_complete w.data],
          writes := s.writes ++ [⟨w.data, w.size, w.iov⟩] }
        fuel rfl hfn (by simpa using hf) (fun x hx => hfresh x (by simp [hx]))
      refine ⟨s', ?_, ?_, k3, k4, k5⟩
      · simp only [aiofd_write_loop, array_size, hq, List.length_cons, Nat.zero_lt_succ,
          if_true, array_get_head, List.head?_cons, aiofd_write_round, hacc, hw,
          array_pop_head, List.tail_cons, ne_eq, hfn, not_false_eq_true]
        exact k1
      · rw [k2]; simp

/-! ## Claims on the write path -/

/-- C4. Requests queued with `aiofd_write` / `aiofd_writev` on an engine whose
queue was empty and whose `onWriteComplete` is installed, a descriptor that
accepts every byte submitted: one write-ready event (any fuel of at least the
number of requests) invokes `onWriteComplete` once per request with the
request's buffer, in enqueue order, then `onWriteComplete(NULL)` once, and
leaves the queue empty. -/
theorem C4_drain_fifo_then_null (iovs : Nat → List Nat) (a : aiofd_t)
    (reqs : List enqueue_req) (wr : Nat → write_call → write_res) (cb : Nat → Nat → Bool)
    (hq : a.wbuf = []) (hfn : a.ops.write_fn ≠ 0) (hv : ∀ r ∈ reqs, r.valid)
    (hacc : ∀ i call, wr i call = write_res.written (bytes_submitted iovs call)) :
    ∃ a1, enqueue_all iovs a reqs = some a1 ∧ array_size a1.wbuf = reqs.length ∧
      ∀ fuel, reqs.length ≤ fuel →
        ∃ s, aiofd_write_fn wr cb fuel a1 = some s ∧
          s.calls = reqs.map (fun r => cb_event.write_complete r.buffer_ref)
            ++ [cb_event.write_complete 0] ∧
          s.aiofd.wbuf = [] := by
  obtain ⟨a1, h1, h2, h3, -⟩ := enqueue_all_spec iovs reqs a hv
  rw [hq, List.nil_append] at h2
  refine ⟨a1, h1, by simp [array_size, h2], ?_⟩
  intro fuel hf
  obtain ⟨s', k1, k2, k3, k4, -⟩ := write_loop_drains iovs wr cb hacc
    (reqs.map (enqueue_req.record iovs)) ⟨a1, true, [], []⟩ fuel h2 (by rw [h3]; exact hfn)
    (by simpa using hf)
    (by
      intro w hw
      obtain ⟨r, -, rfl⟩ := List.mem_map.mp hw
      exact record_fresh iovs r)
  have hfn' : s'.aiofd.ops.write_fn ≠ 0 := by rw [k4, h3]; exact hfn
  have hdata : ∀ r : enqueue_req, (r.record iovs).data = r.buffer_ref := by
    intro r; cases r <;> rfl
  have hcalls : s'.calls = reqs.map (fun r => cb_event.write_complete r.buffer_ref) := by
    rw [k2]
    simp [List.map_map, Function.comp_def, hdata]
  simp only [aiofd_write_fn, k1, ne_eq, hfn', not_false_eq_true, if_true]
  by_cases hk : cb s'.calls.length 0 = true
  · simp only [hk, not_true_eq_false, if_false]
    exact ⟨_, rfl, by simp [hcalls], k3⟩
  · simp only [hk, not_false_eq_true, if_true]
    exact ⟨_, rfl, by simp [hcalls], k3⟩

/-- Witness of C4: one request of 5 bytes at buffer 100 on the fresh engine. -/
theorem C4_drain_fifo_then_null_witness :
    engine_fresh.wbuf = [] ∧ engine_fresh.ops.write_fn ≠ 0 ∧
    (enqueue_req.plain 100 5).valid ∧
    ∃ a1, enqueue_all (fun _ => []) engine_fresh [enqueue_req.plain 100 5] = some a1 ∧
      array_size a1.wbuf = [enqueue_req.plain 100 5].length ∧
      ∀ fuel, [enqueue_req.plain 100 5].length ≤ fuel →
        ∃ s, aiofd_write_fn wr_accept_all (fun _ _ => true) fuel a1 = some s ∧
          s.calls = [enqueue_req.plain 100 5].map
              (fun r => cb_event.write_complete r.buffer_ref)
            ++ [cb_event.write_complete 0] ∧
          s.aiofd.wbuf = [] :=
  ⟨rfl, by decide, ⟨by decide, by decide⟩,
   C4_drain_fifo_then_null (fun _ => []) engine_fresh [enqueue_req.plain 100 5] wr_accept_all
     (fun _ _ => true) rfl (by decide)
     (by intro r hr; rw [List.mem_singleton.mp hr]; exact ⟨by decide, by decide⟩)
     (fun _ _ => rfl)⟩

/-- C5 (code defect). One pending request (queued by `aiofd_write` on a fresh
engine), the write attempt reports `EAGAIN`:
the loop is left with `break`, so the code after the loop still invokes
`onWriteComplete(NULL)`; when that call returns `FALSE` the write subscription
is stopped although the request is still queued. -/
theorem C5_would_block_still_calls_back :
    aiofd_write true true (some engine_fresh) 100 3 = (some engine_one_pending, true) ∧
    aiofd_write_fn wr_would_block (fun _ _ => false) 1 engine_one_pending
      = some ⟨{ engine_one_pending with wevt := false }, false,
          [cb_event.write_complete 0], [⟨100, 3, false⟩]⟩ ∧
    aiofd_write_fn wr_would_block (fun _ _ => true) 1 engine_one_pending
      = some ⟨engine_one_pending, true, [cb_event.write_complete 0], [⟨100, 3, false⟩]⟩ := by
  decide

/-- C6 (code defect). A request of 3 bytes; the descriptor accepts 2 of the 3
bytes submitted, then 3 of the 3 bytes submitted again (each attempt resubmits
the whole buffer), then blocks: `nleft` goes 3, 1, and wraps to `2 ^ 64 - 2`;
the request is still at the head although 5 bytes were accepted. -/
theorem C6_nleft_wraps_below_zero :
    (aiofd_write_fn wr_two_then_three (fun _ _ => true) 3 engine_one_pending).map
        (fun s => (s.aiofd.wbuf, s.writes))
      = some ([⟨100, 3, false, 18446744073709551614⟩],
          [⟨100, 3, false⟩, ⟨100, 3, false⟩, ⟨100, 3, false⟩]) ∧
    nleft_sub 3 2 = 1 ∧ nleft_sub 1 3 = 2 ^ 64 - 2 := by
  decide

/-- C7 (code defect). A request of 3 bytes at buffer 100; after the descriptor
accepted 1 byte the next attempt submits `write(fd, 100, 3)` again, the whole
buffer from offset 0, not the remaining suffix `(101, 2)`. -/
theorem C7_retry_resubmits_whole_buffer :
    (aiofd_write_fn wr_one_then_block (fun _ _ => true) 2 engine_one_pending).map
        (fun s => (s.writes, s.aiofd.wbuf.map (fun w => w.nleft)))
      = some ([⟨100, 3, false⟩, ⟨100, 3, false⟩], [2]) := by
  decide

/-- C8 (code defect). The state reached from a fresh engine by one
`aiofd_write` and one write-ready event in which the write reports `EAGAIN` and
`onWriteComplete(NULL)` returns `FALSE` has a non-empty queue and a stopped
write subscription. -/
theorem C8_queue_pending_subscription_stopped :
    Reachable (fun _ => []) { engine_one_pending with wevt := false } ∧
    ({ engine_one_pending with wevt := false } : aiofd_t).wbuf ≠ [] ∧
    ({ engine_one_pending with wevt := false } : aiofd_t).wevt = false := by
  refine ⟨?_, by decide, rfl⟩
  have h0 : Reachable (fun _ => []) engine_fresh :=
    Reachable.init 3 3 ⟨0, 7, 0⟩ 1 0 (by decide) (by decide) (by decide)
  have h1 : Reachable (fun _ => []) engine_one_pending :=
    Reachable.write engine_fresh engine_one_pending true true true 100 3 h0 (by decide)
  exact Reachable.event engine_one_pending wr_would_block (fun _ _ => false) 1
    ⟨{ engine_one_pending with wevt := false }, false,
      [cb_event.write_complete 0], [⟨100, 3, false⟩]⟩ h1 (by decide)

/-- C17. An engine with a non-empty queue and `onError` installed, the write
attempt on the head request failing with an error `e` other than `EAGAIN` /
`EWOULDBLOCK`: the write-ready event (any fuel of at least 1) returns after
invoking `onError(e)` once and nothing else, and leaves the engine as it was
(queue, `nleft` of the head request, write subscription). -/
theorem C17_fatal_error_reported_once (a : aiofd_t) (wb : aiofd_write_t)
    (rest : List aiofd_write_t) (wr : Nat → write_call → write_res) (cb : Nat → Nat → Bool)
    (e : Int) (fuel : Nat) (hq : a.wbuf = wb :: rest) (hfn : a.ops.error_fn ≠ 0)
    (he1 : e ≠ EAGAIN) (he2 : e ≠ EWOULDBLOCK)
    (hwr : wr 0 ⟨wb.data, wb.size, wb.iov⟩ = write_res.failed e) (hf : 1 ≤ fuel) :
    ∃ s, aiofd_write_fn wr cb fuel a = some s ∧ s.calls = [cb_event.error e] ∧
      s.aiofd = a ∧ s.writes = [⟨wb.data, wb.size, wb.iov⟩] := by
  obtain ⟨fuel, rfl⟩ : ∃ f, fuel = f + 1 := ⟨fuel - 1, by omega⟩
  refine ⟨⟨a, true, [cb_event.error e], [⟨wb.data, wb.size, wb.iov⟩]⟩, ?_, rfl, rfl, rfl⟩
  simp [aiofd_write_fn, aiofd_write_loop, array_size, hq, array_get_head, aiofd_write_round,
    hwr, he1, he2, hfn]

/-- Witness of C17: one pending request on an engine with `onError` installed,
the write failing with `EPIPE` (32). -/
theorem C17_fatal_error_reported_once_witness :
    (⟨3, 3, [⟨100, 3, false, 3⟩], true, false, 1, 0, ⟨0, 7, 9⟩⟩ : aiofd_t).wbuf
      = ⟨100, 3, false, 3⟩ :: [] ∧
    (32 : Int) ≠ EAGAIN ∧ (32 : Int) ≠ EWOULDBLOCK ∧
    ∃ s, aiofd_write_fn (fun _ _ => write_res.failed 32) (fun _ _ => true) 1
        ⟨3, 3, [⟨100, 3, false, 3⟩], true, false, 1, 0, ⟨0, 7, 9⟩⟩ = some s ∧
      s.calls = [cb_event.error 32] ∧
      s.aiofd = ⟨3, 3, [⟨100, 3, false, 3⟩], true, false, 1, 0, ⟨0, 7, 9⟩⟩ ∧
      s.writes = [⟨100, 3, false⟩] :=
  ⟨rfl, by decide, by decide,
   C17_fatal_error_reported_once ⟨3, 3, [⟨100, 3, false, 3⟩], true, false, 1, 0, ⟨0, 7, 9⟩⟩
     ⟨100, 3, false, 3⟩ [] (fun _ _ => write_res.failed 32) (fun _ _ => true) 32 1 rfl
     (by decide) (by decide) (by decide) rfl (by decide)⟩

/-- C18. On every engine, with allocation succeeding: `aiofd_write` of a
non-`NULL` buffer with `n > 0` returns `TRUE`, and `aiofd_writev` of a
non-`NULL` vector with `k > 0` segments whose lengths total below `2 ^ 64`
returns `TRUE`; the queue becomes the old queue followed by one request with
`nleft = n`, respectively the sum of the `k` segment lengths; the subscription
is started and nothing else changes. -/
theorem C18_enqueue_appends (iovs : Nat → List Nat) (a : aiofd_t) :
    (∀ buffer n : Nat, buffer ≠ 0 → 0 < n →
      aiofd_write true true (some a) buffer n
        = (some { a with wbuf := a.wbuf ++ [⟨buffer, n, false, n⟩], wevt := true }, true)) ∧
    (∀ iov k : Nat, iov ≠ 0 → 0 < k → ((iovs iov).take k).sum < 2 ^ SIZE_BITS →
      aiofd_writev iovs true true (some a) iov k
        = some (some { a with wbuf := a.wbuf ++ [⟨iov, k, true, ((iovs iov).take k).sum⟩],
                              wevt := true }, true)) := by
  constructor
  · intro buffer n hb hn
    simp [aiofd_write, aiofd_write_common, hb, hn, array_push_tail, evt_start_event_handler]
  · intro iov k hi hk hs
    have h := foldl_mod_sum (2 ^ SIZE_BITS) ((iovs iov).take k) 0
    simp only [Nat.zero_mod, Nat.zero_add] at h
    rw [Nat.mod_eq_of_lt hs] at h
    simp [aiofd_writev, aiofd_write_common, hi, hk, array_push_tail, evt_start_event_handler, h]

/-- Witness of C18: a vector of two segments of 4 and 6 bytes at address 200,
queued behind the pending request of `engine_one_pending`. -/
theorem C18_enqueue_appends_witness :
    (200 : Nat) ≠ 0 ∧ 0 < 2 ∧
    (((fun _ => [4, 6]) 200 : List Nat).take 2).sum < 2 ^ SIZE_BITS ∧
    aiofd_writev (fun _ => [4, 6]) true true (some engine_one_pending) 200 2
      = some (some { engine_one_pending with
          wbuf := engine_one_pending.wbuf ++
            [⟨200, 2, true, (((fun _ => [4, 6]) 200 : List Nat).take 2).sum⟩],
          wevt := true }, true) :=
  ⟨by decide, by decide, by decide,
   (C18_enqueue_appends (fun _ => [4, 6]) engine_one_pending).2 200 2 (by decide) (by decide)
     (by decide)⟩

/-- C19 (code defect). `aiofd_writev(aiofd, NULL, 1)` sums `iov[0].iov_len`
through the `NULL` vector before `aiofd_write_common` checks anything, so it
faults instead of returning `FALSE`.  The other invalid calls return `FALSE`
and leave the engine as it was. -/
theorem C19_writev_null_vector_faults :
    aiofd_writev (fun _ => []) true true (some engine_fresh) 0 1 = none ∧
    aiofd_writev (fun _ => []) true true (some engine_fresh) 0 0
      = some (some engine_fresh, false) ∧
    aiofd_writev (fun _ => []) true true (some engine_fresh) 200 0
      = some (some engine_fresh, false) ∧
    aiofd_writev (fun _ => []) true true none 200 1 = some (none, false) ∧
    aiofd_write true true none 100 3 = (none, false) ∧
    aiofd_write true true (some engine_fresh) 0 3 = (some engine_fresh, false) ∧
    aiofd_write true true (some engine_fresh) 100 0 = (some engine_fresh, false) := by
  decide

/-- C20 (code defect). When the request record is allocated but
`array_push_tail` fails, `aiofd_write` still returns `TRUE` although the queue
is unchanged (only the subscription is started); a failed allocation of the
record does return `FALSE` with the engine unchanged. -/
theorem C20_true_without_enqueue :
    aiofd_write true false (some engine_fresh) 100 3
      = (some { engine_fresh with wevt := true }, true) ∧
    ({ engine_fresh with wevt := true } : aiofd_t).wbuf = engine_fresh.wbuf ∧
    aiofd_write false true (some engine_fresh) 100 3 = (some engine_fresh, false) := by
  decide

/-! ## The engine: creation, teardown, the read path and the subscriptions -/

/-- A round of the loop of `aiofd_write_fn` never touches the read
subscription. -/
theorem write_round_revt (wr : Nat → write_call → write_res) (cb : Nat → Nat → Bool)
    (s : wstate) (wb : aiofd_write_t) (s' : wstate)
    (h : aiofd_write_round wr cb s wb = wstep.again s' ∨
      aiofd_write_round wr cb s wb = wstep.brk s' ∨
      aiofd_write_round wr cb s wb = wstep.ret s') :
    s'.aiofd.revt = s.aiofd.revt := by
  simp only [aiofd_write_round] at h
  split at h <;> split_ifs at h <;> simp at h <;> subst h <;> rfl

/-- The loop of `aiofd_write_fn` never touches the read subscription. -/
theorem write_loop_revt (wr : Nat → write_call → write_res) (cb : Nat → Nat → Bool) :
    ∀ (fuel : Nat) (s : wstate) (r : wstep), aiofd_write_loop wr cb fuel s = some r →
      ∀ s', (r = wstep.again s' ∨ r = wstep.brk s' ∨ r = wstep.ret s') →
        s'.aiofd.revt = s.aiofd.revt
  | 0, s, r, h, s', hr => by
    simp only [aiofd_write_loop] at h
    split_ifs at h
    cases h
    simp at hr
    subst hr
    rfl
  | fuel + 1, s, r, h, s', hr => by
    simp only [aiofd_write_loop] at h
    split_ifs at h
    · cases hh : array_get_head s.aiofd.wbuf with
      | none => simp [hh] at h
      | some wb =>
        simp only [hh] at h
        cases hw : aiofd_write_round wr cb s wb with
        | again s1 =>
          simp only [hw] at h
          have h1 := write_loop_revt wr cb fuel s1 r h s' hr
          rw [h1]
          exact write_round_revt wr cb s wb s1 (Or.inl hw)
        | brk s1 =>
          simp only [hw] at h
          cases h
          simp at hr
          subst hr
          exact write_round_revt wr cb s wb s1 (Or.inr (Or.inl hw))
        | ret s1 =>
          simp only [hw] at h
          cases h
          simp at hr
          subst hr
          exact write_round_revt wr cb s wb s1 (Or.inr (Or.inr hw))
    · cases h
      simp at hr
      subst hr
      rfl

/-- A write-ready event never touches the read subscription. -/
theorem write_fn_revt (wr : Nat → write_call → write_res) (cb : Nat → Nat → Bool)
    (fuel : Nat) (a : aiofd_t) (s : wstate) (h : aiofd_write_fn wr cb fuel a = some s) :
    s.aiofd.revt = a.revt := by
  simp only [aiofd_write_fn] at h
  cases hl : aiofd_write_loop wr cb fuel ⟨a, true, [], []⟩ with
  | none => simp [hl] at h
  | some r =>
    have hk := write_loop_revt wr cb fuel _ r hl
    cases r with
    | again s1 =>
      simp only [hl] at h
      cases h
      exact hk _ (Or.inl rfl)
    | ret s1 =>
      simp only [hl] at h
      cases h
      exact hk _ (Or.inr (Or.inr rfl))
    | brk s1 =>
      have h1 := hk s1 (Or.inr (Or.inl rfl))
      simp only [hl] at h
      split_ifs at h <;> cases h <;> exact h1

/-- What one round of the loop of `aiofd_write_fn` does to a non-empty queue
when `onWriteComplete` is installed: it leaves the loop with the head request
still queued, or goes on after either completing the head request (callback
with its buffer) or updating its `nleft`. -/
theorem write_round_cases (wr : Nat → write_call → write_res) (cb : Nat → Nat → Bool)
    (s : wstate) (wb : aiofd_write_t) (rest : List aiofd_write_t)
    (hq : s.aiofd.wbuf = wb :: rest) (hfn : s.aiofd.ops.write_fn ≠ 0) :
    (∃ s', aiofd_write_round wr cb s wb = wstep.brk s' ∧ s'.aiofd.wbuf ≠ []) ∨
    (∃ s', aiofd_write_round wr cb s wb = wstep.ret s' ∧ s'.aiofd.wbuf ≠ []) ∨
    (∃ s', aiofd_write_round wr cb s wb = wstep.again s' ∧
      s'.aiofd.ops = s.aiofd.ops ∧ s'.aiofd.wevt = s.aiofd.wevt ∧
      ((s'.aiofd.wbuf = rest ∧ s'.calls = s.calls ++ [cb_event.write_complete wb.data]) ∨
       (∃ wb1, s'.aiofd.wbuf = wb1 :: rest ∧ wb1.data = wb.data ∧ s'.calls = s.calls))) := by
  simp only [aiofd_write_round]
  cases hw : wr s.writes.length ⟨wb.data, wb.size, wb.iov⟩ with
  | failed errno =>
    by_cases he : errno = EAGAIN ∨ errno = EWOULDBLOCK
    · simp only [he, if_true]
      exact Or.inl ⟨_, rfl, by simp [hq]⟩
    · by_cases hef : s.aiofd.ops.error_fn ≠ 0
      · simp only [he, if_false]
        rw [if_pos hef]
        exact Or.inr (Or.inl ⟨_, rfl, by simp [hq]⟩)
      · simp only [he, if_false]
        rw [if_neg hef]
        exact Or.inr (Or.inl ⟨_, rfl, by simp [hq]⟩)
  | written n =>
    by_cases hz : nleft_sub wb.nleft n = 0
    · simp only [hz, if_true, ne_eq, hfn, not_false_eq_true]
      exact Or.inr (Or.inr ⟨_, rfl, rfl, rfl,
        Or.inl ⟨by simp [array_pop_head, hq], rfl⟩⟩)
    · simp only [hz, if_false]
      exact Or.inr (Or.inr ⟨_, rfl, rfl, rfl,
        Or.inr ⟨{ wb with nleft := nleft_sub wb.nleft n }, by simp [hq], rfl, rfl⟩⟩)

/-- The loop of `aiofd_write_fn` with `onWriteComplete` installed: when it is
left with the queue empty, every request that was queued has been completed in
queue order with one callback each, and the subscription flag and the
callbacks of the engine are as before; the error `return` never leaves the
queue empty. -/
theorem write_loop_drained (wr : Nat → write_call → write_res) (cb : Nat → Nat → Bool) :
    ∀ (fuel : Nat) (s : wstate) (r : wstep), s.aiofd.ops.write_fn ≠ 0 →
      aiofd_write_loop wr cb fuel s = some r →
      (∃ s', r = wstep.brk s' ∧ (s'.aiofd.wbuf = [] →
        s'.calls = s.calls ++ s.aiofd.wbuf.map (fun w => cb_event.write_complete w.data) ∧
        s'.aiofd.wevt = s.aiofd.wevt ∧ s'.aiofd.ops = s.aiofd.ops)) ∨
      (∃ s', r = wstep.ret s' ∧ s'.aiofd.wbuf ≠ [])
  | 0, s, r, _, h => by
    simp only [aiofd_write_loop] at h
    split_ifs at h with hs
    cases h
    have hq : s.aiofd.wbuf = [] := by
      simp only [array_size] at hs
      exact List.length_eq_zero.mp (by omega)
    exact Or.inl ⟨s, rfl, fun _ => ⟨by simp [hq], rfl, rfl⟩⟩
  | fuel + 1, s, r, hfn, h => by
    cases hq : s.aiofd.wbuf with
    | nil =>
      simp [aiofd_write_loop, array_size, hq] at h
      subst h
      exact Or.inl ⟨s, rfl, fun _ => ⟨by simp [hq], rfl, rfl⟩⟩
    | cons wb rest =>
      simp only [aiofd_write_loop, array_size, hq, List.length_cons, Nat.zero_lt_succ,
        if_true, array_get_head, List.head?_cons] at h
      rcases write_round_cases wr cb s wb rest hq hfn with
        ⟨s1, h1, h2⟩ | ⟨s1, h1, h2⟩ | ⟨s1, h1, h2, h3, h4⟩
      · rw [h1] at h
        cases h
        exact Or.inl ⟨s1, rfl, fun c => absurd c h2⟩
      · rw [h1] at h
        cases h
        exact Or.inr ⟨s1, rfl, h2⟩
      · rw [h1] at h
        have hfn1 : s1.aiofd.ops.write_fn ≠ 0 := by rw [h2]; exact hfn
        rcases write_loop_drained wr cb fuel s1 r hfn1 h with ⟨s', k1, k2⟩ | k
        · refine Or.inl ⟨s', k1, fun c => ?_⟩
          obtain ⟨m1, m2, m3⟩ := k2 c
          refine ⟨?_, by rw [m2, h3], by rw [m3, h2]⟩
          rcases h4 with ⟨q1, q2⟩ | ⟨wb1, q1, q2, q3⟩
          · rw [m1, q1, q2]; simp
          · rw [m1, q1, q3]; simp [q2]
        · exact Or.inr k

/-- C21 (code defect). `aiofd_new` with a failed argument check, allocation
succeeding, does not return `NULL`: `aiofd_initialize` returns early without a
result, and `aiofd_new` returns the allocated struct, still all zero (write
and read descriptor 0, no loop, no callbacks).  It returns `NULL` only when the
allocation fails; with valid arguments it returns the engine bound to the two
descriptors. -/
theorem C21_new_ignores_failed_checks :
    aiofd_new true (-1) 4 (some ⟨5, 7, 9⟩) 1 0
      = some ⟨0, 0, [], false, false, 0, 0, ⟨0, 0, 0⟩⟩ ∧
    aiofd_new true 3 (-1) (some ⟨5, 7, 9⟩) 1 0
      = some ⟨0, 0, [], false, false, 0, 0, ⟨0, 0, 0⟩⟩ ∧
    aiofd_new true 3 4 none 1 0 = some ⟨0, 0, [], false, false, 0, 0, ⟨0, 0, 0⟩⟩ ∧
    aiofd_new true 3 4 (some ⟨5, 7, 9⟩) 0 0
      = some ⟨0, 0, [], false, false, 0, 0, ⟨0, 0, 0⟩⟩ ∧
    (∀ (write_fd read_fd : Int) (ops : Option aiofd_ops_t) (el user_data : Nat),
      aiofd_new true write_fd read_fd ops el user_data ≠ none) ∧
    aiofd_new true 3 4 (some ⟨5, 7, 9⟩) 1 0
      = some ⟨3, 4, [], false, false, 1, 0, ⟨5, 7, 9⟩⟩ := by
  refine ⟨by decide, by decide, by decide, by decide, ?_, by decide⟩
  intro write_fd read_fd ops el user_data
  simp [aiofd_new]

/-- C22. A well-formed list with used chain `us`, free chain `fs` and a
destructor set: `list_deinit` returns `TRUE` after handing the destructor
exactly the payloads of the forward traversal, in that order (one call per
handle of the traversal, `list_count` calls in all; those handles are the
in-use slots, no slot of the free chain is in use), and leaves `list_count` 0.
`aiofd_deinitialize` invokes no callback of the owner, hands each queued
request to the queue's destructor, and leaves the queue empty and both
subscriptions stopped. -/
theorem C22_teardown_destroys_each_once (l : list_t) (us fs : List Nat)
    (hrep : Rep l us fs) (hd : l.dfn ≠ 0) :
    (∃ l' calls, list_deinit l = some (l', true, calls) ∧ traversal l = some calls ∧
      calls = payloads l.items us ∧
      handles l = some (us.map (fun x : Nat => (x : Int))) ∧
      calls.length = list_count l ∧
      (∀ x ∈ us, in_use l (x : Int)) ∧ (∀ x ∈ fs, ¬ in_use l (x : Int)) ∧
      list_count l' = 0) ∧
    ∀ a : aiofd_t, ( aiofd_deinitialize a).calls = [] ∧
      ( aiofd_deinitialize a).freed = a.wbuf ∧
      ( aiofd_deinitialize a).aiofd.wbuf = [] ∧
      ( aiofd_deinitialize a).aiofd.wevt = false ∧
      ( aiofd_deinitialize a).aiofd.revt = false := by
  constructor
  · obtain ⟨l', calls, h1, h2, -, -, h5⟩ := list_deinit_rep hrep
    have hc : calls = payloads l.items us := by
      rw [h5]
      by_cases hs : l.size = 0
      · have hadd := hrep.length_add
        have hu : us = [] := List.length_eq_zero.mp (by omega)
        simp [hs, hu, payloads]
      · simp [hs, hd]
    refine ⟨l', calls, h1, by rw [hc]; exact traversal_rep hrep, hc, handles_rep hrep, ?_,
      fun x hx => mem_in_use hrep hx, ?_, h2.cnt⟩
    · rw [hc, list_count, hrep.cnt]
      simp [payloads]
    · intro x hx hu
      obtain ⟨y, hy, hyu⟩ := in_use_mem hrep hu
      have hxy : x = y := by exact_mod_cast hy
      exact (List.nodup_append.mp hrep.nodup).2.2 hyu (hxy ▸ hx)
  · intro a
    exact ⟨rfl, rfl, rfl, rfl, rfl⟩

/-- Witness of C22: `list_two_of_four_dtor`, whose destructor is handed 10 and
then 20. -/
theorem C22_teardown_destroys_each_once_witness :
    Rep list_two_of_four_dtor [0, 1] [2, 3] ∧ list_two_of_four_dtor.dfn ≠ 0 ∧
    ∃ l' calls, list_deinit list_two_of_four_dtor = some (l', true, calls) ∧
      traversal list_two_of_four_dtor = some calls ∧
      calls = payloads list_two_of_four_dtor.items [0, 1] ∧
      handles list_two_of_four_dtor = some ([0, 1].map (fun x : Nat => (x : Int))) ∧
      calls.length = list_count list_two_of_four_dtor ∧
      (∀ x ∈ ([0, 1] : List Nat), in_use list_two_of_four_dtor (x : Int)) ∧
      (∀ x ∈ ([2, 3] : List Nat), ¬ in_use list_two_of_four_dtor (x : Int)) ∧
      list_count l' = 0 :=
  ⟨rep_list_two_of_four_dtor, by decide,
   (C22_teardown_destroys_each_once list_two_of_four_dtor [0, 1] [2, 3]
      rep_list_two_of_four_dtor (by decide)).1⟩

/-- The conversion to `int32_t` keeps a value that fits. -/
theorem to_int32_of_fits (x : Int) (h1 : -2147483648 ≤ x) (h2 : x < 2147483648) :
    to_int32 x = x := by
  unfold to_int32
  omega

/-- C23. `aiofd_read` on an engine with `onError` installed, a non-`NULL`
buffer and `0 < n` (an `int32_t`), the `read` call returning `res` in
`[-1, n]`: it makes that one `read` call and leaves the engine as it is; it
returns `res` without any callback when `res > 0`; when `res = 0` it invokes
`onError(EPIPE)` once and returns 0; when `res = -1` it invokes
`onError(errno)` once and returns 0.  With a `NULL` engine, a `NULL` buffer or
`n <= 0` it returns 0 without a `read` call and without a callback. -/
theorem C23_read_result_or_error (a : aiofd_t) (buffer : Nat) (n res errno : Int)
    (hb : buffer ≠ 0) (hn : 0 < n) (hn32 : n < 2147483648) (hlo : -1 ≤ res)
    (hhi : res ≤ n) (hfn : a.ops.error_fn ≠ 0) :
    (0 < res → aiofd_read res errno (some a) buffer n
      = ⟨some a, res, [], [sys_call.read a.rfd buffer n]⟩) ∧
    (res = 0 → aiofd_read res errno (some a) buffer n
      = ⟨some a, 0, [cb_event.error EPIPE], [sys_call.read a.rfd buffer n]⟩) ∧
    (res = -1 → aiofd_read res errno (some a) buffer n
      = ⟨some a, 0, [cb_event.error errno], [sys_call.read a.rfd buffer n]⟩) ∧
    (∀ (b1 : Nat) (n1 : Int), aiofd_read res errno none b1 n1 = ⟨none, 0, [], []⟩) ∧
    (∀ n1 : Int, aiofd_read res errno (some a) 0 n1 = ⟨some a, 0, [], []⟩) ∧
    (∀ (b1 : Nat) (n1 : Int), n1 ≤ 0 →
      aiofd_read res errno (some a) b1 n1 = ⟨some a, 0, [], []⟩) := by
  have hfit : to_int32 res = res := to_int32_of_fits res (by omega) (by omega)
  refine ⟨?_, ?_, ?_, ?_, ?_, ?_⟩
  · intro hr
    have h0 : res ≠ 0 := by omega
    have h1 : res ≠ -1 := by omega
    simp [aiofd_read, hb, hn, hfit, h0, h1]
  · intro hr
    subst hr
    simp [aiofd_read, hb, hn, hfit, hfn]
  · intro hr
    subst hr
    simp [aiofd_read, hb, hn, hfit, hfn]
  · intro b1 n1
    rfl
  · intro n1
    simp [aiofd_read]
  · intro b1 n1 h1
    have : ¬ n1 > 0 := by omega
    by_cases hb1 : b1 = 0 <;> simp [aiofd_read, hb1, this]

/-- Witness of C23: `engine_reading`, a read of up to 16 bytes into buffer 100
that yields 5 bytes. -/
theorem C23_read_result_or_error_witness :
    (100 : Nat) ≠ 0 ∧ (0 : Int) < 16 ∧ engine_reading.ops.error_fn ≠ 0 ∧
    aiofd_read 5 0 (some engine_reading) 100 16
      = ⟨some engine_reading, 5, [], [sys_call.read engine_reading.rfd 100 16]⟩ :=
  ⟨by decide, by decide, by decide,
   (C23_read_result_or_error engine_reading 100 16 5 0 (by decide) (by decide) (by decide)
      (by decide) (by decide) (by decide)).1 (by decide)⟩

/-- C24. A read-ready event on an engine with `onReadable` and `onError`
installed: `aiofd_read_fn` makes one `ioctl(FIONREAD)` on the read descriptor
and no other system call (no `read`); when the query gives `nread` it invokes
`onReadable(nread)` once and nothing else, and the read subscription is
stopped exactly when that call returned `FALSE` (the engine is otherwise as
before); when the query fails with `errno` it invokes `onError(errno)` once,
not `onReadable`, and leaves the engine as it was. -/
theorem C24_read_event_reports_count (a : aiofd_t) (rcb : Nat → Bool)
    (hr : a.ops.read_fn ≠ 0) (he : a.ops.error_fn ≠ 0) :
    (∀ nread : Nat,
      (aiofd_read_fn (ioctl_res.avail nread) rcb a).calls = [cb_event.readable nread] ∧
      (aiofd_read_fn (ioctl_res.avail nread) rcb a).sys
        = [sys_call.ioctl_fionread a.rfd] ∧
      (aiofd_read_fn (ioctl_res.avail nread) rcb a).aiofd
        = { a with revt := a.revt && rcb nread } ∧
      (a.revt = true →
        ((aiofd_read_fn (ioctl_res.avail nread) rcb a).aiofd.revt = false
          ↔ rcb nread = false))) ∧
    (∀ errno : Int,
      (aiofd_read_fn (ioctl_res.failed errno) rcb a).calls = [cb_event.error errno] ∧
      (aiofd_read_fn (ioctl_res.failed errno) rcb a).sys
        = [sys_call.ioctl_fionread a.rfd] ∧
      (aiofd_read_fn (ioctl_res.failed errno) rcb a).aiofd = a) := by
  constructor
  · intro nread
    obtain ⟨wfd, rfd, wbuf, wevt, revt, el, user_data, ops⟩ := a
    cases hk : rcb nread <;> cases revt <;>
      simp_all [aiofd_read_fn, evt_stop_event_handler]
  · intro errno
    simp [aiofd_read_fn, he]

/-- Witness of C24: `engine_reading`, 5 bytes available, `onReadable`
returning `FALSE`. -/
theorem C24_read_event_reports_count_witness :
    engine_reading.ops.read_fn ≠ 0 ∧ engine_reading.ops.error_fn ≠ 0 ∧
    (aiofd_read_fn (ioctl_res.avail 5) (fun _ => false) engine_reading).calls
      = [cb_event.readable 5] ∧
    (aiofd_read_fn (ioctl_res.avail 5) (fun _ => false) engine_reading).aiofd.revt = false :=
  ⟨by decide, by decide,
   ((C24_read_event_reports_count engine_reading (fun _ => false) (by decide)
      (by decide)).1 5).1,
   (((C24_read_event_reports_count engine_reading (fun _ => false) (by decide)
      (by decide)).1 5).2.2.2 rfl).mpr rfl⟩

/-- C25 (counterexample). A read-ready event whose `onReadable` returns
`FALSE` stops the read subscription, without any `aiofd_enable_read_evt`
call: on `engine_reading` (read subscription started), with 5 bytes
available, the engine afterwards has the read subscription stopped. -/
theorem C25_readable_false_stops_subscription :
    engine_reading.revt = true ∧
    engine_step engine_reading (engine_op.read_event (ioctl_res.avail 5) (fun _ => false))
      = some ⟨3, 4, [], false, false, 1, 0, ⟨5, 7, 9⟩⟩ ∧
    (aiofd_read_fn (ioctl_res.avail 5) (fun _ => false) engine_reading).calls
      = [cb_event.readable 5] := by
  decide

/-- C25 (amended). The read subscription changes state only through
`aiofd_enable_read_evt` or through `onReadable` returning `FALSE`: when one
call or event (`aiofd_enable_write_evt`, a read-ready event, a write-ready
event, `aiofd_read`, `aiofd_write`, `aiofd_writev`, `aiofd_flush`) leaves the
read subscription in another state than before, it is either an
`aiofd_enable_read_evt` call, or a read-ready event whose query succeeded and
whose installed `onReadable` returned `FALSE`, and then the subscription was
started before and is stopped afterwards. -/
theorem C25_read_subscription_changes (a a' : aiofd_t) (op : engine_op)
    (hstep : engine_step a op = some a') (hne : a'.revt ≠ a.revt) :
    (∃ enable, op = engine_op.enable_read_evt enable) ∨
    (∃ nread rcb, op = engine_op.read_event (ioctl_res.avail nread) rcb ∧
      a.ops.read_fn ≠ 0 ∧ rcb nread = false ∧ a.revt = true ∧ a'.revt = false) := by
  cases op with
  | enable_read_evt enable => exact Or.inl ⟨enable, rfl⟩
  | enable_write_evt enable =>
    exfalso
    simp only [engine_step, aiofd_enable_write_evt] at hstep
    split_ifs at hstep <;> simp at hstep <;> subst hstep <;> exact hne rfl
  | read_event io rcb =>
    simp only [engine_step, Option.some.injEq] at hstep
    subst hstep
    cases io with
    | failed errno =>
      exfalso
      apply hne
      simp only [aiofd_read_fn]
      split_ifs <;> rfl
    | avail nread =>
      by_cases hfn : a.ops.read_fn ≠ 0
      · cases hk : rcb nread with
        | true =>
          exfalso
          apply hne
          simp [aiofd_read_fn, hfn, hk]
        | false =>
          cases hv : a.revt with
          | false =>
            exfalso
            apply hne
            simp [aiofd_read_fn, hfn, hk, hv, evt_stop_event_handler]
          | true =>
            refine Or.inr ⟨nread, rcb, rfl, hfn, hk, rfl, ?_⟩
            simp [aiofd_read_fn, hfn, hk, evt_stop_event_handler]
      · exfalso
        apply hne
        simp only [aiofd_read_fn]
        rw [if_neg hfn]
        rfl
  | write_event wr cb fuel =>
    exfalso
    simp only [engine_step] at hstep
    cases hw : aiofd_write_fn wr cb fuel a with
    | none => simp [hw] at hstep
    | some s =>
      simp only [hw, Option.some.injEq] at hstep
      subst hstep
      exact hne (write_fn_revt wr cb fuel a s hw)
  | read res errno buffer n =>
    exfalso
    simp only [engine_step, aiofd_read] at hstep
    split_ifs at hstep <;> simp at hstep <;> subst hstep <;> exact hne rfl
  | write calloc_ok push_ok buffer n =>
    exfalso
    simp only [engine_step, aiofd_write, aiofd_write_common] at hstep
    split_ifs at hstep <;> simp at hstep <;> subst hstep <;> exact hne rfl
  | writev iovs calloc_ok push_ok iov iovcnt =>
    exfalso
    simp only [engine_step, aiofd_writev, aiofd_write_common] at hstep
    split_ifs at hstep <;> simp at hstep <;> subst hstep <;> exact hne rfl
  | flush =>
    exfalso
    simp only [engine_step, aiofd_flush, Option.some.injEq] at hstep
    subst hstep
    exact hne rfl

/-- Witness of C25 (amended): the read-ready event of the counterexample. -/
theorem C25_read_subscription_changes_witness :
    engine_step engine_reading (engine_op.read_event (ioctl_res.avail 5) (fun _ => false))
      = some ⟨3, 4, [], false, false, 1, 0, ⟨5, 7, 9⟩⟩ ∧
    (⟨3, 4, [], false, false, 1, 0, ⟨5, 7, 9⟩⟩ : aiofd_t).revt ≠ engine_reading.revt ∧
    ((∃ enable, engine_op.read_event (ioctl_res.avail 5) (fun _ => false)
        = engine_op.enable_read_evt enable) ∨
     (∃ nread rcb, engine_op.read_event (ioctl_res.avail 5) (fun _ => false)
        = engine_op.read_event (ioctl_res.avail nread) rcb ∧
      engine_reading.ops.read_fn ≠ 0 ∧ rcb nread = false ∧ engine_reading.revt = true ∧
      (⟨3, 4, [], false, false, 1, 0, ⟨5, 7, 9⟩⟩ : aiofd_t).revt = false)) :=
  ⟨by decide, by decide,
   C25_read_subscription_changes engine_reading ⟨3, 4, [], false, false, 1, 0, ⟨5, 7, 9⟩⟩
     (engine_op.read_event (ioctl_res.avail 5) (fun _ => false)) (by decide) (by decide)⟩

/-- C26. A write-ready event on an engine with `onWriteComplete` installed
that returns with the queue empty: the callbacks invoked are
`onWriteComplete` once per request that was queued, with its buffer and in
queue order, and then `onWriteComplete(NULL)` as the last call (the only call
with `NULL` when no queued request has a `NULL` buffer); the write subscription
is stopped when that last call returned `FALSE` and is as it was before the
event when it returned `TRUE`, whatever the calls before it returned. -/
theorem C26_drained_null_callback (a : aiofd_t) (wr : Nat → write_call → write_res)
    (cb : Nat → Nat → Bool) (fuel : Nat) (s : wstate) (hfn : a.ops.write_fn ≠ 0)
    (hev : aiofd_write_fn wr cb fuel a = some s) (hdr : s.aiofd.wbuf = []) :
    s.calls = a.wbuf.map (fun w => cb_event.write_complete w.data)
      ++ [cb_event.write_complete 0] ∧
    ((∀ w ∈ a.wbuf, w.data ≠ 0) → s.calls.count (cb_event.write_complete 0) = 1) ∧
    s.aiofd.wevt = (if cb a.wbuf.length 0 = false then false else a.wevt) ∧
    (a.wevt = true → (s.aiofd.wevt = false ↔ cb a.wbuf.length 0 = false)) := by
  simp only [aiofd_write_fn] at hev
  cases hl : aiofd_write_loop wr cb fuel ⟨a, true, [], []⟩ with
  | none => simp [hl] at hev
  | some r =>
    rcases write_loop_drained wr cb fuel ⟨a, true, [], []⟩ r hfn hl with
      ⟨s1, rfl, k⟩ | ⟨s1, rfl, k⟩
    swap
    · simp only [hl, Option.some.injEq] at hev
      subst hev
      exact absurd hdr k
    simp only [hl] at hev
    have hq1 : s1.aiofd.wbuf = [] := by
      split_ifs at hev <;> simp only [Option.some.injEq] at hev <;> subst hev <;> exact hdr
    obtain ⟨m1, m2, m3⟩ := k hq1
    simp only [List.nil_append] at m1 m2 m3
    have hfn1 : s1.aiofd.ops.write_fn ≠ 0 := by rw [m3]; exact hfn
    have hlen : s1.calls.length = a.wbuf.length := by rw [m1]; simp
    rw [if_pos hfn1, hlen] at hev
    have hcalls : s.calls = a.wbuf.map (fun w => cb_event.write_complete w.data)
        ++ [cb_event.write_complete 0] := by
      split_ifs at hev <;> simp only [Option.some.injEq] at hev <;> subst hev <;>
        simp [m1]
    have hwevt : s.aiofd.wevt = (if cb a.wbuf.length 0 = false then false else a.wevt) := by
      cases hk : cb a.wbuf.length 0 <;> simp only [hk] at hev <;>
        simp at hev <;> subst hev <;> simp [evt_stop_event_handler, m2]
    refine ⟨hcalls, ?_, hwevt, ?_⟩
    · intro hnz
      rw [hcalls, List.count_append]
      have h0 : (a.wbuf.map (fun w => cb_event.write_complete w.data)).count
          (cb_event.write_complete 0) = 0 := by
        rw [List.count_eq_zero]
        intro hm
        obtain ⟨w, hw, hwe⟩ := List.mem_map.mp hm
        exact hnz w hw (by simpa using hwe)
      rw [h0]
      simp
    · intro hon
      rw [hwevt, hon]
      cases cb a.wbuf.length 0 <;> simp

/-- Witness of C26: `engine_two_pending`, a descriptor that accepts every
byte, per-request callbacks returning `FALSE` and the `NULL` call `TRUE`: the
subscription stays started. -/
theorem C26_drained_null_callback_witness :
    engine_two_pending.ops.write_fn ≠ 0 ∧
    aiofd_write_fn wr_accept_all (fun i _ => decide (i = 2)) 2 engine_two_pending
      = some ⟨⟨3, 4, [], true, true, 1, 0, ⟨5, 7, 9⟩⟩, true,
          [cb_event.write_complete 100, cb_event.write_complete 200,
           cb_event.write_complete 0],
          [⟨100, 3, false⟩, ⟨200, 2, false⟩]⟩ ∧
    [cb_event.write_complete 100, cb_event.write_complete 200, cb_event.write_complete 0]
      = engine_two_pending.wbuf.map (fun w => cb_event.write_complete w.data)
        ++ [cb_event.write_complete 0] ∧
    (⟨3, 4, [], true, true, 1, 0, ⟨5, 7, 9⟩⟩ : aiofd_t).wevt = true :=
  have h := C26_drained_null_callback engine_two_pending wr_accept_all
    (fun i _ => decide (i = 2)) 2
    ⟨⟨3, 4, [], true, true, 1, 0, ⟨5, 7, 9⟩⟩, true,
      [cb_event.write_complete 100, cb_event.write_complete 200, cb_event.write_complete 0],
      [⟨100, 3, false⟩, ⟨200, 2, false⟩]⟩ (by decide) (by decide) rfl
  ⟨by decide, by decide, h.1, by decide⟩

/-! ## The bitset -/

/-- The mask `~0x1f` clears the low five bits of a `size_t`. -/
theorem and_not_1f (x : Nat) (hx : x < 2 ^ 64) :
    x &&& 18446744073709551584 = x - x % 32 := by
  have e : x - x % 32 = (x >>> 5) <<< 5 := by
    rw [Nat.shiftRight_eq_div_pow, Nat.shiftLeft_eq]
    have := Nat.div_add_mod x 32
    norm_num
    omega
  rw [e]
  apply Nat.eq_of_testBit_eq
  intro i
  have hm : (18446744073709551584 : Nat) = 2 ^ 64 - (31 + 1) := by norm_num
  have h31 : (31 : Nat) = 2 ^ 5 - 1 := by norm_num
  rw [Nat.testBit_and, hm, Nat.testBit_two_pow_sub_succ (by norm_num), h31,
    Nat.testBit_two_pow_sub_one, Nat.testBit_shiftLeft, Nat.testBit_shiftRight]
  by_cases h5 : i < 5
  · have : ¬ i ≥ 5 := by omega
    simp [h5, this]
  · have h5' : i ≥ 5 := by omega
    have e2 : 5 + (i - 5) = i := by omega
    by_cases h64 : i < 64
    · simp [h5, h5', h64, e2]
    · have hxi : x < 2 ^ i :=
        lt_of_lt_of_le hx (Nat.pow_le_pow_right (by norm_num) (by omega))
      simp [h5, h5', h64, e2, Nat.testBit_lt_two_pow hxi]

/-- The word index of a bit number: the number with its low five bits
cleared. -/
theorem DWORD_INDEX_eq (b : Nat) (hb : b < 2 ^ 64) : DWORD_INDEX b = b - b % 32 := by
  simp only [DWORD_INDEX, SIZE_BITS, Nat.mod_eq_of_lt hb]
  exact and_not_1f b hb

/-- The number of words allocated, when `n + 31` does not wrap: `n` rounded up
to a multiple of 32. -/
theorem DWORDS_NEEDED_eq (n : Nat) (hn : n + 31 < 2 ^ 64) :
    DWORDS_NEEDED n = (n + 31) - (n + 31) % 32 := by
  simp only [DWORDS_NEEDED, SIZE_BITS, Nat.mod_eq_of_lt hn]
  exact and_not_1f (n + 31) hn

/-- The mask of a bit number. -/
theorem BIT_eq (b : Nat) : BIT b = 2 ^ (b % 32) := by
  have h31 : (31 : Nat) = 2 ^ 5 - 1 := by norm_num
  have hk : b % 32 < 32 := Nat.mod_lt _ (by norm_num)
  simp only [BIT]
  rw [h31, Nat.and_pow_two_sub_one_eq_mod, Nat.one_shiftLeft]
  have e32 : (2 : Nat) ^ 5 = 32 := by norm_num
  rw [e32]
  exact Nat.mod_eq_of_lt (Nat.pow_lt_pow_right (by norm_num : 1 < 2) hk)

/-- Testing a word against a one-bit mask reads that bit. -/
theorem and_two_pow_ne_zero (w k : Nat) : decide (w &&& 2 ^ k ≠ 0) = w.testBit k := by
  rw [Nat.and_two_pow]
  cases h : w.testBit k <;> simp

/-- The word index of an in-range bit is inside the allocated array. -/
theorem DWORD_INDEX_lt (n b : Nat) (hn : n + 31 < 2 ^ 64) (hb : b < n) :
    DWORD_INDEX b < DWORDS_NEEDED n := by
  rw [DWORD_INDEX_eq b (by omega), DWORDS_NEEDED_eq n hn]
  omega

/-- The function `bset_test` on an in-range bit reads bit `b mod 32` of word
`DWORD_INDEX(b)`. -/
theorem bset_test_some (bset : bitset_t) (ws : List Nat) (b : Nat)
    (hbits : bset.bits = some ws) (hb : b < bset.num_bits) :
    bset_test bset b = (ws[DWORD_INDEX b]?).map (fun w => w.testBit (b % 32)) := by
  simp only [bset_test, hb, not_true_eq_false, if_false, hbits, Option.bind_eq_bind,
    Option.some_bind, BIT_eq]
  cases ws[DWORD_INDEX b]? with
  | none => rfl
  | some w =>
    show some (decide (w &&& 2 ^ (b % 32) ≠ 0)) = some (w.testBit (b % 32))
    rw [and_two_pow_ne_zero]

/-- Bit `j` of a word after the mask of bit `k` is or-ed in. -/
theorem set_testBit (w k j : Nat) :
    (w ||| 2 ^ k).testBit j = (w.testBit j || decide (k = j)) := by
  rw [Nat.testBit_or, Nat.testBit_two_pow]

/-- Bit `j` of a word after the complement of the mask of bit `k` is and-ed
in. -/
theorem clear_testBit (w k j : Nat) (hj : j < 32) :
    (w &&& (2 ^ k ^^^ 4294967295)).testBit j = (w.testBit j && !decide (k = j)) := by
  have hff : (4294967295 : Nat) = 2 ^ 32 - 1 := by norm_num
  rw [hff, Nat.testBit_and, Nat.testBit_xor, Nat.testBit_two_pow, Nat.testBit_two_pow_sub_one]
  simp [hj]

/-- Two bit numbers with the same word index and the same position in the word
are equal. -/
theorem bit_of_index_pos (b1 b2 : Nat) (h1 : b1 < 2 ^ 64) (h2 : b2 < 2 ^ 64)
    (hi : DWORD_INDEX b1 = DWORD_INDEX b2) (hk : b1 % 32 = b2 % 32) : b1 = b2 := by
  rw [DWORD_INDEX_eq b1 h1, DWORD_INDEX_eq b2 h2] at hi
  omega

/-- The sweep loop of `bset_clear_all` / `bset_set_all` stays inside an array
that has the swept number of words and stores the value in every word. -/
theorem bset_sweep_spec (v : Nat) : ∀ (k i : Nat) (ws : List Nat), i + k = ws.length →
    ∃ ws1, bset_sweep v k i ws = some ws1 ∧ ws1.length = ws.length ∧
      ∀ j, j < ws.length → ws1[j]? = if i ≤ j then some v else ws[j]?
  | 0, i, ws, h => by
    refine ⟨ws, rfl, rfl, fun j hj => ?_⟩
    have : ¬ i ≤ j := by omega
    simp [this]
  | k + 1, i, ws, h => by
    have hi : i < ws.length := by omega
    obtain ⟨ws1, h1, h2, h3⟩ := bset_sweep_spec v k (i + 1) (ws.set i v) (by simp; omega)
    refine ⟨ws1, by simp [bset_sweep, hi, h1], by simpa using h2, fun j hj => ?_⟩
    rw [h3 j (by simpa using hj)]
    by_cases c1 : i + 1 ≤ j
    · have : i ≤ j := by omega
      simp [c1, this]
    · by_cases c2 : i = j
      · subst c2
        simp [hi]
      · have : ¬ i ≤ j := by omega
        simp [c1, this, List.getElem?_set_ne c2]

/-- C38. A bitset of `n` bits with its word array (`bset_wf`) and `b < n`:
`bset_set(b)` returns `TRUE` and afterwards `bset_test(b)` is `TRUE`;
`bset_clear(b)` returns `TRUE` and afterwards `bset_test(b)` is `FALSE`; in
both cases `bset_test` of every other bit below `n` is as before.  Two bit
numbers with the same word index `DWORD_INDEX` and the same mask `BIT` are
equal. -/
theorem C38_set_clear_test (bset : bitset_t) (hwf : bset_wf bset) (b : Nat)
    (hb : b < bset.num_bits) :
    (∃ s, bset_set bset b = some (s, true) ∧ bset_wf s ∧ s.num_bits = bset.num_bits ∧
      bset_test s b = some true ∧
      ∀ b1, b1 < bset.num_bits → b1 ≠ b → bset_test s b1 = bset_test bset b1) ∧
    (∃ c, bset_clear bset b = some (c, true) ∧ bset_wf c ∧ c.num_bits = bset.num_bits ∧
      bset_test c b = some false ∧
      ∀ b1, b1 < bset.num_bits → b1 ≠ b → bset_test c b1 = bset_test bset b1) ∧
    (∀ b1 b2, b1 < 2 ^ 64 → b2 < 2 ^ 64 → DWORD_INDEX b1 = DWORD_INDEX b2 →
      BIT b1 = BIT b2 → b1 = b2) := by
  obtain ⟨hn0, hn, ws, hbits, hlen⟩ := hwf
  have hn' : bset.num_bits + 31 < 2 ^ 64 := hn
  have hidx : DWORD_INDEX b < ws.length := by
    rw [hlen]; exact DWORD_INDEX_lt _ _ hn' hb
  have hk : b % 32 < 32 := Nat.mod_lt _ (by norm_num)
  have hget : ws[DWORD_INDEX b]? = some ws[DWORD_INDEX b] := List.getElem?_eq_getElem hidx
  -- every other bit below `n` sits in another word or at another position
  have hother : ∀ b1, b1 < bset.num_bits → b1 ≠ b →
      DWORD_INDEX b1 = DWORD_INDEX b → b % 32 ≠ b1 % 32 := by
    intro b1 hb1 hne hi c
    exact hne (bit_of_index_pos b1 b (by omega) (by omega) hi c.symm)
  have htest : ∀ (ws1 : List Nat) (b1 : Nat), b1 < bset.num_bits →
      bset_test ⟨some ws1, bset.num_bits⟩ b1
        = (ws1[DWORD_INDEX b1]?).map (fun w => w.testBit (b1 % 32)) :=
    fun ws1 b1 hb1 => bset_test_some ⟨some ws1, bset.num_bits⟩ ws1 b1 rfl hb1
  refine ⟨?_, ?_, ?_⟩
  · refine ⟨⟨some (ws.set (DWORD_INDEX b) (ws[DWORD_INDEX b] ||| BIT b)), bset.num_bits⟩,
      ?_, ⟨hn0, hn, _, rfl, by simpa using hlen⟩, rfl, ?_, ?_⟩
    · simp [bset_set, hb, hbits, hget]
    · rw [htest _ b hb, BIT_eq]
      simp [hidx, set_testBit]
    · intro b1 hb1 hne
      rw [htest _ b1 hb1, bset_test_some bset ws b1 hbits hb1]
      by_cases hi : DWORD_INDEX b1 = DWORD_INDEX b
      · have hkk := hother b1 hb1 hne hi
        rw [hi, hget, BIT_eq]
        simp [hidx, set_testBit, hkk]
      · rw [List.getElem?_set_ne (Ne.symm hi)]
  · refine ⟨⟨some (ws.set (DWORD_INDEX b) (ws[DWORD_INDEX b] &&& (BIT b ^^^ 4294967295))),
      bset.num_bits⟩, ?_, ⟨hn0, hn, _, rfl, by simpa using hlen⟩, rfl, ?_, ?_⟩
    · simp [bset_clear, hb, hbits, hget]
    · rw [htest _ b hb, BIT_eq]
      simp [hidx, clear_testBit _ _ _ hk]
    · intro b1 hb1 hne
      rw [htest _ b1 hb1, bset_test_some bset ws b1 hbits hb1]
      by_cases hi : DWORD_INDEX b1 = DWORD_INDEX b
      · have hkk := hother b1 hb1 hne hi
        have hk1 : b1 % 32 < 32 := Nat.mod_lt _ (by norm_num)
        rw [hi, hget, BIT_eq]
        simp [hidx, clear_testBit _ _ _ hk1, hkk]
      · rw [List.getElem?_set_ne (Ne.symm hi)]
  · intro b1 b2 h1 h2 hi hm
    rw [BIT_eq, BIT_eq] at hm
    exact bit_of_index_pos b1 b2 h1 h2 hi (Nat.pow_right_injective (le_refl 2) hm)

/-- The bitset `bset_forty` has its word array. -/
theorem bset_wf_forty : bset_wf bset_forty :=
  ⟨by decide, by decide, _, rfl, by decide⟩

/-- Witness of C38: bit 3 of `bset_forty`. -/
theorem C38_set_clear_test_witness :
    bset_wf bset_forty ∧ 3 < bset_forty.num_bits ∧
    ∃ s, bset_set bset_forty 3 = some (s, true) ∧ bset_wf s ∧
      s.num_bits = bset_forty.num_bits ∧ bset_test s 3 = some true ∧
      ∀ b1, b1 < bset_forty.num_bits → b1 ≠ 3 → bset_test s b1 = bset_test bset_forty b1 :=
  ⟨bset_wf_forty, by decide, (C38_set_clear_test bset_forty bset_wf_forty 3 (by decide)).1⟩

/-- C39 (code defect). For `num_bits = 2 ^ 64 - 1` the addition in
`DWORDS_NEEDED` wraps and the word count is 0: `bset_new`, the allocations
succeeding, returns a bitset of `2 ^ 64 - 1` bits over an array of zero words,
and `bset_set`, `bset_clear` and `bset_test` of bit 0 pass the range check and
access word 0 outside that array.  Whenever `n + 31` does not wrap, the word
index of every `b < n` is below `DWORDS_NEEDED(n)`, the three functions stay
inside the array, and the sweeps of `bset_clear_all` / `bset_set_all` cover
exactly the allocated words; for `b >= num_bits` the three functions return
`FALSE` and leave the bitset as it is. -/
theorem C39_word_count_wraps_to_zero :
    DWORDS_NEEDED 18446744073709551615 = 0 ∧
    bset_new true true 18446744073709551615 = some ⟨some [], 18446744073709551615⟩ ∧
    bset_set ⟨some [], 18446744073709551615⟩ 0 = none ∧
    bset_clear ⟨some [], 18446744073709551615⟩ 0 = none ∧
    bset_test ⟨some [], 18446744073709551615⟩ 0 = none ∧
    (∀ n b, n + 31 < 2 ^ 64 → b < n → DWORD_INDEX b < DWORDS_NEEDED n) ∧
    (∀ n, 0 < n → n + 31 < 2 ^ 64 → bset_wf ( bset_initialize true ⟨none, 0⟩ n)) ∧
    (∀ bset, bset_wf bset →
      (∀ b, b < bset.num_bits → ∃ s c t, bset_set bset b = some (s, true) ∧
        bset_clear bset b = some (c, true) ∧ bset_test bset b = some t) ∧
      bset_clear_all bset
        = some ⟨some (List.replicate (DWORDS_NEEDED bset.num_bits) 0), bset.num_bits⟩ ∧
      bset_set_all bset
        = some ⟨some (List.replicate (DWORDS_NEEDED bset.num_bits) 4294967295),
            bset.num_bits⟩) ∧
    (∀ (bset : bitset_t) (b : Nat), ¬ b < bset.num_bits →
      bset_set bset b = some (bset, false) ∧ bset_clear bset b = some (bset, false) ∧
      bset_test bset b = some false) := by
  refine ⟨by decide, by decide, by decide, by decide, by decide, DWORD_INDEX_lt, ?_, ?_, ?_⟩
  · intro n h0 hn
    have e : bset_initialize true ⟨none, 0⟩ n
        = ⟨some (List.replicate (DWORDS_NEEDED n) 0), n⟩ := by
      simp [ bset_initialize, h0]
    rw [e]
    exact ⟨h0, hn, _, rfl, by simp⟩
  · intro bset hwf
    obtain ⟨hn0, hn, ws, hbits, hlen⟩ := hwf
    refine ⟨?_, ?_, ?_⟩
    · intro b hb
      have hidx : DWORD_INDEX b < ws.length := by
        rw [hlen]; exact DWORD_INDEX_lt _ _ hn hb
      have hget : ws[DWORD_INDEX b]? = some ws[DWORD_INDEX b] := List.getElem?_eq_getElem hidx
      exact ⟨⟨some (ws.set (DWORD_INDEX b) (ws[DWORD_INDEX b] ||| BIT b)), bset.num_bits⟩,
        ⟨some (ws.set (DWORD_INDEX b) (ws[DWORD_INDEX b] &&& (BIT b ^^^ 4294967295))),
          bset.num_bits⟩,
        decide (ws[DWORD_INDEX b] &&& BIT b ≠ 0),
        by simp [bset_set, hb, hbits, hget],
        by simp [bset_clear, hb, hbits, hget], by simp [bset_test, hb, hbits, hget]⟩
    · obtain ⟨ws1, h1, h2, h3⟩ := bset_sweep_spec 0 ws.length 0 ws (by simp)
      have e : ws1 = List.replicate (DWORDS_NEEDED bset.num_bits) 0 := by
        apply List.ext_getElem?
        intro j
        by_cases hj : j < ws.length
        · rw [h3 j hj, List.getElem?_replicate]
          simp [← hlen, hj]
        · rw [List.getElem?_eq_none (by omega), List.getElem?_eq_none (by simp; omega)]
      rw [hlen] at h1
      simp [bset_clear_all, hn0, hbits, h1, e]
    · obtain ⟨ws1, h1, h2, h3⟩ := bset_sweep_spec 4294967295 ws.length 0 ws (by simp)
      have e : ws1 = List.replicate (DWORDS_NEEDED bset.num_bits) 4294967295 := by
        apply List.ext_getElem?
        intro j
        by_cases hj : j < ws.length
        · rw [h3 j hj, List.getElem?_replicate]
          simp [← hlen, hj]
        · rw [List.getElem?_eq_none (by omega), List.getElem?_eq_none (by simp; omega)]
      rw [hlen] at h1
      simp [bset_set_all, hn0, hbits, h1, e]
  · intro bset b hb
    simp [bset_set, bset_clear, bset_test, hb]

/-! ## Descriptor hygiene -/

/-- The inner loop of `sanitize_files` finds out whether `fd` occurs among the
entries it scans. -/
theorem keep_scan_spec (keep : List Int) (fd : Int) : ∀ (k i : Nat) (skip : Bool),
    i + k ≤ keep.length →
    keep_scan keep fd k i skip = some (skip || decide (fd ∈ (keep.drop i).take k))
  | 0, i, skip, _ => by simp [keep_scan]
  | k + 1, i, skip, h => by
    have hi : i < keep.length := by omega
    have hd : keep.drop i = keep[i] :: keep.drop (i + 1) := List.drop_eq_getElem_cons hi
    rw [keep_scan, List.getElem?_eq_getElem hi]
    simp only
    rw [keep_scan_spec keep fd k (i + 1) _ (by omega), hd, List.take_succ_cons]
    by_cases c : keep[i] = fd
    · simp [c]
    · have c' : ¬ fd = keep[i] := fun e => c e.symm
      simp [c, c']

/-- The first loop of `sanitize_files` closes, in increasing order, the
descriptors of its range that do not occur in `keep[0..nfds)`. -/
theorem close_loop_spec (keep : List Int) (nfds : Int) (hk : nfds.toNat ≤ keep.length) :
    ∀ (k : Nat) (fd : Int) (closed : List Int),
      close_loop keep nfds k fd closed
        = some (closed ++ ((List.range k).map (fun j : Nat => fd + (j : Int))).filter
            (fun x => decide (x ∉ keep.take nfds.toNat)))
  | 0, fd, closed => by simp [close_loop]
  | k + 1, fd, closed => by
    have hs := keep_scan_spec keep fd nfds.toNat 0 false (by omega)
    simp only [List.drop_zero, Bool.false_or] at hs
    rw [close_loop, hs]
    simp only
    rw [close_loop_spec keep nfds hk k (fd + 1), List.range_succ_eq_map, List.map_cons,
      List.map_map]
    have hm : ((fun j : Nat => fd + (j : Int)) ∘ Nat.succ)
        = (fun j : Nat => fd + 1 + (j : Int)) := by
      funext j
      simp only [Function.comp, Nat.succ_eq_add_one, Nat.cast_add, Nat.cast_one]
      ring
    rw [hm]
    by_cases c : fd ∈ keep.take nfds.toNat
    · simp [c, List.filter_cons]
    · simp [c, List.filter_cons]

/-- A standard descriptor passes the second loop of `sanitize_files` when it is
open, or closed (`EBADF`) and reopened on `/dev/null` with its own number. -/
theorem std_loop_spec (env : san_env) : ∀ (k : Nat) (fd : Int),
    (std_loop env k fd = true ↔
      ∀ j : Nat, j < k → env.fstat (fd + j) = none ∨
        (env.fstat (fd + j) = some EBADF ∧ open_devnull env (fd + j) = true))
  | 0, fd => by simp [std_loop]
  | k + 1, fd => by
    have ih := std_loop_spec env k (fd + 1)
    have hsplit : ∀ P : Nat → Prop, (∀ j : Nat, j < k + 1 → P j) ↔
        (P 0 ∧ ∀ j : Nat, j < k → P (j + 1)) := by
      intro P
      constructor
      · intro h
        exact ⟨h 0 (by omega), fun j hj => h (j + 1) (by omega)⟩
      · rintro ⟨h0, h1⟩ j hj
        cases j with
        | zero => exact h0
        | succ j => exact h1 j (by omega)
    rw [hsplit]
    have hshift : ∀ j : Nat, fd + ((j + 1 : Nat) : Int) = fd + 1 + (j : Int) := by
      intro j; push_cast; ring
    simp only [hshift, Nat.cast_zero, add_zero]
    rw [← ih]
    rw [std_loop]
    cases hf : env.fstat fd with
    | none => simp
    | some errno =>
      by_cases he : errno = EBADF
      · subst he
        cases ho : open_devnull env fd <;> simp [ho]
      · simp [he]

/-- Reopening a standard descriptor succeeds exactly when `freopen` returns a
stream on that descriptor. -/
theorem open_devnull_std (env : san_env) (fd : Int) (h : fd = 0 ∨ fd = 1 ∨ fd = 2) :
    open_devnull env fd = true ↔ env.freopen fd = some fd := by
  rcases h with h | h | h <;> subst h <;>
    simp only [open_devnull, STDIN_FILENO, STDOUT_FILENO, STDERR_FILENO] <;>
    · norm_num
      split <;> simp_all

/-- C40. `sanitize_files(keep, nfds)` on a `keep` array of at least `nfds`
entries, `fds` being the descriptor-table size (`OPEN_MAX` when
`GETDTABLESIZE()` is `-1`): it returns, having called `close` once on each
descriptor `fd` with `3 <= fd < fds` that does not occur in `keep[0..nfds)`
and on no other descriptor (so never on 0, 1, 2 or a kept descriptor); the
result is `TRUE` exactly when each of the descriptors 0, 1 and 2 is open
(`FSTAT` succeeds) or is closed (`FSTAT` fails with `EBADF`) and `freopen` on
`/dev/null` gives a stream on that same descriptor. -/
theorem C40_sanitize_files (env : san_env) (keep : List Int) (nfds : Int)
    (hk : nfds.toNat ≤ keep.length) :
    ∃ out, sanitize_files env keep nfds = some out ∧
      (∀ fd : Int, fd ∈ out.closed ↔
        (3 ≤ fd ∧ fd < san_fds env ∧ fd ∉ keep.take nfds.toNat)) ∧
      out.closed.Nodup ∧
      (out.ret = true ↔ ∀ fd ∈ ([0, 1, 2] : List Int),
        env.fstat fd = none ∨ (env.fstat fd = some EBADF ∧ env.freopen fd = some fd)) := by
  have hc := close_loop_spec keep nfds hk (san_fds env - (STDERR_FILENO + 1)).toNat
    (STDERR_FILENO + 1) []
  rw [List.nil_append] at hc
  have hs : sanitize_files env keep nfds = some ⟨std_loop env 3 STDIN_FILENO,
      ((List.range (san_fds env - (STDERR_FILENO + 1)).toNat).map
        (fun j : Nat => STDERR_FILENO + 1 + (j : Int))).filter
        (fun x => decide (x ∉ keep.take nfds.toNat))⟩ := by
    simp only [sanitize_files, hc]
  refine ⟨_, hs, ?_, ?_, ?_⟩
  · intro fd
    simp only [List.mem_filter, List.mem_map, List.mem_range,
      decide_eq_true_eq, STDERR_FILENO]
    constructor
    · rintro ⟨⟨j, hj, rfl⟩, hnk⟩
      exact ⟨by omega, by omega, hnk⟩
    · rintro ⟨h3, hf, hnk⟩
      exact ⟨⟨(fd - 3).toNat, by omega, by omega⟩, hnk⟩
  · apply List.Nodup.filter
    apply List.Nodup.map _ (List.nodup_range _)
    intro a b hab
    simpa using hab
  · show std_loop env 3 STDIN_FILENO = true ↔ _
    rw [std_loop_spec]
    simp only [STDIN_FILENO, zero_add]
    constructor
    · intro h fd hfd
      simp only [List.mem_cons, List.mem_singleton, List.not_mem_nil, or_false] at hfd
      have hstd : fd = 0 ∨ fd = 1 ∨ fd = 2 := hfd
      obtain ⟨j, hj, rfl⟩ : ∃ j : Nat, j < 3 ∧ fd = (j : Int) := by
        rcases hfd with h0 | h0 | h0 <;> subst h0
        · exact ⟨0, by omega, rfl⟩
        · exact ⟨1, by omega, rfl⟩
        · exact ⟨2, by omega, rfl⟩
      rcases h j hj with h1 | ⟨h1, h2⟩
      · exact Or.inl h1
      · exact Or.inr ⟨h1, (open_devnull_std env _ hstd).mp h2⟩
    · intro h j hj
      have hstd : (j : Int) = 0 ∨ (j : Int) = 1 ∨ (j : Int) = 2 := by omega
      have hm : (j : Int) ∈ ([0, 1, 2] : List Int) := by
        simp only [List.mem_cons, List.mem_singleton, List.not_mem_nil, or_false]
        exact hstd
      rcases h _ hm with h1 | ⟨h1, h2⟩
      · exact Or.inl h1
      · exact Or.inr ⟨h1, (open_devnull_std env _ hstd).mpr h2⟩

/-- Witness of C40: the table `san_env_small` of 8 descriptors, descriptor 5
kept: 3, 4, 6 and 7 are closed, descriptor 1 is reopened, the result is
`TRUE`. -/
theorem C40_sanitize_files_witness :
    (1 : Int).toNat ≤ [(5 : Int)].length ∧
    sanitize_files san_env_small [5] 1 = some ⟨true, [3, 4, 6, 7]⟩ ∧
    ∃ out, sanitize_files san_env_small [5] 1 = some out ∧
      (∀ fd : Int, fd ∈ out.closed ↔
        (3 ≤ fd ∧ fd < san_fds san_env_small ∧ fd ∉ [(5 : Int)].take (1 : Int).toNat)) ∧
      out.closed.Nodup ∧
      (out.ret = true ↔ ∀ fd ∈ ([0, 1, 2] : List Int),
        san_env_small.fstat fd = none ∨
          (san_env_small.fstat fd = some EBADF ∧ san_env_small.freopen fd = some fd)) :=
  ⟨by decide, by decide, C40_sanitize_files san_env_small [5] 1 (by decide)⟩

end Cutil
